import Mathlib

/-!
Verification model of `src/calculator.py` (a tkinter calculator).

The source stores the expression as a string of button characters
(digits, '.', '+', '−', '×', '÷', '%').  `Calculator.calculate` replaces
the display symbols '÷' '×' '−' by '/' '*' '-' and hands the string to
Python's `eval`; it then classifies `ZeroDivisionError`, `SyntaxError`
and any other exception, resets the expression on every error, and on
success formats the numeric result (floats are rounded to 10 decimal
places, values that are mathematically integers are printed without a
decimal point, other floats without trailing zeros) and stores the
formatted string back into the expression.

The embedding below models that pipeline exactly for the character
alphabet reachable from the UI:

* `replaceSyms` is the symbol replacement of line 177.
* `lexF`/`tokenize` is CPython's tokenizer restricted to this alphabet:
  numeric literals (integer literals must not have superfluous leading
  zeros; float literals may), the operators `+ - * / // ** %`
  (maximal munch, so a doubled '÷' really is Python floor division and a
  doubled '×' is Python power), the `...` (ELLIPSIS) token — three
  presses of the '.' key — and identifiers (NAME tokens, a maximal run
  of letters/digits/underscores starting with a letter or underscore).
  Identifiers matter because a successful `...` evaluation stores the
  string `Ellipsis` in the expression, making letters reachable.  Since
  letters enter the expression only by that whole-string store (keypad
  appends only digits and operators at the end), a digit never
  immediately precedes a letter in any reachable expression, so
  scientific-notation literals such as `5E3` and non-ASCII identifiers
  are unreachable and outside the model.
* `scan`, `collapsePow` and `runFlat` implement Python's expression
  grammar for these tokens: unary sign chains, then `**`
  (right-associative, binding the literal to its left and a signed
  operand to its right), then `* / // %`, then `+ -`, both binary levels
  left-associative, with operands evaluated left to right.
* Runtime values (`PV`) are numbers or the `Ellipsis` object: `...`
  evaluates to `Ellipsis`, the name `Ellipsis` to the same builtin
  object, any other name to `NameError` (`PyErr.nameErr`), and any
  arithmetic operation or unary sign applied to the ellipsis object to
  `TypeError` (`PyErr.typeErr`); both take the source's generic
  `except` branch.  Operands are evaluated before an operator is
  applied, so `...+1÷0` is a `ZeroDivisionError` while `...+5` is a
  `TypeError`, as in CPython.
* Numbers are exact: Python's arbitrary-precision integers are `ℤ` and
  its floats are idealised as exact fractions (`Frac`, an unnormalised
  numerator/denominator pair).  Consequences of IEEE-754 (rounding of
  `/`, overflow to infinity, the `float('inf')` check on line 183, and
  scientific-notation reprs of extreme magnitudes) are outside the
  model; power with a non-integral exponent leaves the rationals and is
  mapped to the distinguished error `PyErr.nonRational`.
* `format` is the result formatting of lines 186-196, `strOf` is the
  `str(result)` actually stored (formatted number, or the string
  `Ellipsis`), and `calcStep` is the whole of `calculate`: the pair of
  the new expression value and the optional error classification
  (`CalcErr`).
-/

/-! ## Exact numbers: integers and idealised floats -/

/-- Unnormalised fraction: numerator over a natural denominator.  All
evaluator-produced fractions have a positive denominator. -/
structure Frac where
  n : ℤ
  d : ℕ
deriving DecidableEq, Repr

/-- Rational value of a fraction (spec-side bridge). -/
def fracVal (x : Frac) : ℚ := (x.n : ℚ) / (x.d : ℚ)

/-- A Python number: `int` or (idealised, exact) `float`. -/
inductive Value where
  | i : ℤ → Value
  | f : Frac → Value
deriving DecidableEq, Repr

/-- Rational value of a Python number (spec-side bridge). -/
def ratOfV : Value → ℚ
  | .i n => n
  | .f x => fracVal x

/-- The float part, if any, has a positive denominator. -/
def VPos : Value → Prop
  | .i _ => True
  | .f x => 0 < x.d

def fneg (x : Frac) : Frac := ⟨-x.n, x.d⟩

def fadd (x y : Frac) : Frac := ⟨x.n * (y.d : ℤ) + y.n * (x.d : ℤ), x.d * y.d⟩

def fsub (x y : Frac) : Frac := ⟨x.n * (y.d : ℤ) - y.n * (x.d : ℤ), x.d * y.d⟩

def fmul (x y : Frac) : Frac := ⟨x.n * y.n, x.d * y.d⟩

/-- Reciprocal, keeping the denominator a natural number.  Only used
behind a zero test on the numerator. -/
def finv (x : Frac) : Frac := if x.n < 0 then ⟨-(x.d : ℤ), x.n.natAbs⟩ else ⟨(x.d : ℤ), x.n.natAbs⟩

def fdivF (x y : Frac) : Frac := fmul x (finv y)

/-- View any value as a fraction. -/
def toF : Value → Frac
  | .i n => ⟨n, 1⟩
  | .f x => x

/-- Floor of a fraction, computed on the integer pair. -/
def myFloorF (x : Frac) : ℤ := Int.fdiv x.n x.d

def ipow (m : ℤ) : ℕ → ℤ
  | 0 => 1
  | k + 1 => ipow m k * m

def npowN (m : ℕ) : ℕ → ℕ
  | 0 => 1
  | k + 1 => npowN m k * m

def fpow (x : Frac) (k : ℕ) : Frac := ⟨ipow x.n k, npowN x.d k⟩

/-- Runtime errors of the idealised evaluator.  `zeroDiv` is Python's
`ZeroDivisionError`; `typeErr` is a `TypeError` (an operator applied to
the `Ellipsis` object); `nameErr` is a `NameError` (an undefined name);
`nonRational` marks the model boundary (a `**` whose exact result is
not rational, reachable only through the undocumented doubled-'×' power
operator).  All but `zeroDiv` are handled by the source's generic
`except` branch. -/
inductive PyErr where
  | zeroDiv
  | nonRational
  | typeErr
  | nameErr
deriving DecidableEq, Repr

abbrev EV := Except PyErr Value

instance : DecidableEq EV
  | .error a, .error b =>
    if h : a = b then .isTrue (h ▸ rfl) else .isFalse fun hh => h (Except.error.inj hh)
  | .ok a, .ok b =>
    if h : a = b then .isTrue (h ▸ rfl) else .isFalse fun hh => h (Except.ok.inj hh)
  | .error _, .ok _ => .isFalse fun hh => Except.noConfusion hh
  | .ok _, .error _ => .isFalse fun hh => Except.noConfusion hh

def vneg : Value → Value
  | .i n => .i (-n)
  | .f x => .f (fneg x)

def vadd : Value → Value → Value
  | .i a, .i b => .i (a + b)
  | .i a, .f y => .f (fadd ⟨a, 1⟩ y)
  | .f x, .i b => .f (fadd x ⟨b, 1⟩)
  | .f x, .f y => .f (fadd x y)

def vsub : Value → Value → Value
  | .i a, .i b => .i (a - b)
  | .i a, .f y => .f (fsub ⟨a, 1⟩ y)
  | .f x, .i b => .f (fsub x ⟨b, 1⟩)
  | .f x, .f y => .f (fsub x y)

def vmul : Value → Value → Value
  | .i a, .i b => .i (a * b)
  | .i a, .f y => .f (fmul ⟨a, 1⟩ y)
  | .f x, .i b => .f (fmul x ⟨b, 1⟩)
  | .f x, .f y => .f (fmul x y)

/-- Python `/`: true division, always a float, `ZeroDivisionError` on a
zero divisor. -/
def vdiv (a b : Value) : EV :=
  if (toF b).n = 0 then .error .zeroDiv else .ok (.f (fdivF (toF a) (toF b)))

/-- Python `//`: floor division; `int // int` is an `int`, otherwise the
floor as a float. -/
def vddiv (a b : Value) : EV :=
  if (toF b).n = 0 then .error .zeroDiv
  else
    match a, b with
    | .i m, .i n => .ok (.i (Int.fdiv m n))
    | a, b => .ok (.f ⟨myFloorF (fdivF (toF a) (toF b)), 1⟩)

/-- Python `%`: floored modulo, `a - b * floor(a / b)`; `int % int` is an
`int`. -/
def vmod (a b : Value) : EV :=
  if (toF b).n = 0 then .error .zeroDiv
  else
    match a, b with
    | .i m, .i n => .ok (.i (Int.fmod m n))
    | a, b => .ok (.f (fsub (toF a) (fmul (toF b) ⟨myFloorF (fdivF (toF a) (toF b)), 1⟩)))

/-- Python `**` on exact numbers.  `int ** nonnegative int` stays `int`;
a negative integer exponent gives a float (error on zero base); a float
exponent with an integral value is computed exactly; any other float
exponent leaves ℚ and is flagged `nonRational`. -/
def vpow (a b : Value) : EV :=
  match b with
  | .i e =>
    if 0 ≤ e then
      match a with
      | .i m => .ok (.i (ipow m e.toNat))
      | .f x => .ok (.f (fpow x e.toNat))
    else if (toF a).n = 0 then .error .zeroDiv
    else .ok (.f (fpow (finv (toF a)) (-e).toNat))
  | .f ex =>
    if (toF a).n = 0 then
      if 0 < ex.n then .ok (.f ⟨0, 1⟩)
      else if ex.n = 0 then .ok (.f ⟨1, 1⟩)
      else .error .zeroDiv
    else if ex.n % (ex.d : ℤ) = 0 then
      if 0 ≤ Int.fdiv ex.n (ex.d : ℤ) then .ok (.f (fpow (toF a) (Int.fdiv ex.n (ex.d : ℤ)).toNat))
      else .ok (.f (fpow (finv (toF a)) (-(Int.fdiv ex.n (ex.d : ℤ))).toNat))
    else .error .nonRational

/-! ## Lexing the replaced expression string -/

/-- Line 177: replace the display symbols by Python operators. -/
def replaceSyms (e : List Char) : List Char :=
  e.map fun c => if c = '÷' then '/' else if c = '×' then '*' else if c = '−' then '-' else c

def dval (c : Char) : ℕ := c.toNat - 48

def pow10 : ℕ → ℕ
  | 0 => 1
  | k + 1 => 10 * pow10 k

/-- Munch a maximal digit run, folding the digits onto `acc`; returns
the folded value, the number of digits consumed and the rest. -/
def munch (acc : ℕ) : List Char → ℕ × ℕ × List Char
  | [] => (acc, 0, [])
  | c :: cs =>
    if c.isDigit then
      let r := munch (10 * acc + dval c) cs
      (r.1, r.2.1 + 1, r.2.2)
    else (acc, 0, c :: cs)

/-- Identifier start characters (ASCII letters or underscore), as in
CPython's tokenizer on the characters reachable in this program. -/
def isIdentStart (c : Char) : Bool := c.isAlpha || c = '_'

/-- Identifier continuation characters. -/
def isIdentChar (c : Char) : Bool := c.isAlpha || c.isDigit || c = '_'

/-- Munch a maximal identifier-character run: the munched characters and
the rest. -/
def imunch : List Char → List Char × List Char
  | [] => ([], [])
  | c :: cs =>
    if isIdentChar c then
      let r := imunch cs
      (c :: r.1, r.2)
    else ([], c :: cs)

/-- Tokens of the replaced expression: numeric literals carrying their
value, Python's operators on this alphabet, the `...` (Ellipsis)
literal, and identifiers (names).  Names are reachable because a
successful evaluation of `...` stores the string `Ellipsis` back into
the expression. -/
inductive Tok where
  | lit : Value → Tok
  | add
  | sub
  | mul
  | div
  | ddiv
  | mod
  | pow
  | ell
  | name : List Char → Tok
deriving DecidableEq, Repr

/-- Fuelled tokenizer (fuel only for termination; `tokenize` supplies
enough).  Mirrors CPython's tokenizer on this alphabet: maximal-munch
numbers (`dd…d`, `dd…d.d…d`, `dd…d.`, `.d…d`), the leading-zero
restriction on integer literals, maximal munch of `**` and `//`, the
`...` ellipsis literal, and maximal-munch identifiers.  A bare `.` that
starts neither a number nor `...` is CPython's OP dot, which can never
be part of a valid expression over this alphabet, so it is folded into
the `SyntaxError` result `none`. -/
def lexF : ℕ → List Char → Option (List Tok)
  | _, [] => some []
  | 0, _ :: _ => none
  | fu + 1, c :: cs =>
    if c.isDigit then
      let m1 := munch (dval c) cs
      match m1.2.2 with
      | '.' :: r2 =>
        let m2 := munch 0 r2
        (lexF fu m2.2.2).map
          (fun ts => Tok.lit (.f ⟨(m1.1 * pow10 m2.2.1 + m2.1 : ℕ), pow10 m2.2.1⟩) :: ts)
      | r1 =>
        if c = '0' ∧ m1.1 ≠ 0 then none
        else (lexF fu r1).map (fun ts => Tok.lit (.i m1.1) :: ts)
    else if c = '.' then
      match cs with
      | '.' :: '.' :: r2 => (lexF fu r2).map (Tok.ell :: ·)
      | c2 :: r2 =>
        if c2.isDigit then
          let m2 := munch (dval c2) r2
          (lexF fu m2.2.2).map
            (fun ts => Tok.lit (.f ⟨(m2.1 : ℕ), pow10 (m2.2.1 + 1)⟩) :: ts)
        else none
      | [] => none
    else if c = '+' then (lexF fu cs).map (Tok.add :: ·)
    else if c = '-' then (lexF fu cs).map (Tok.sub :: ·)
    else if c = '%' then (lexF fu cs).map (Tok.mod :: ·)
    else if c = '*' then
      match cs with
      | '*' :: r2 => (lexF fu r2).map (Tok.pow :: ·)
      | _ => (lexF fu cs).map (Tok.mul :: ·)
    else if c = '/' then
      match cs with
      | '/' :: r2 => (lexF fu r2).map (Tok.ddiv :: ·)
      | _ => (lexF fu cs).map (Tok.div :: ·)
    else if isIdentStart c then
      let m := imunch cs
      (lexF fu m.2).map (Tok.name (c :: m.1) :: ·)
    else none

def tokenize (cs : List Char) : Option (List Tok) := lexF (cs.length + 1) cs

/-! ## Parsing and evaluating the token stream -/

/-- Binary operators as they appear between operands. -/
inductive BOp where
  | add
  | sub
  | mul
  | div
  | ddiv
  | mod
  | pow
deriving DecidableEq, Repr

def binOf : Tok → Option BOp
  | .lit _ => none
  | .add => some .add
  | .sub => some .sub
  | .mul => some .mul
  | .div => some .div
  | .ddiv => some .ddiv
  | .mod => some .mod
  | .pow => some .pow
  | .ell => none
  | .name _ => none

/-- Atoms of the expression grammar: a numeric literal, the `...`
literal, or a name. -/
inductive PAtom where
  | num : Value → PAtom
  | ell : PAtom
  | name : List Char → PAtom
deriving DecidableEq, Repr

/-- A signed operand: the unary sign chain (`true` = minus) and the
atom. -/
abbrev Item := List Bool × PAtom

/-- Consume a maximal chain of unary sign tokens. -/
def takeSigns : List Tok → List Bool × List Tok
  | .add :: ts => let r := takeSigns ts; (false :: r.1, r.2)
  | .sub :: ts => let r := takeSigns ts; (true :: r.1, r.2)
  | ts => ([], ts)

/-- After the first operand: repeatedly a binary operator followed by a
signed atom.  Rejects anything else (Python `SyntaxError`). -/
def scanF : ℕ → List Tok → Option (List (BOp × Item))
  | _, [] => some []
  | 0, _ :: _ => none
  | fu + 1, t :: ts =>
    match binOf t with
    | none => none
    | some b =>
      let s := takeSigns ts
      match s.2 with
      | Tok.lit v :: r2 => (scanF fu r2).map (fun l => (b, (s.1, PAtom.num v)) :: l)
      | Tok.ell :: r2 => (scanF fu r2).map (fun l => (b, (s.1, PAtom.ell)) :: l)
      | Tok.name n :: r2 => (scanF fu r2).map (fun l => (b, (s.1, PAtom.name n)) :: l)
      | _ => none

/-- Parse the token stream into a first signed operand and a list of
(operator, signed operand) pairs; `none` is Python's `SyntaxError`. -/
def scan (ts : List Tok) : Option (Item × List (BOp × Item)) :=
  let s := takeSigns ts
  match s.2 with
  | Tok.lit v :: r2 => (scanF (r2.length + 1) r2).map (fun l => ((s.1, PAtom.num v), l))
  | Tok.ell :: r2 => (scanF (r2.length + 1) r2).map (fun l => ((s.1, PAtom.ell), l))
  | Tok.name n :: r2 =>
    (scanF (r2.length + 1) r2).map (fun l => ((s.1, PAtom.name n), l))
  | _ => none

/-- Python runtime values reachable in this calculator: numbers and the
`Ellipsis` object. -/
inductive PV where
  | v : Value → PV
  | ell : PV
deriving DecidableEq, Repr

/-- Runtime outcome of a subexpression. -/
abbrev EVP := Except PyErr PV

instance : DecidableEq EVP
  | .error a, .error b =>
    if h : a = b then .isTrue (h ▸ rfl) else .isFalse fun hh => h (Except.error.inj hh)
  | .ok a, .ok b =>
    if h : a = b then .isTrue (h ▸ rfl) else .isFalse fun hh => h (Except.ok.inj hh)
  | .error _, .ok _ => .isFalse fun hh => Except.noConfusion hh
  | .ok _, .error _ => .isFalse fun hh => Except.noConfusion hh

/-- `str(Ellipsis)`. -/
def ellipsisChars : List Char := ['E', 'l', 'l', 'i', 'p', 's', 'i', 's']

/-- Evaluate an atom: a number is itself, `...` is the ellipsis object,
the name `Ellipsis` is the builtin ellipsis object, and any other name
raises `NameError` (handled by the source's generic `except` branch). -/
def atomVal : PAtom → EVP
  | .num v => .ok (.v v)
  | .ell => .ok .ell
  | .name n => if n = ellipsisChars then .ok .ell else .error .nameErr

def applySigns (sg : List Bool) (v : Value) : Value :=
  sg.foldl (fun w m => if m then vneg w else w) v

/-- Apply a unary sign chain to a runtime value: numbers negate; a
nonempty sign chain on the ellipsis object is Python's `TypeError`. -/
def applySignsP (sg : List Bool) : PV → EVP
  | .v w => .ok (.v (applySigns sg w))
  | .ell =>
    match sg with
    | [] => .ok .ell
    | _ :: _ => .error .typeErr

def uval (it : Item) : EVP := (atomVal it.2).bind (applySignsP it.1)

/-- Apply an `Item` as the left operand of `**` to an evaluated right
chain: Python's `power ::= primary ** u_expr` with the unary signs of
the item applied outside the power.  The base atom is evaluated first,
then the exponent; `**` with an ellipsis operand is a `TypeError`. -/
def pApply (it : Item) (r : EVP) : EVP :=
  (atomVal it.2).bind fun x => r.bind fun y =>
    match x, y with
    | .v a, .v b => (vpow a b).bind fun w => .ok (.v (applySigns it.1 w))
    | _, _ => .error .typeErr

/-- Binary operators surviving the power-collapsing pass. -/
inductive Op2 where
  | add
  | sub
  | mul
  | div
  | ddiv
  | mod
deriving DecidableEq, Repr

def op2Of : BOp → Op2
  | .add => .add
  | .sub => .sub
  | .mul => .mul
  | .div => .div
  | .ddiv => .ddiv
  | .mod => .mod
  | .pow => .mul

/-- Collapse the right-associative `**` chains, evaluating each signed
operand; yields the value of the first unary expression and the
remaining (additive/multiplicative operator, value) list. -/
def collapsePow : Item → List (BOp × Item) → EVP × List (Op2 × EVP)
  | it, [] => (uval it, [])
  | it, (BOp.pow, j) :: rest =>
    let r := collapsePow j rest
    (pApply it r.1, r.2)
  | it, (b, j) :: rest =>
    let r := collapsePow j rest
    (uval it, (op2Of b, r.1) :: r.2)

def okOf2 (g : Value → Value → Value) : Value → Value → EV := fun x y => .ok (g x y)

/-- Lift a numeric binary operation to runtime values: operands are
evaluated left to right (so an error in either operand propagates before
the operation is applied), and applying the operation to an ellipsis
operand is Python's `TypeError`. -/
def liftNum (g : Value → Value → EV) (a b : EVP) : EVP :=
  a.bind fun x => b.bind fun y =>
    match x, y with
    | .v xa, .v yb => (g xa yb).map PV.v
    | _, _ => .error .typeErr

def vaddP : EVP → EVP → EVP := liftNum (okOf2 vadd)
def vsubP : EVP → EVP → EVP := liftNum (okOf2 vsub)
def vmulP : EVP → EVP → EVP := liftNum (okOf2 vmul)
def vdivP : EVP → EVP → EVP := liftNum vdiv
def vddivP : EVP → EVP → EVP := liftNum vddiv
def vmodP : EVP → EVP → EVP := liftNum vmod

/-- Fold state: the additive sum so far (`none` until the first additive
operator), whether the pending additive operator is `-`, and the current
multiplicative term. -/
structure EvSt where
  sum : Option EVP
  isSub : Bool
  term : EVP
deriving Repr

def finish (st : EvSt) : EVP :=
  match st.sum with
  | none => st.term
  | some s => if st.isSub then vsubP s st.term else vaddP s st.term

/-- One operator step of the precedence fold: multiplicative operators
extend the current term, additive operators close it off. -/
def step (st : EvSt) (x : Op2 × EVP) : EvSt :=
  match x.1 with
  | .add => ⟨some (finish st), false, x.2⟩
  | .sub => ⟨some (finish st), true, x.2⟩
  | .mul => ⟨st.sum, st.isSub, vmulP st.term x.2⟩
  | .div => ⟨st.sum, st.isSub, vdivP st.term x.2⟩
  | .ddiv => ⟨st.sum, st.isSub, vddivP st.term x.2⟩
  | .mod => ⟨st.sum, st.isSub, vmodP st.term x.2⟩

/-- Evaluate a parsed expression: collapse powers, then a single
left-to-right precedence fold. -/
def runFlat (fl : Item × List (BOp × Item)) : EVP :=
  let c := collapsePow fl.1 fl.2
  finish (c.2.foldl step ⟨none, false, c.1⟩)

/-- The whole of `eval(calculation)` on line 180: `none` is a
`SyntaxError`, otherwise the runtime outcome. -/
def pyEval (e : List Char) : Option EVP :=
  match tokenize (replaceSyms e) with
  | none => none
  | some ts => (scan ts).map runFlat

/-! ## Result formatting (lines 186-196) -/

def tenPow10 : ℕ := 10000000000

/-- Round a fraction to the nearest integer, ties to even (Python's
`round`). -/
def rheF (x : Frac) : ℤ :=
  let fl := myFloorF x
  let r2 := 2 * (x.n - fl * (x.d : ℤ))
  if r2 < (x.d : ℤ) then fl
  else if (x.d : ℤ) < r2 then fl + 1
  else if fl % 2 = 0 then fl else fl + 1

/-- `round(x, 10)` scaled by `10^10`: the integer `round(x * 10^10)`. -/
def mOf (x : Frac) : ℤ := rheF ⟨x.n * (tenPow10 : ℤ), x.d⟩

def natCharsF : ℕ → ℕ → List Char
  | 0, _ => []
  | fu + 1, n => if n < 10 then [Nat.digitChar n] else natCharsF fu (n / 10) ++ [Nat.digitChar (n % 10)]

/-- Decimal digits of a natural number, most significant first. -/
def natChars (n : ℕ) : List Char := natCharsF (n + 1) n

/-- Python `str` of an integer. -/
def intChars (n : ℤ) : List Char := if n < 0 then '-' :: natChars n.natAbs else natChars n.natAbs

/-- Drop trailing `'0'` characters. -/
def stripZ (l : List Char) : List Char := (l.reverse.dropWhile (· = '0')).reverse

/-- Render `m / 10^10` (not an integer) as a decimal string with no
trailing zeros. -/
def decChars (m : ℤ) : List Char :=
  (if m < 0 then ['-'] else []) ++
    natChars (m.natAbs / tenPow10) ++
      '.' :: stripZ (List.replicate (10 - (natChars (m.natAbs % tenPow10)).length) '0' ++
        natChars (m.natAbs % tenPow10))

/-- Lines 186-196: ints print as ints; floats are rounded to 10 decimal
places, printed as an int when the rounded value is mathematically an
integer and as a minimal decimal otherwise. -/
def format (v : Value) : List Char :=
  match v with
  | .i n => intChars n
  | .f x =>
    let m := mOf x
    if m % (tenPow10 : ℤ) = 0 then intChars (Int.fdiv m (tenPow10 : ℤ)) else decChars m

/-! ## The engine operations on the expression state -/

/-- Error classification of `calculate` (which `except` branch fired). -/
inductive CalcErr where
  | divisionByZero
  | invalidExpression
  | evaluationError
deriving DecidableEq, Repr

/-- `str(result)` as stored by lines 186-196: numbers are formatted by
the float/int policy, the ellipsis object prints as `Ellipsis`
(`isinstance(result, float)` is false, so line 196 stores
`str(Ellipsis)`). -/
def strOf : PV → List Char
  | .v v => format v
  | .ell => ellipsisChars

/-- `Calculator.calculate`: the new expression value together with the
optional error classification.  On any error the expression is reset to
empty; on success the printed result becomes the new expression.
`SyntaxError` is `invalidExpression`, `ZeroDivisionError` is
`divisionByZero`, and every other exception takes the generic branch
`evaluationError`. -/
def calcStep (e : List Char) : List Char × Option CalcErr :=
  match pyEval e with
  | none => ([], some .invalidExpression)
  | some (.error .zeroDiv) => ([], some .divisionByZero)
  | some (.error .nonRational) => ([], some .evaluationError)
  | some (.error .typeErr) => ([], some .evaluationError)
  | some (.error .nameErr) => ([], some .evaluationError)
  | some (.ok w) => (strOf w, none)

/-- `Calculator.append_to_expression` (line 149): string concatenation. -/
def append_to_expression (e v : List Char) : List Char := e ++ v

/-- `Calculator.backspace` (line 167): drop the last character
(`expression[:-1]`, the empty slice on an empty string). -/
def backspace (e : List Char) : List Char := e.dropLast

/-- `Calculator.clear` (line 162). -/
def clearExpression (_e : List Char) : List Char := []

/-! ## Spec-side definitions

These follow the wording of the specification, not the source, and are
used to state the claims against the code model above. -/

/-- Value of a digit string read in base 10 (spec-side). -/
def digitsVal (ds : List Char) : ℕ := ds.foldl (fun a c => 10 * a + dval c) 0

/-- Modelled from the spec: a well-formed numeral, written `d…d` or
`d…d.d…d`, and its mathematical value.  With `lz = true` integer-form
numerals may carry leading zeros (the plain mathematical reading); with
`lz = false` a leading zero forces the value zero. -/
def SNumOK (lz : Bool) (cs : List Char) (q : ℚ) : Prop :=
  (∃ ds, cs = ds ∧ ds ≠ [] ∧ ds.all Char.isDigit = true ∧
    (lz = true ∨ (ds.head? = some '0' → digitsVal ds = 0)) ∧ q = digitsVal ds) ∨
  (∃ ds fs, cs = ds ++ '.' :: fs ∧ ds ≠ [] ∧ fs ≠ [] ∧ ds.all Char.isDigit = true ∧
    fs.all Char.isDigit = true ∧ q = digitsVal ds + (digitsVal fs : ℚ) / (pow10 fs.length : ℚ))

/-- Modelled from the spec: the multiplicative level of the grammar —
`×`, `÷`, `%` chains over numerals, left-associative, divisors nonzero,
`%` read as floored modulo. -/
inductive STerm (lz : Bool) : List Char → ℚ → Prop
  | num {cs q} : SNumOK lz cs q → STerm lz cs q
  | mul {cs q ds r} : STerm lz cs q → SNumOK lz ds r → STerm lz (cs ++ '×' :: ds) (q * r)
  | div {cs q ds r} : STerm lz cs q → SNumOK lz ds r → r ≠ 0 →
      STerm lz (cs ++ '÷' :: ds) (q / r)
  | mod {cs q ds r} : STerm lz cs q → SNumOK lz ds r → r ≠ 0 →
      STerm lz (cs ++ '%' :: ds) (q - r * (⌊q / r⌋ : ℚ))

/-- Modelled from the spec: the additive level — `+`, `−` chains over
terms, left-associative.  `SExpr lz cs q` says the character sequence
`cs` is a well-formed arithmetic expression whose mathematically correct
value under standard operator precedence is `q`. -/
inductive SExpr (lz : Bool) : List Char → ℚ → Prop
  | term {cs q} : STerm lz cs q → SExpr lz cs q
  | add {cs q ds r} : SExpr lz cs q → STerm lz ds r → SExpr lz (cs ++ '+' :: ds) (q + r)
  | sub {cs q ds r} : SExpr lz cs q → STerm lz ds r → SExpr lz (cs ++ '−' :: ds) (q - r)

/-- Modelled from the spec: "percent" — `a` percent of `b`. -/
def specPercent (a b : ℚ) : ℚ := a * b / 100

/-- Round a rational to the nearest integer, ties to even (spec-side,
via the mathematical floor). -/
def rheQ (x : ℚ) : ℤ :=
  if x - (⌊x⌋ : ℚ) < 1 / 2 then ⌊x⌋
  else if 1 / 2 < x - (⌊x⌋ : ℚ) then ⌊x⌋ + 1
  else if ⌊x⌋ % 2 = 0 then ⌊x⌋ else ⌊x⌋ + 1

/-- Modelled from the spec: rounding to 10 decimal places. -/
def specRound10 (q : ℚ) : ℚ := (rheQ (q * 10 ^ 10) : ℚ) / 10 ^ 10

/-- The number the display should show for a result value: ints as they
are, floats rounded to 10 decimal places. -/
def displayVal : Value → ℚ
  | .i n => n
  | .f x => specRound10 (fracVal x)

/-- Spec-side reader of an unsigned decimal numeral string. -/
def readPos (l : List Char) : Option ℚ :=
  let ds := l.takeWhile (fun c => c ≠ '.')
  match l.drop ds.length with
  | [] => if ds ≠ [] ∧ ds.all Char.isDigit = true then some ((digitsVal ds : ℚ)) else none
  | _ :: fs =>
    if ds ≠ [] ∧ fs ≠ [] ∧ ds.all Char.isDigit = true ∧ fs.all Char.isDigit = true ∧
        fs.all (fun c => c ≠ '.') = true then
      some ((digitsVal ds : ℚ) + (digitsVal fs : ℚ) / (pow10 fs.length : ℚ))
    else none

/-- Spec-side reader of a displayed number (optional leading minus). -/
def readNumeral (l : List Char) : Option ℚ :=
  if l.head? = some '-' then (readPos l.tail).map Neg.neg else readPos l

/-- The token emitted for each single-character binary operator of the
five-key alphabet (after symbol replacement). -/
def opTokOf (c : Char) : Option Tok :=
  if c = '+' then some .add
  else if c = '-' then some .sub
  else if c = '*' then some .mul
  else if c = '/' then some .div
  else if c = '%' then some .mod
  else none

/-- Token-level mirror of the spec grammar's multiplicative level,
carrying the evaluator's values: a literal, extended on the right by
`×`, `÷` or `%` with another literal, all left-associative and with
evaluation never failing. -/
inductive TT : List Tok → Value → Prop
  | num (v : Value) : TT [Tok.lit v] v
  | mul {ts : List Tok} {a : Value} (b : Value) :
      TT ts a → TT (ts ++ [Tok.mul, Tok.lit b]) (vmul a b)
  | div {ts : List Tok} {a b c : Value} :
      TT ts a → vdiv a b = .ok c → TT (ts ++ [Tok.div, Tok.lit b]) c
  | mod {ts : List Tok} {a b c : Value} :
      TT ts a → vmod a b = .ok c → TT (ts ++ [Tok.mod, Tok.lit b]) c

/-- Token-level mirror of the spec grammar's additive level. -/
inductive TE : List Tok → Value → Prop
  | base {ts : List Tok} {v : Value} : TT ts v → TE ts v
  | add {ts us : List Tok} {a b : Value} :
      TE ts a → TT us b → TE (ts ++ Tok.add :: us) (vadd a b)
  | sub {ts us : List Tok} {a b : Value} :
      TE ts a → TT us b → TE (ts ++ Tok.sub :: us) (vsub a b)

/-- Operator characters of the five on-screen operator keys. -/
def isOpChar (c : Char) : Bool :=
  c = '+' || c = '−' || c = '×' || c = '÷' || c = '%'

/-- No two adjacent operator characters (a consequence of spec
well-formedness, used to refute well-formedness of concrete strings). -/
def AdjOk (cs : List Char) : Prop :=
  List.Chain' (fun a b => ¬(isOpChar a = true ∧ isOpChar b = true)) cs

/-- The bundle of structural facts propagated along the grammar: the
string is nonempty, has no adjacent operator characters, and starts and
ends with a non-operator character. -/
def ChainFacts (cs : List Char) : Prop :=
  cs ≠ [] ∧ AdjOk cs ∧ (∀ c ∈ cs.head?, isOpChar c = false) ∧
    (∀ c ∈ cs.getLast?, isOpChar c = false)

/-- The token spelling a binary operator. -/
def tokOf : BOp → Tok
  | .add => .add
  | .sub => .sub
  | .mul => .mul
  | .div => .div
  | .ddiv => .ddiv
  | .mod => .mod
  | .pow => .pow

/-- The token tail of a flat operator/literal chain. -/
def pairToks : List (BOp × Value) → List Tok
  | [] => []
  | (b, v) :: rest => tokOf b :: Tok.lit v :: pairToks rest

/-! ## Bridge lemmas between the integer-pair arithmetic and ℚ -/

theorem dcast_ne {d : ℕ} (h : 0 < d) : ((d : ℚ)) ≠ 0 := by
  exact_mod_cast Nat.pos_iff_ne_zero.mp h

theorem fracVal_fneg (x : Frac) : fracVal (fneg x) = -fracVal x := by
  simp [fracVal, fneg, neg_div]

theorem fracVal_fadd {x y : Frac} (hx : 0 < x.d) (hy : 0 < y.d) :
    fracVal (fadd x y) = fracVal x + fracVal y := by
  simp only [fracVal, fadd]
  push_cast
  field_simp

theorem fracVal_fsub {x y : Frac} (hx : 0 < x.d) (hy : 0 < y.d) :
    fracVal (fsub x y) = fracVal x - fracVal y := by
  simp only [fracVal, fsub]
  push_cast
  field_simp
  ring

theorem fracVal_fmul (x y : Frac) : fracVal (fmul x y) = fracVal x * fracVal y := by
  simp only [fracVal, fmul]
  push_cast
  rw [div_mul_div_comm]

theorem finv_dpos {x : Frac} (h : x.n ≠ 0) : 0 < (finv x).d := by
  unfold finv
  split <;> simpa [Int.natAbs_pos] using h

theorem fracVal_finv {x : Frac} (h : x.n ≠ 0) : fracVal (finv x) = (fracVal x)⁻¹ := by
  unfold finv fracVal
  rw [inv_div]
  split
  · next hneg =>
    push_cast [Int.cast_natAbs]
    rw [abs_of_neg (by exact_mod_cast hneg), div_neg, neg_div, neg_neg]
  · next hpos =>
    push_cast [Int.cast_natAbs]
    rw [abs_of_nonneg (by exact_mod_cast not_lt.mp hpos)]

theorem fdivF_dpos {x y : Frac} (hx : 0 < x.d) (h : y.n ≠ 0) : 0 < (fdivF x y).d := by
  have := finv_dpos h
  simpa [fdivF, fmul] using Nat.mul_pos hx this

theorem fracVal_fdivF {x y : Frac} (h : y.n ≠ 0) :
    fracVal (fdivF x y) = fracVal x / fracVal y := by
  rw [fdivF, fracVal_fmul, fracVal_finv h, div_eq_mul_inv]

theorem toF_dpos {v : Value} (h : VPos v) : 0 < (toF v).d := by
  cases v with
  | i n => exact Nat.one_pos
  | f x => exact h

theorem fracVal_toF (v : Value) : fracVal (toF v) = ratOfV v := by
  cases v with
  | i n => simp [toF, fracVal, ratOfV]
  | f x => rfl

theorem toF_n_zero {b : Value} (h : VPos b) : (toF b).n = 0 ↔ ratOfV b = 0 := by
  rw [← fracVal_toF, fracVal, div_eq_zero_iff]
  have hd := dcast_ne (toF_dpos h)
  constructor
  · intro hz
    exact Or.inl (by exact_mod_cast hz)
  · rintro (hz | hz)
    · exact_mod_cast hz
    · exact absurd hz hd

theorem ratOfV_vneg (v : Value) : ratOfV (vneg v) = -ratOfV v := by
  cases v with
  | i n => push_cast [vneg, ratOfV]; ring
  | f x => simp [vneg, ratOfV, fracVal_fneg]

theorem VPos_vneg {v : Value} (h : VPos v) : VPos (vneg v) := by
  cases v with
  | i n => trivial
  | f x => exact h

theorem ratOfV_vadd {a b : Value} (ha : VPos a) (hb : VPos b) :
    ratOfV (vadd a b) = ratOfV a + ratOfV b := by
  cases a with
  | i m =>
    cases b with
    | i n => push_cast [vadd, ratOfV]; ring
    | f y =>
      show fracVal (fadd ⟨m, 1⟩ y) = _
      rw [fracVal_fadd Nat.one_pos hb]
      simp [fracVal, ratOfV]
  | f x =>
    cases b with
    | i n =>
      show fracVal (fadd x ⟨n, 1⟩) = _
      rw [fracVal_fadd ha Nat.one_pos]
      simp [fracVal, ratOfV]
    | f y =>
      show fracVal (fadd x y) = _
      rw [fracVal_fadd ha hb]
      rfl

theorem VPos_vadd {a b : Value} (ha : VPos a) (hb : VPos b) : VPos (vadd a b) := by
  cases a <;> cases b <;>
    simp_all [vadd, VPos, fadd] <;> exact Nat.mul_pos (by assumption) (by assumption)

theorem ratOfV_vsub {a b : Value} (ha : VPos a) (hb : VPos b) :
    ratOfV (vsub a b) = ratOfV a - ratOfV b := by
  cases a with
  | i m =>
    cases b with
    | i n => push_cast [vsub, ratOfV]; ring
    | f y =>
      show fracVal (fsub ⟨m, 1⟩ y) = _
      rw [fracVal_fsub Nat.one_pos hb]
      simp [fracVal, ratOfV]
  | f x =>
    cases b with
    | i n =>
      show fracVal (fsub x ⟨n, 1⟩) = _
      rw [fracVal_fsub ha Nat.one_pos]
      simp [fracVal, ratOfV]
    | f y =>
      show fracVal (fsub x y) = _
      rw [fracVal_fsub ha hb]
      rfl

theorem VPos_vsub {a b : Value} (ha : VPos a) (hb : VPos b) : VPos (vsub a b) := by
  cases a <;> cases b <;>
    simp_all [vsub, VPos, fsub] <;> exact Nat.mul_pos (by assumption) (by assumption)

theorem ratOfV_vmul (a b : Value) : ratOfV (vmul a b) = ratOfV a * ratOfV b := by
  cases a with
  | i m =>
    cases b with
    | i n => push_cast [vmul, ratOfV]; ring
    | f y =>
      show fracVal (fmul ⟨m, 1⟩ y) = _
      rw [fracVal_fmul]
      simp [fracVal, ratOfV]
  | f x =>
    cases b with
    | i n =>
      show fracVal (fmul x ⟨n, 1⟩) = _
      rw [fracVal_fmul]
      simp [fracVal, ratOfV]
    | f y =>
      show fracVal (fmul x y) = _
      rw [fracVal_fmul]
      rfl

theorem VPos_vmul {a b : Value} (ha : VPos a) (hb : VPos b) : VPos (vmul a b) := by
  cases a <;> cases b <;>
    simp_all [vmul, VPos, fmul] <;> exact Nat.mul_pos (by assumption) (by assumption)

theorem vdiv_ok {a b : Value} (ha : VPos a) (hb : VPos b) (h : ratOfV b ≠ 0) :
    ∃ c, vdiv a b = .ok c ∧ VPos c ∧ ratOfV c = ratOfV a / ratOfV b := by
  have hz : ¬(toF b).n = 0 := fun hz => h ((toF_n_zero hb).mp hz)
  refine ⟨.f (fdivF (toF a) (toF b)), ?_, ?_, ?_⟩
  · simp [vdiv, hz]
  · exact fdivF_dpos (toF_dpos ha) hz
  · show fracVal (fdivF (toF a) (toF b)) = _
    rw [fracVal_fdivF hz, fracVal_toF, fracVal_toF]

theorem vdiv_zero (a : Value) {b : Value} (hb : VPos b) (h : ratOfV b = 0) :
    vdiv a b = .error .zeroDiv := by
  have hz : (toF b).n = 0 := (toF_n_zero hb).mpr h
  simp [vdiv, hz]

theorem vmod_zero (a : Value) {b : Value} (hb : VPos b) (h : ratOfV b = 0) :
    vmod a b = .error .zeroDiv := by
  have hz : (toF b).n = 0 := (toF_n_zero hb).mpr h
  simp [vmod, hz]

theorem fdiv_floor_pos (m n : ℤ) (h : 0 < n) : Int.fdiv m n = ⌊(m : ℚ) / (n : ℚ)⌋ := by
  lift n to ℕ using h.le
  rw [Int.fdiv_eq_ediv _ (by positivity)]
  rw [show (((n : ℤ) : ℚ)) = ((n : ℕ) : ℚ) by push_cast; rfl]
  rw [Rat.floor_intCast_div_natCast]

theorem myFloorF_eq {x : Frac} (h : 0 < x.d) : myFloorF x = ⌊fracVal x⌋ := by
  unfold myFloorF fracVal
  rw [fdiv_floor_pos _ _ (by exact_mod_cast h)]
  norm_num

theorem fmod_cast_pos (m n : ℤ) (h : 0 < n) :
    ((Int.fmod m n : ℤ) : ℚ) = (m : ℚ) - (n : ℚ) * (⌊(m : ℚ) / (n : ℚ)⌋ : ℚ) := by
  have h1 := Int.fmod_add_fdiv m n
  have h2 : Int.fmod m n = m - n * Int.fdiv m n := by omega
  rw [h2, fdiv_floor_pos m n h]
  push_cast
  ring

theorem VPos_i (n : ℤ) : VPos (.i n) := True.intro

theorem fracVal_one_den (k : ℤ) : fracVal ⟨k, 1⟩ = (k : ℚ) := by simp [fracVal]

theorem modFrac_d {a b : Value} (ha : VPos a) (hb : VPos b) (k : ℤ) :
    0 < (fsub (toF a) (fmul (toF b) ⟨k, 1⟩)).d := by
  simp only [fsub, fmul]
  exact Nat.mul_pos (toF_dpos ha) (Nat.mul_pos (toF_dpos hb) Nat.one_pos)

theorem modFrac_val {a b : Value} (ha : VPos a) (hb : VPos b) (hz : (toF b).n ≠ 0) :
    fracVal (fsub (toF a) (fmul (toF b) ⟨myFloorF (fdivF (toF a) (toF b)), 1⟩)) =
      ratOfV a - ratOfV b * (⌊ratOfV a / ratOfV b⌋ : ℚ) := by
  rw [fracVal_fsub (toF_dpos ha)
      (show 0 < (fmul (toF b) _).d from Nat.mul_pos (toF_dpos hb) Nat.one_pos),
    fracVal_fmul, fracVal_one_den, myFloorF_eq (fdivF_dpos (toF_dpos ha) hz),
    fracVal_fdivF hz, fracVal_toF, fracVal_toF]

theorem vmod_ok {a b : Value} (ha : VPos a) (hb : VPos b) (h : 0 < ratOfV b) :
    ∃ c, vmod a b = .ok c ∧ VPos c ∧
      ratOfV c = ratOfV a - ratOfV b * (⌊ratOfV a / ratOfV b⌋ : ℚ) := by
  have hz : ¬(toF b).n = 0 := fun hz => absurd ((toF_n_zero hb).mp hz) (ne_of_gt h)
  cases a with
  | i m =>
    cases b with
    | i n =>
      have hn : 0 < n := by
        have h2 := h
        simp only [ratOfV] at h2
        exact_mod_cast h2
      refine ⟨.i (Int.fmod m n), by simp [vmod, hz], VPos_i _, ?_⟩
      show ((Int.fmod m n : ℤ) : ℚ) = (m : ℚ) - (n : ℚ) * (⌊(m : ℚ) / (n : ℚ)⌋ : ℚ)
      exact fmod_cast_pos m n hn
    | f y =>
      exact ⟨.f (fsub (toF (.i m)) (fmul (toF (.f y))
          ⟨myFloorF (fdivF (toF (.i m)) (toF (.f y))), 1⟩)),
        by simp [vmod, hz], modFrac_d ha hb _, modFrac_val ha hb hz⟩
  | f x =>
    cases b with
    | i n =>
      exact ⟨.f (fsub (toF (.f x)) (fmul (toF (.i n))
          ⟨myFloorF (fdivF (toF (.f x)) (toF (.i n))), 1⟩)),
        by simp [vmod, hz], modFrac_d ha hb _, modFrac_val ha hb hz⟩
    | f y =>
      exact ⟨.f (fsub (toF (.f x)) (fmul (toF (.f y))
          ⟨myFloorF (fdivF (toF (.f x)) (toF (.f y))), 1⟩)),
        by simp [vmod, hz], modFrac_d ha hb _, modFrac_val ha hb hz⟩

/-! ## Structural facts about spec-well-formed strings -/

theorem digit_not_op {c : Char} (h : c.isDigit = true) : isOpChar c = false := by
  by_contra hc
  rw [Bool.not_eq_false, isOpChar, Bool.or_eq_true, Bool.or_eq_true, Bool.or_eq_true,
    Bool.or_eq_true] at hc
  simp only [decide_eq_true_eq] at hc
  rcases hc with (((rfl | rfl) | rfl) | rfl) | rfl <;> exact absurd h (by decide)

theorem snum_ne_nil_all {lz : Bool} {cs : List Char} {q : ℚ} (h : SNumOK lz cs q) :
    cs ≠ [] ∧ ∀ c ∈ cs, isOpChar c = false := by
  rcases h with ⟨ds, rfl, hne, hdig, _, _⟩ | ⟨ds, fs, rfl, hds, hfs, hdig, hfdig, _⟩
  · exact ⟨hne, fun c hc => digit_not_op (List.all_eq_true.mp hdig c hc)⟩
  · refine ⟨by simp, fun c hc => ?_⟩
    rcases List.mem_append.mp hc with hc | hc
    · exact digit_not_op (List.all_eq_true.mp hdig c hc)
    · rcases List.mem_cons.mp hc with rfl | hc
      · decide
      · exact digit_not_op (List.all_eq_true.mp hfdig c hc)

theorem adjOk_of_all (cs : List Char) (h : ∀ c ∈ cs, isOpChar c = false) : AdjOk cs := by
  induction cs with
  | nil => exact List.chain'_nil
  | cons a t ih =>
    rw [AdjOk, List.chain'_cons']
    refine ⟨fun y _ hy => ?_, ih fun c hc => h c (List.mem_cons_of_mem a hc)⟩
    rw [h a (List.mem_cons_self a t)] at hy
    exact absurd hy.1 (by simp)

theorem chainFacts_of_all {cs : List Char} (hne : cs ≠ [])
    (h : ∀ c ∈ cs, isOpChar c = false) : ChainFacts cs :=
  ⟨hne, adjOk_of_all cs h, fun c hc => h c (List.mem_of_mem_head? hc),
    fun c hc => h c (List.mem_of_mem_getLast? hc)⟩

theorem snum_chainFacts {lz : Bool} {cs : List Char} {q : ℚ} (h : SNumOK lz cs q) :
    ChainFacts cs :=
  chainFacts_of_all (snum_ne_nil_all h).1 (snum_ne_nil_all h).2

theorem chainFacts_append (op : Char) {cs ds : List Char}
    (h1 : ChainFacts cs) (h2 : ChainFacts ds) : ChainFacts (cs ++ op :: ds) := by
  obtain ⟨hne1, hc1, hh1, hl1⟩ := h1
  obtain ⟨hne2, hc2, hh2, hl2⟩ := h2
  refine ⟨by simp, ?_, ?_, ?_⟩
  · rw [AdjOk, List.chain'_append]
    refine ⟨hc1, ?_, ?_⟩
    · rw [List.chain'_cons']
      refine ⟨fun y hy h => ?_, hc2⟩
      rw [hh2 y hy] at h
      exact absurd h.2 (by simp)
    · intro x hx y hy h
      rw [hl1 x hx] at h
      exact absurd h.1 (by simp)
  · rw [List.head?_append_of_ne_nil _ hne1]
    exact hh1
  · intro c hc
    rw [List.getLast?_append] at hc
    apply hl2 c
    cases hgl : ds.getLast? with
    | none => exact absurd (List.getLast?_eq_none_iff.mp hgl) hne2
    | some y =>
      have : (op :: ds).getLast? = some y := by
        have := @List.getLast?_append _ [op] ds
        rw [hgl] at this
        simpa using this
      rw [this] at hc
      simpa [hgl] using hc

theorem sterm_chainFacts {lz : Bool} {cs : List Char} {q : ℚ} (h : STerm lz cs q) :
    ChainFacts cs := by
  induction h with
  | num hn => exact snum_chainFacts hn
  | mul _ hn ih => exact chainFacts_append '×' ih (snum_chainFacts hn)
  | div _ hn _ ih => exact chainFacts_append '÷' ih (snum_chainFacts hn)
  | mod _ hn _ ih => exact chainFacts_append '%' ih (snum_chainFacts hn)

theorem sexpr_chainFacts {lz : Bool} {cs : List Char} {q : ℚ} (h : SExpr lz cs q) :
    ChainFacts cs := by
  induction h with
  | term ht => exact sterm_chainFacts ht
  | add _ ht ih => exact chainFacts_append '+' ih (sterm_chainFacts ht)
  | sub _ ht ih => exact chainFacts_append '−' ih (sterm_chainFacts ht)

/-! ## The positive-denominator invariant of the evaluator -/

theorem pow10_pos (k : ℕ) : 0 < pow10 k := by
  induction k with
  | zero => exact Nat.one_pos
  | succ k ih => exact Nat.mul_pos (by norm_num) ih

theorem npowN_pos {m : ℕ} (h : 0 < m) (k : ℕ) : 0 < npowN m k := by
  induction k with
  | zero => exact Nat.one_pos
  | succ k ih => exact Nat.mul_pos ih h

theorem VPos_applySigns {v : Value} (h : VPos v) (sg : List Bool) :
    VPos (applySigns sg v) := by
  induction sg generalizing v with
  | nil => exact h
  | cons b t ih =>
    show VPos (List.foldl _ _ _)
    rw [List.foldl_cons]
    exact ih (by cases b <;> simp <;> [exact h; exact VPos_vneg h])

theorem vpow_VPos {a b : Value} (ha : VPos a) (hb : VPos b) :
    ∀ {c}, vpow a b = .ok c → VPos c := by
  intro c hc
  cases b with
  | i e =>
    rw [vpow.eq_def] at hc
    dsimp only at hc
    split at hc
    · cases a with
      | i m => cases hc; exact VPos_i _
      | f x => cases hc; exact npowN_pos ha _
    · split at hc
      · cases hc
      · cases hc
        exact npowN_pos (finv_dpos (by assumption)) _
  | f ex =>
    rw [vpow.eq_def] at hc
    dsimp only at hc
    split at hc
    · split at hc
      · cases hc; exact Nat.one_pos
      · split at hc
        · cases hc; exact Nat.one_pos
        · cases hc
    · split at hc
      · split at hc
        · cases hc; exact npowN_pos (toF_dpos ha) _
        · cases hc
          exact npowN_pos (finv_dpos (by assumption)) _
      · cases hc

/-- Successful results have positive denominators. -/
def EVPos (r : EVP) : Prop := ∀ v, r = .ok (.v v) → VPos v

/-- The atom-level invariant: numeric atoms carry positive-denominator
floats; the ellipsis and name atoms carry nothing. -/
def VPosA : PAtom → Prop
  | .num v => VPos v
  | .ell => True
  | .name _ => True

theorem EVPos_error (e : PyErr) : EVPos (.error e) := fun _ h => Except.noConfusion h

theorem EVPos_ok {v : Value} (h : VPos v) : EVPos (.ok (.v v)) := by
  intro w hw
  obtain rfl : v = w := PV.v.inj (Except.ok.inj hw)
  exact h

theorem EVPos_ell : EVPos (.ok .ell) := fun _ h => PV.noConfusion (Except.ok.inj h)

theorem EVPos_liftNum {g : Value → Value → EV}
    (hg : ∀ x y c, VPos x → VPos y → g x y = .ok c → VPos c)
    {a b : EVP} (ha : EVPos a) (hb : EVPos b) : EVPos (liftNum g a b) := by
  cases a with
  | error e => exact EVPos_error e
  | ok x =>
    cases b with
    | error e =>
      cases x <;> exact fun c hc => Except.noConfusion hc
    | ok y =>
      cases x with
      | v xv =>
        cases y with
        | v yv =>
          intro c hc
          have hc' : (g xv yv).map PV.v = .ok (.v c) := hc
          cases hge : g xv yv with
          | error e =>
            rw [hge] at hc'
            exact Except.noConfusion hc'
          | ok w =>
            rw [hge] at hc'
            obtain rfl : w = c := PV.v.inj (Except.ok.inj hc')
            exact hg xv yv w (ha xv rfl) (hb yv rfl) hge
        | ell => exact fun c hc => Except.noConfusion hc
      | ell => exact fun c hc => Except.noConfusion hc

theorem EVPos_vaddP {a b : EVP} (ha : EVPos a) (hb : EVPos b) : EVPos (vaddP a b) := by
  refine EVPos_liftNum (fun x y c hx hy hc => ?_) ha hb
  simp only [okOf2] at hc
  cases hc
  exact VPos_vadd hx hy

theorem EVPos_vsubP {a b : EVP} (ha : EVPos a) (hb : EVPos b) : EVPos (vsubP a b) := by
  refine EVPos_liftNum (fun x y c hx hy hc => ?_) ha hb
  simp only [okOf2] at hc
  cases hc
  exact VPos_vsub hx hy

theorem EVPos_vmulP {a b : EVP} (ha : EVPos a) (hb : EVPos b) : EVPos (vmulP a b) := by
  refine EVPos_liftNum (fun x y c hx hy hc => ?_) ha hb
  simp only [okOf2] at hc
  cases hc
  exact VPos_vmul hx hy

theorem EVPos_vdivP {a b : EVP} (ha : EVPos a) (hb : EVPos b) : EVPos (vdivP a b) := by
  refine EVPos_liftNum (fun x y c hx hy hc => ?_) ha hb
  rw [vdiv] at hc
  split at hc
  · cases hc
  · cases hc
    exact fdivF_dpos (toF_dpos hx) (by assumption)

theorem EVPos_vddivP {a b : EVP} (ha : EVPos a) (hb : EVPos b) : EVPos (vddivP a b) := by
  refine EVPos_liftNum (fun x y c hx hy hc => ?_) ha hb
  rw [vddiv.eq_def] at hc
  split at hc
  · cases hc
  · cases x <;> cases y <;> dsimp only at hc <;> cases hc <;>
      first
        | exact VPos_i _
        | exact Nat.one_pos

theorem EVPos_vmodP {a b : EVP} (ha : EVPos a) (hb : EVPos b) : EVPos (vmodP a b) := by
  refine EVPos_liftNum (fun x y c hx hy hc => ?_) ha hb
  rw [vmod.eq_def] at hc
  split at hc
  · cases hc
  · cases x <;> cases y <;> dsimp only at hc <;> cases hc <;>
      first
        | exact VPos_i _
        | exact Nat.mul_pos (toF_dpos hx) (Nat.mul_pos (toF_dpos hy) Nat.one_pos)

theorem EVPos_atomVal {a : PAtom} (h : VPosA a) : EVPos (atomVal a) := by
  cases a with
  | num v => exact EVPos_ok h
  | ell => exact EVPos_ell
  | name n =>
    rw [atomVal]
    split
    · exact EVPos_ell
    · exact EVPos_error _

theorem EVPos_applySignsP (sg : List Bool) {x : PV} (h : ∀ w, x = .v w → VPos w) :
    EVPos (applySignsP sg x) := by
  cases x with
  | v w => exact EVPos_ok (VPos_applySigns (h w rfl) sg)
  | ell =>
    cases sg with
    | nil => exact EVPos_ell
    | cons s t => exact EVPos_error _

theorem EVPos_bind {a : EVP} {f : PV → EVP} (ha : EVPos a)
    (hf : ∀ x, (∀ w, x = .v w → VPos w) → EVPos (f x)) : EVPos (a.bind f) := by
  cases a with
  | error e => exact EVPos_error e
  | ok x => exact hf x (fun w hw => ha w (by rw [hw]))

theorem EVPos_uval {it : Item} (h : VPosA it.2) : EVPos (uval it) := by
  rw [uval]
  exact EVPos_bind (EVPos_atomVal h) (fun x hx => EVPos_applySignsP it.1 hx)

theorem EVPos_pApply {it : Item} (hit : VPosA it.2) {r : EVP} (hr : EVPos r) :
    EVPos (pApply it r) := by
  rw [pApply]
  refine EVPos_bind (EVPos_atomVal hit) (fun x hx => ?_)
  refine EVPos_bind hr (fun y hy => ?_)
  cases x with
  | v a =>
    cases y with
    | v b =>
      intro c hc
      cases hp : vpow a b with
      | error e =>
        have hc' : (vpow a b).bind
            (fun w => Except.ok (PV.v (applySigns it.1 w))) = .ok (.v c) := hc
        rw [hp] at hc'
        exact Except.noConfusion hc'
      | ok w =>
        have hc' : (vpow a b).bind
            (fun w => Except.ok (PV.v (applySigns it.1 w))) = .ok (.v c) := hc
        rw [hp] at hc'
        obtain rfl : applySigns it.1 w = c := PV.v.inj (Except.ok.inj hc')
        exact VPos_applySigns (vpow_VPos (hx a rfl) (hy b rfl) hp) it.1
    | ell => exact fun c hc => Except.noConfusion hc
  | ell => exact fun c hc => Except.noConfusion hc

theorem EVPos_finish {st : EvSt} (h1 : ∀ s, st.sum = some s → EVPos s)
    (h2 : EVPos st.term) : EVPos (finish st) := by
  obtain ⟨sum, isSub, term⟩ := st
  cases sum with
  | none => exact h2
  | some s =>
    cases isSub with
    | false => exact EVPos_vaddP (h1 s rfl) h2
    | true => exact EVPos_vsubP (h1 s rfl) h2

theorem step_addE (st : EvSt) (x : EVP) :
    step st (Op2.add, x) = ⟨some (finish st), false, x⟩ := rfl

theorem step_subE (st : EvSt) (x : EVP) :
    step st (Op2.sub, x) = ⟨some (finish st), true, x⟩ := rfl

theorem step_mulE (st : EvSt) (x : EVP) :
    step st (Op2.mul, x) = ⟨st.sum, st.isSub, vmulP st.term x⟩ := rfl

theorem step_divE (st : EvSt) (x : EVP) :
    step st (Op2.div, x) = ⟨st.sum, st.isSub, vdivP st.term x⟩ := rfl

theorem step_ddivE (st : EvSt) (x : EVP) :
    step st (Op2.ddiv, x) = ⟨st.sum, st.isSub, vddivP st.term x⟩ := rfl

theorem step_modE (st : EvSt) (x : EVP) :
    step st (Op2.mod, x) = ⟨st.sum, st.isSub, vmodP st.term x⟩ := rfl

theorem EVPos_foldl_step {l : List (Op2 × EVP)} (hl : ∀ p ∈ l, EVPos p.2) :
    ∀ st : EvSt, (∀ s, st.sum = some s → EVPos s) → EVPos st.term →
      (∀ s, (l.foldl step st).sum = some s → EVPos s) ∧ EVPos (l.foldl step st).term := by
  induction l with
  | nil => exact fun st h1 h2 => ⟨h1, h2⟩
  | cons p t ih =>
    intro st h1 h2
    obtain ⟨op, x⟩ := p
    rw [List.foldl_cons]
    have hp : EVPos x := hl (op, x) (List.mem_cons_self _ t)
    have ht : ∀ q ∈ t, EVPos q.2 := fun q hq => hl q (List.mem_cons_of_mem _ hq)
    cases op with
    | add =>
      rw [step_addE]
      refine ih ht _ ?_ hp
      intro s hs
      obtain rfl : finish st = s := Option.some.inj hs
      exact EVPos_finish h1 h2
    | sub =>
      rw [step_subE]
      refine ih ht _ ?_ hp
      intro s hs
      obtain rfl : finish st = s := Option.some.inj hs
      exact EVPos_finish h1 h2
    | mul =>
      rw [step_mulE]
      exact ih ht _ h1 (EVPos_vmulP h2 hp)
    | div =>
      rw [step_divE]
      exact ih ht _ h1 (EVPos_vdivP h2 hp)
    | ddiv =>
      rw [step_ddivE]
      exact ih ht _ h1 (EVPos_vddivP h2 hp)
    | mod =>
      rw [step_modE]
      exact ih ht _ h1 (EVPos_vmodP h2 hp)

theorem collapsePow_VPos {it : Item} (hit : VPosA it.2) :
    ∀ {l : List (BOp × Item)}, (∀ p ∈ l, VPosA p.2.2) →
      EVPos (collapsePow it l).1 ∧ ∀ q ∈ (collapsePow it l).2, EVPos q.2 := by
  intro l
  induction l generalizing it with
  | nil => exact fun _ => ⟨EVPos_uval hit, by simp [collapsePow]⟩
  | cons p t ih =>
    intro hl
    obtain ⟨b, j⟩ := p
    have hj : VPosA j.2 := hl (b, j) (List.mem_cons_self _ t)
    have ht : ∀ q ∈ t, VPosA q.2.2 := fun q hq => hl q (List.mem_cons_of_mem _ hq)
    obtain ⟨ih1, ih2⟩ := ih hj ht
    cases b with
    | pow => exact ⟨EVPos_pApply hit ih1, ih2⟩
    | add =>
      refine ⟨EVPos_uval hit, fun q hq => ?_⟩
      rcases List.mem_cons.mp hq with rfl | hq
      · exact ih1
      · exact ih2 q hq
    | sub =>
      refine ⟨EVPos_uval hit, fun q hq => ?_⟩
      rcases List.mem_cons.mp hq with rfl | hq
      · exact ih1
      · exact ih2 q hq
    | mul =>
      refine ⟨EVPos_uval hit, fun q hq => ?_⟩
      rcases List.mem_cons.mp hq with rfl | hq
      · exact ih1
      · exact ih2 q hq
    | div =>
      refine ⟨EVPos_uval hit, fun q hq => ?_⟩
      rcases List.mem_cons.mp hq with rfl | hq
      · exact ih1
      · exact ih2 q hq
    | ddiv =>
      refine ⟨EVPos_uval hit, fun q hq => ?_⟩
      rcases List.mem_cons.mp hq with rfl | hq
      · exact ih1
      · exact ih2 q hq
    | mod =>
      refine ⟨EVPos_uval hit, fun q hq => ?_⟩
      rcases List.mem_cons.mp hq with rfl | hq
      · exact ih1
      · exact ih2 q hq

theorem runFlat_VPos {fl : Item × List (BOp × Item)} (h1 : VPosA fl.1.2)
    (h2 : ∀ p ∈ fl.2, VPosA p.2.2) : EVPos (runFlat fl) := by
  obtain ⟨hc1, hc2⟩ := collapsePow_VPos h1 h2
  obtain ⟨hs, ht⟩ := EVPos_foldl_step hc2 ⟨none, false, (collapsePow fl.1 fl.2).1⟩
    (fun s hs => Option.noConfusion hs) hc1
  exact EVPos_finish hs ht

theorem takeSigns_mem : ∀ {ts : List Tok} {t : Tok}, t ∈ (takeSigns ts).2 → t ∈ ts := by
  intro ts
  induction ts with
  | nil => intro t h; exact h
  | cons a r ih =>
    intro t h
    cases a <;> first
      | exact h
      | exact List.mem_cons_of_mem _ (ih (by simpa [takeSigns] using h))

theorem lexF_lit_VPos : ∀ (fu : ℕ) {cs : List Char} {ts : List Tok},
    lexF fu cs = some ts → ∀ v, Tok.lit v ∈ ts → VPos v := by
  intro fu
  induction fu with
  | zero =>
    intro cs ts h v hv
    cases cs with
    | nil => cases h; cases hv
    | cons c r => cases h
  | succ fu ih =>
    intro cs ts h v hv
    cases cs with
    | nil => cases h; cases hv
    | cons c r =>
      rw [lexF.eq_def] at h
      dsimp only at h
      split at h
      · split at h
        · rcases Option.map_eq_some'.mp h with ⟨ts', hts', rfl⟩
          rcases List.mem_cons.mp hv with hv | hv
          · cases hv; exact pow10_pos _
          · exact ih hts' v hv
        · split at h
          · cases h
          · rcases Option.map_eq_some'.mp h with ⟨ts', hts', rfl⟩
            rcases List.mem_cons.mp hv with hv | hv
            · cases hv; exact VPos_i _
            · exact ih hts' v hv
      · split at h
        · split at h
          · rcases Option.map_eq_some'.mp h with ⟨ts', hts', rfl⟩
            rcases List.mem_cons.mp hv with hv | hv
            · cases hv
            · exact ih hts' v hv
          · split at h
            · rcases Option.map_eq_some'.mp h with ⟨ts', hts', rfl⟩
              rcases List.mem_cons.mp hv with hv | hv
              · cases hv; exact pow10_pos _
              · exact ih hts' v hv
            · cases h
          · cases h
        · split at h
          · rcases Option.map_eq_some'.mp h with ⟨ts', hts', rfl⟩
            rcases List.mem_cons.mp hv with hv | hv
            · cases hv
            · exact ih hts' v hv
          · split at h
            · rcases Option.map_eq_some'.mp h with ⟨ts', hts', rfl⟩
              rcases List.mem_cons.mp hv with hv | hv
              · cases hv
              · exact ih hts' v hv
            · split at h
              · rcases Option.map_eq_some'.mp h with ⟨ts', hts', rfl⟩
                rcases List.mem_cons.mp hv with hv | hv
                · cases hv
                · exact ih hts' v hv
              · split at h
                · split at h
                  · rcases Option.map_eq_some'.mp h with ⟨ts', hts', rfl⟩
                    rcases List.mem_cons.mp hv with hv | hv
                    · cases hv
                    · exact ih hts' v hv
                  · rcases Option.map_eq_some'.mp h with ⟨ts', hts', rfl⟩
                    rcases List.mem_cons.mp hv with hv | hv
                    · cases hv
                    · exact ih hts' v hv
                · split at h
                  · split at h
                    · rcases Option.map_eq_some'.mp h with ⟨ts', hts', rfl⟩
                      rcases List.mem_cons.mp hv with hv | hv
                      · cases hv
                      · exact ih hts' v hv
                    · rcases Option.map_eq_some'.mp h with ⟨ts', hts', rfl⟩
                      rcases List.mem_cons.mp hv with hv | hv
                      · cases hv
                      · exact ih hts' v hv
                  · split at h
                    · rcases Option.map_eq_some'.mp h with ⟨ts', hts', rfl⟩
                      rcases List.mem_cons.mp hv with hv | hv
                      · cases hv
                      · exact ih hts' v hv
                    · cases h

theorem scanF_VPos : ∀ (fu : ℕ) {ts : List Tok} {l : List (BOp × Item)},
    (∀ v, Tok.lit v ∈ ts → VPos v) → scanF fu ts = some l → ∀ p ∈ l, VPosA p.2.2 := by
  intro fu
  induction fu with
  | zero =>
    intro ts l hts h p hp
    cases ts with
    | nil => cases h; cases hp
    | cons t r => cases h
  | succ fu ih =>
    intro ts l hts h p hp
    cases ts with
    | nil => cases h; cases hp
    | cons t r =>
      rw [scanF.eq_def] at h
      dsimp only at h
      split at h
      · cases h
      · split at h
        · next v r2 heq =>
          rcases Option.map_eq_some'.mp h with ⟨l', hl', rfl⟩
          rcases List.mem_cons.mp hp with rfl | hp
          · refine hts v (List.mem_cons_of_mem t (takeSigns_mem ?_))
            rw [heq]
            exact List.mem_cons_self _ _
          · refine ih (fun w hw => hts w (List.mem_cons_of_mem t (takeSigns_mem ?_))) hl' p hp
            rw [heq]
            exact List.mem_cons_of_mem _ hw
        · next r2 heq =>
          rcases Option.map_eq_some'.mp h with ⟨l', hl', rfl⟩
          rcases List.mem_cons.mp hp with rfl | hp
          · exact trivial
          · refine ih (fun w hw => hts w (List.mem_cons_of_mem t (takeSigns_mem ?_))) hl' p hp
            rw [heq]
            exact List.mem_cons_of_mem _ hw
        · next n r2 heq =>
          rcases Option.map_eq_some'.mp h with ⟨l', hl', rfl⟩
          rcases List.mem_cons.mp hp with rfl | hp
          · exact trivial
          · refine ih (fun w hw => hts w (List.mem_cons_of_mem t (takeSigns_mem ?_))) hl' p hp
            rw [heq]
            exact List.mem_cons_of_mem _ hw
        · cases h

theorem scan_VPos {ts : List Tok} {fl : Item × List (BOp × Item)}
    (hts : ∀ v, Tok.lit v ∈ ts → VPos v) (h : scan ts = some fl) :
    VPosA fl.1.2 ∧ ∀ p ∈ fl.2, VPosA p.2.2 := by
  rw [scan] at h
  split at h
  · next v r2 heq =>
    rcases Option.map_eq_some'.mp h with ⟨l', hl', rfl⟩
    constructor
    · refine hts v (takeSigns_mem ?_)
      rw [heq]
      exact List.mem_cons_self _ _
    · refine scanF_VPos _ (fun w hw => hts w (takeSigns_mem ?_)) hl'
      rw [heq]
      exact List.mem_cons_of_mem _ hw
  · next r2 heq =>
    rcases Option.map_eq_some'.mp h with ⟨l', hl', rfl⟩
    refine ⟨trivial, ?_⟩
    refine scanF_VPos _ (fun w hw => hts w (takeSigns_mem ?_)) hl'
    rw [heq]
    exact List.mem_cons_of_mem _ hw
  · next n r2 heq =>
    rcases Option.map_eq_some'.mp h with ⟨l', hl', rfl⟩
    refine ⟨trivial, ?_⟩
    refine scanF_VPos _ (fun w hw => hts w (takeSigns_mem ?_)) hl'
    rw [heq]
    exact List.mem_cons_of_mem _ hw
  · cases h

theorem pyEval_VPos {e : List Char} {v : Value} (h : pyEval e = some (.ok (.v v))) :
    VPos v := by
  rw [pyEval] at h
  split at h
  · cases h
  · next ts hts =>
    rcases Option.map_eq_some'.mp h with ⟨fl, hfl, hrun⟩
    obtain ⟨h1, h2⟩ := scan_VPos (lexF_lit_VPos _ hts) hfl
    exact runFlat_VPos h1 h2 v hrun

/-! ## Decimal digit strings -/

theorem pow10_eq (k : ℕ) : pow10 k = 10 ^ k := by
  induction k with
  | zero => rfl
  | succ k ih => rw [pow10, ih, pow_succ]; ring

theorem natCharsF_fuel : ∀ (fu fu' n : ℕ), n < fu → n < fu' →
    natCharsF fu n = natCharsF fu' n := by
  intro fu
  induction fu with
  | zero => intro fu' n h; omega
  | succ fu ih =>
    intro fu' n h h'
    cases fu' with
    | zero => omega
    | succ fu' =>
      rw [natCharsF, natCharsF]
      by_cases h10 : n < 10
      · simp [h10]
      · simp only [h10, if_false]
        have hlt : n / 10 < n := Nat.div_lt_self (by omega) (by norm_num)
        rw [ih fu' (n / 10) (by omega) (by omega)]

theorem natChars_step (n : ℕ) :
    natChars n = if n < 10 then [Nat.digitChar n]
      else natChars (n / 10) ++ [Nat.digitChar (n % 10)] := by
  rw [natChars, natCharsF]
  by_cases h10 : n < 10
  · simp [h10]
  · simp only [h10, if_false]
    have hlt : n / 10 < n := Nat.div_lt_self (by omega) (by norm_num)
    rw [natChars, natCharsF_fuel n (n / 10 + 1) (n / 10) (by omega) (by omega)]

theorem digitChar_isDigit {d : ℕ} (h : d < 10) : (Nat.digitChar d).isDigit = true := by
  interval_cases d <;> decide

theorem dval_digitChar {d : ℕ} (h : d < 10) : dval (Nat.digitChar d) = d := by
  interval_cases d <;> decide

theorem digitChar_zero_iff {d : ℕ} (h : d < 10) : Nat.digitChar d = '0' ↔ d = 0 := by
  interval_cases d <;> simp <;> decide

theorem natChars_ne_nil (n : ℕ) : natChars n ≠ [] := by
  rw [natChars_step]
  split <;> simp

theorem natChars_all_digits (n : ℕ) : ∀ c ∈ natChars n, c.isDigit = true := by
  induction n using Nat.strong_induction_on with
  | _ n ih =>
    rw [natChars_step]
    split
    · next h =>
      intro c hc
      rw [List.mem_singleton] at hc
      subst hc
      exact digitChar_isDigit h
    · next h =>
      intro c hc
      rcases List.mem_append.mp hc with hc | hc
      · exact ih (n / 10) (Nat.div_lt_self (by omega) (by norm_num)) c hc
      · rw [List.mem_singleton] at hc
        subst hc
        exact digitChar_isDigit (Nat.mod_lt n (by norm_num))

theorem digit_ne_dot {c : Char} (h : c.isDigit = true) : c ≠ '.' := by
  rintro rfl
  exact absurd h (by decide)

theorem digit_ne_minus {c : Char} (h : c.isDigit = true) : c ≠ '-' := by
  rintro rfl
  exact absurd h (by decide)

theorem foldl_digits (l : List Char) :
    ∀ acc, List.foldl (fun a c => 10 * a + dval c) acc l = acc * 10 ^ l.length + digitsVal l := by
  induction l with
  | nil => intro acc; simp [digitsVal]
  | cons c t ih =>
    intro acc
    have hc : digitsVal (c :: t) = dval c * 10 ^ t.length + digitsVal t := by
      rw [digitsVal, List.foldl_cons]
      have := ih (10 * 0 + dval c)
      simpa using this
    rw [List.foldl_cons, ih, hc, List.length_cons, pow_succ]
    ring

theorem digitsVal_cons (c : Char) (t : List Char) :
    digitsVal (c :: t) = dval c * 10 ^ t.length + digitsVal t := by
  rw [digitsVal, List.foldl_cons]
  have := foldl_digits t (10 * 0 + dval c)
  simpa using this

theorem digitsVal_append_single (l : List Char) (c : Char) :
    digitsVal (l ++ [c]) = 10 * digitsVal l + dval c := by
  have h1 : digitsVal (l ++ [c]) =
      List.foldl (fun a c => 10 * a + dval c) (digitsVal l) [c] := by
    unfold digitsVal
    rw [List.foldl_append]
  rw [h1, List.foldl_cons, List.foldl_nil]

theorem digitsVal_natChars (n : ℕ) : digitsVal (natChars n) = n := by
  induction n using Nat.strong_induction_on with
  | _ n ih =>
    rw [natChars_step]
    split
    · next h =>
      rw [show [Nat.digitChar n] = [] ++ [Nat.digitChar n] from rfl,
        digitsVal_append_single, dval_digitChar h]
      simp [digitsVal]
    · next h =>
      rw [digitsVal_append_single, ih (n / 10) (Nat.div_lt_self (by omega) (by norm_num)),
        dval_digitChar (Nat.mod_lt n (by norm_num))]
      omega

theorem natChars_head_zero : ∀ {n : ℕ}, (natChars n).head? = some '0' → n = 0 := by
  intro n
  induction n using Nat.strong_induction_on with
  | _ n ih =>
    intro h
    rw [natChars_step] at h
    split at h
    · next h10 =>
      simp only [List.head?] at h
      injection h with h
      exact (digitChar_zero_iff h10).mp h
    · next h10 =>
      rw [List.head?_append_of_ne_nil _ (natChars_ne_nil (n / 10))] at h
      have := ih (n / 10) (Nat.div_lt_self (by omega) (by norm_num)) h
      omega

theorem natChars_length_le : ∀ (n k : ℕ), n < 10 ^ k → 0 < k → (natChars n).length ≤ k := by
  intro n
  induction n using Nat.strong_induction_on with
  | _ n ih =>
    intro k hn hk
    rw [natChars_step]
    split
    · next h => simpa using hk
    · next h =>
      rw [List.length_append, List.length_singleton]
      have hk2 : 2 ≤ k := by
        by_contra hc
        interval_cases k <;> omega
      have hdiv : n / 10 < 10 ^ (k - 1) := by
        rw [Nat.div_lt_iff_lt_mul (by norm_num)]
        calc n < 10 ^ k := hn
        _ = 10 ^ (k - 1) * 10 := by
            rw [← pow_succ]
            congr 1
            omega
      have := ih (n / 10) (Nat.div_lt_self (by omega) (by norm_num)) (k - 1) hdiv (by omega)
      omega

/-! ## Trailing-zero stripping -/

theorem dropWhile_head_not {p : Char → Bool} :
    ∀ {l : List Char} {y : Char}, (l.dropWhile p).head? = some y → p y = false := by
  intro l
  induction l with
  | nil => intro y h; cases h
  | cons a t ih =>
    intro y h
    rw [List.dropWhile_cons] at h
    split at h
    · exact ih h
    · next hpa =>
      injection h with h
      subst h
      exact Bool.not_eq_true _ ▸ hpa

theorem stripZ_decomp (l : List Char) : ∃ k, l = stripZ l ++ List.replicate k '0' := by
  refine ⟨(l.reverse.takeWhile (· = '0')).length, ?_⟩
  conv_lhs => rw [← List.reverse_reverse l,
    ← @List.takeWhile_append_dropWhile _ (fun c => c = '0') l.reverse]
  rw [List.reverse_append, stripZ]
  congr 1
  rw [← List.reverse_replicate]
  congr 1
  apply List.eq_replicate_of_mem
  intro b hb
  have := List.mem_takeWhile_imp hb
  simpa using this

theorem stripZ_getLast {l : List Char} (h : stripZ l ≠ []) :
    (stripZ l).getLast? ≠ some '0' := by
  rw [stripZ, List.getLast?_reverse]
  intro hc
  have := dropWhile_head_not hc
  simp at this

theorem stripZ_nil_all {l : List Char} (h : stripZ l = []) : ∀ c ∈ l, c = '0' := by
  rw [stripZ, List.reverse_eq_nil_iff, List.dropWhile_eq_nil_iff] at h
  intro c hc
  have := h c (List.mem_reverse.mpr hc)
  simpa using this

theorem foldl_zeros : ∀ (k : ℕ) (acc : ℕ),
    List.foldl (fun a c => 10 * a + dval c) acc (List.replicate k '0') = acc * 10 ^ k := by
  intro k
  induction k with
  | zero => intro acc; simp
  | succ k ih =>
    intro acc
    rw [List.replicate_succ, List.foldl_cons, ih]
    have : dval '0' = 0 := by decide
    rw [this, pow_succ]
    ring

theorem digitsVal_append_zeros (x : List Char) (k : ℕ) :
    digitsVal (x ++ List.replicate k '0') = digitsVal x * 10 ^ k := by
  rw [digitsVal, List.foldl_append, foldl_zeros]
  rfl

theorem digitsVal_zeros_append (k : ℕ) (x : List Char) :
    digitsVal (List.replicate k '0' ++ x) = digitsVal x := by
  rw [digitsVal, List.foldl_append, foldl_zeros]
  simp [digitsVal]

theorem stripZ_val (l : List Char) :
    digitsVal l = digitsVal (stripZ l) * 10 ^ (l.length - (stripZ l).length) := by
  obtain ⟨k, hk⟩ := stripZ_decomp l
  have hlen : l.length = (stripZ l).length + k := by
    conv_lhs => rw [hk]
    simp
  rw [show l.length - (stripZ l).length = k from by omega]
  conv_lhs => rw [hk]
  exact digitsVal_append_zeros _ _

theorem stripZ_length_le (l : List Char) : (stripZ l).length ≤ l.length := by
  obtain ⟨k, hk⟩ := stripZ_decomp l
  conv_rhs => rw [hk]
  simp

theorem stripZ_sub (l : List Char) : ∀ c ∈ stripZ l, c ∈ l := by
  obtain ⟨k, hk⟩ := stripZ_decomp l
  intro c hc
  rw [hk]
  exact List.mem_append_left _ hc

/-! ## Rounding: the integer-pair computation agrees with the spec-side
half-even rounding on ℚ -/

theorem rheF_eq_rheQ {y : Frac} (h : 0 < y.d) : rheF y = rheQ (fracVal y) := by
  have hd : (0 : ℚ) < (y.d : ℚ) := by exact_mod_cast h
  have hfl := myFloorF_eq h
  have hsub : fracVal y - (⌊fracVal y⌋ : ℚ) =
      ((y.n - ⌊fracVal y⌋ * (y.d : ℤ) : ℤ) : ℚ) / (y.d : ℚ) := by
    rw [fracVal]
    push_cast
    field_simp
    ring
  have h1 : (2 * (y.n - myFloorF y * (y.d : ℤ)) < (y.d : ℤ)) ↔
      (fracVal y - (⌊fracVal y⌋ : ℚ) < 1 / 2) := by
    rw [hfl, hsub, div_lt_div_iff hd (by norm_num)]
    constructor
    · intro hh
      have h3 : ((2 * (y.n - ⌊fracVal y⌋ * (y.d : ℤ)) : ℤ) : ℚ) < ((y.d : ℤ) : ℚ) := by
        exact_mod_cast hh
      push_cast at h3 ⊢
      linarith
    · intro hh
      have h3 : ((2 * (y.n - ⌊fracVal y⌋ * (y.d : ℤ)) : ℤ) : ℚ) < ((y.d : ℤ) : ℚ) := by
        push_cast
        push_cast at hh
        linarith
      exact_mod_cast h3
  have h2 : ((y.d : ℤ) < 2 * (y.n - myFloorF y * (y.d : ℤ))) ↔
      ((1 : ℚ) / 2 < fracVal y - (⌊fracVal y⌋ : ℚ)) := by
    rw [hfl, hsub, div_lt_div_iff (by norm_num) hd]
    constructor
    · intro hh
      have h3 : ((y.d : ℤ) : ℚ) < ((2 * (y.n - ⌊fracVal y⌋ * (y.d : ℤ)) : ℤ) : ℚ) := by
        exact_mod_cast hh
      push_cast at h3 ⊢
      linarith
    · intro hh
      have h3 : ((y.d : ℤ) : ℚ) < ((2 * (y.n - ⌊fracVal y⌋ * (y.d : ℤ)) : ℤ) : ℚ) := by
        push_cast
        push_cast at hh
        linarith
      exact_mod_cast h3
  rw [rheF, rheQ]
  by_cases hc1 : fracVal y - (⌊fracVal y⌋ : ℚ) < 1 / 2
  · rw [if_pos (h1.mpr hc1), if_pos hc1, hfl]
  · rw [if_neg (fun hh => hc1 (h1.mp hh)), if_neg hc1]
    by_cases hc2 : (1 : ℚ) / 2 < fracVal y - (⌊fracVal y⌋ : ℚ)
    · rw [if_pos (h2.mpr hc2), if_pos hc2, hfl]
    · rw [if_neg (fun hh => hc2 (h2.mp hh)), if_neg hc2, hfl]

theorem tenPow10_cast : ((tenPow10 : ℕ) : ℚ) = 10 ^ 10 := by norm_num [tenPow10]

theorem tenPow10_eq : (tenPow10 : ℕ) = 10 ^ 10 := by norm_num [tenPow10]

theorem mOf_eq {x : Frac} (h : 0 < x.d) : mOf x = rheQ (fracVal x * 10 ^ 10) := by
  rw [mOf, rheF_eq_rheQ (show 0 < (Frac.mk (x.n * (tenPow10 : ℤ)) x.d).d from h)]
  congr 1
  show ((x.n * (tenPow10 : ℤ) : ℤ) : ℚ) / (x.d : ℚ) = (x.n : ℚ) / (x.d : ℚ) * 10 ^ 10
  push_cast [tenPow10_eq]
  ring

theorem displayVal_f {x : Frac} (h : 0 < x.d) :
    displayVal (.f x) = ((mOf x : ℤ) : ℚ) / 10 ^ 10 := by
  rw [displayVal, specRound10, mOf_eq h]

theorem den_one_iff {m : ℤ} : (((m : ℚ)) / 10 ^ 10).den = 1 ↔ (10 ^ 10 : ℤ) ∣ m := by
  constructor
  · intro h
    set q : ℚ := (m : ℚ) / 10 ^ 10 with hq
    have hnum : (q.num : ℚ) = q := by
      rw [← Rat.num_div_den q, h]
      simp
    have hm : (m : ℚ) = (q.num : ℚ) * 10 ^ 10 := by
      rw [hnum, hq]
      field_simp
    refine ⟨q.num, ?_⟩
    have hm2 : (m : ℚ) = ((10 ^ 10 * q.num : ℤ) : ℚ) := by
      push_cast
      push_cast at hm
      linarith
    exact_mod_cast hm2
  · rintro ⟨k, rfl⟩
    have h10 : ((10 : ℚ)) ^ 10 ≠ 0 := by norm_num
    have hcast : (((10 ^ 10 * k : ℤ) : ℚ)) / 10 ^ 10 = (k : ℚ) := by
      push_cast
      norm_num
    rw [hcast]
    exact Rat.den_intCast k

/-! ## Reading back formatted numerals -/

theorem takeWhile_append_all {p : Char → Bool} :
    ∀ (A B : List Char), (∀ a ∈ A, p a = true) →
      (A ++ B).takeWhile p = A ++ B.takeWhile p := by
  intro A
  induction A with
  | nil => intro B h; simp
  | cons a t ih =>
    intro B h
    rw [List.cons_append, List.takeWhile_cons_of_pos (h a (List.mem_cons_self a t)),
      ih B (fun x hx => h x (List.mem_cons_of_mem a hx)), List.cons_append]

theorem readPos_int {A : List Char} (hne : A ≠ []) (hdig : ∀ a ∈ A, a.isDigit = true) :
    readPos A = some ((digitsVal A : ℚ)) := by
  have htw : A.takeWhile (fun c => decide (c ≠ '.')) = A := by
    have := @takeWhile_append_all (fun c => decide (c ≠ '.')) A []
      (fun a ha => by simp [digit_ne_dot (hdig a ha)])
    simpa using this
  rw [readPos]
  simp only [htw, List.drop_length]
  rw [if_pos ⟨hne, List.all_eq_true.mpr hdig⟩]

theorem readPos_dec {A S : List Char} (hA : A ≠ []) (hS : S ≠ [])
    (hdA : ∀ a ∈ A, a.isDigit = true) (hdS : ∀ a ∈ S, a.isDigit = true) :
    readPos (A ++ '.' :: S) = some ((digitsVal A : ℚ) + (digitsVal S : ℚ) / (pow10 S.length : ℚ)) := by
  have htw : (A ++ '.' :: S).takeWhile (fun c => decide (c ≠ '.')) = A := by
    rw [takeWhile_append_all A ('.' :: S) (fun a ha => by simp [digit_ne_dot (hdA a ha)])]
    rw [List.takeWhile_cons_of_neg (by simp)]
    simp
  have hcond : A ≠ [] ∧ S ≠ [] ∧ A.all Char.isDigit = true ∧ S.all Char.isDigit = true ∧
      (S.all fun c => decide (c ≠ '.')) = true :=
    ⟨hA, hS, List.all_eq_true.mpr hdA, List.all_eq_true.mpr hdS,
      List.all_eq_true.mpr (fun x hx => by simp [digit_ne_dot (hdS x hx)])⟩
  rw [readPos]
  simp only [htw, List.drop_left]
  rw [if_pos hcond]

theorem readNumeral_intChars (n : ℤ) : readNumeral (intChars n) = some ((n : ℤ) : ℚ) := by
  by_cases hneg : n < 0
  · rw [intChars, if_pos hneg, readNumeral]
    rw [if_pos (by simp)]
    show (readPos (natChars n.natAbs)).map Neg.neg = _
    rw [readPos_int (natChars_ne_nil _) (natChars_all_digits _), digitsVal_natChars]
    rw [Option.map_some']
    congr 1
    rw [Int.cast_natAbs]
    rw [abs_of_neg (by exact_mod_cast hneg)]
    push_cast
    ring
  · rw [intChars, if_neg hneg, readNumeral]
    have hh : (natChars n.natAbs).head? ≠ some '-' := by
      cases hhd : (natChars n.natAbs).head? with
      | none => simp
      | some c =>
        have hc : c ∈ natChars n.natAbs := List.mem_of_mem_head? (by rw [hhd]; rfl)
        have := digit_ne_minus (natChars_all_digits _ c hc)
        simp [this]
    rw [if_neg hh, readPos_int (natChars_ne_nil _) (natChars_all_digits _), digitsVal_natChars]
    congr 1
    rw [Int.cast_natAbs, abs_of_nonneg (by exact_mod_cast not_lt.mp hneg)]

theorem dot_not_mem_intChars (n : ℤ) : '.' ∉ intChars n := by
  rw [intChars]
  split
  · intro hc
    rcases List.mem_cons.mp hc with hc | hc
    · cases hc
    · exact digit_ne_dot (natChars_all_digits _ _ hc) rfl
  · intro hc
    exact digit_ne_dot (natChars_all_digits _ _ hc) rfl

theorem getLast?_append_right {X Y : List Char} (h : Y ≠ []) :
    (X ++ Y).getLast? = Y.getLast? := by
  rw [List.getLast?_append]
  cases hgl : Y.getLast? with
  | none => exact absurd (List.getLast?_eq_none_iff.mp hgl) h
  | some y => rfl

theorem digitsVal_replicate (k : ℕ) : digitsVal (List.replicate k '0') = 0 := by
  have := digitsVal_zeros_append k []
  simpa using this

theorem fdiv_exact {m : ℤ} (h : (tenPow10 : ℤ) ∣ m) :
    ((Int.fdiv m (tenPow10 : ℤ) : ℤ) : ℚ) = (m : ℚ) / 10 ^ 10 := by
  obtain ⟨k, rfl⟩ := h
  have hT : ((tenPow10 : ℕ) : ℤ) ≠ 0 := by norm_num [tenPow10]
  rw [Int.fdiv_eq_ediv _ (by positivity), Int.mul_ediv_cancel_left k hT]
  rw [show (((tenPow10 : ℕ) : ℤ) * k : ℤ) = ((10 ^ 10 * k : ℤ)) from by rw [tenPow10_eq]; push_cast; ring]
  push_cast
  field_simp
  ring_nf

theorem decChars_spec {m : ℤ} (hnd : ¬ (tenPow10 : ℤ) ∣ m) :
    readNumeral (decChars m) = some ((m : ℚ) / 10 ^ 10) ∧
    '.' ∈ decChars m ∧ (decChars m).getLast? ≠ some '0' := by
  have hT : 0 < tenPow10 := by norm_num [tenPow10]
  have hfne : m.natAbs % tenPow10 ≠ 0 := by
    intro h0
    apply hnd
    have hdvd : tenPow10 ∣ m.natAbs := Nat.dvd_of_mod_eq_zero h0
    have h2 : ((tenPow10 : ℕ) : ℤ) ∣ ((m.natAbs : ℕ) : ℤ) := Int.natCast_dvd_natCast.mpr hdvd
    exact Int.dvd_natAbs.mp h2
  have hflt : m.natAbs % tenPow10 < tenPow10 := Nat.mod_lt _ hT
  have hlen : (natChars (m.natAbs % tenPow10)).length ≤ 10 :=
    natChars_length_le _ 10 (by rw [← tenPow10_eq]; exact hflt) (by norm_num)
  have hpad_dig : ∀ c ∈ List.replicate (10 - (natChars (m.natAbs % tenPow10)).length) '0' ++
      natChars (m.natAbs % tenPow10), c.isDigit = true := by
    intro c hc
    rcases List.mem_append.mp hc with hc | hc
    · rw [List.eq_of_mem_replicate hc]; decide
    · exact natChars_all_digits _ c hc
  have hpad_len : (List.replicate (10 - (natChars (m.natAbs % tenPow10)).length) '0' ++
      natChars (m.natAbs % tenPow10)).length = 10 := by
    rw [List.length_append, List.length_replicate]
    omega
  have hpad_val : digitsVal (List.replicate (10 - (natChars (m.natAbs % tenPow10)).length) '0' ++
      natChars (m.natAbs % tenPow10)) = m.natAbs % tenPow10 := by
    rw [digitsVal_zeros_append, digitsVal_natChars]
  set S := stripZ (List.replicate (10 - (natChars (m.natAbs % tenPow10)).length) '0' ++
    natChars (m.natAbs % tenPow10)) with hS
  have hS_dig : ∀ c ∈ S, c.isDigit = true := fun c hc => hpad_dig c (stripZ_sub _ c hc)
  have hS_ne : S ≠ [] := by
    intro h0
    have hall := stripZ_nil_all h0
    have hrep := List.eq_replicate_of_mem hall
    apply hfne
    rw [← hpad_val]
    conv_lhs => rw [hrep]
    exact digitsVal_replicate _
  have hS_last : S.getLast? ≠ some '0' := stripZ_getLast hS_ne
  have hS_len : S.length ≤ 10 := hpad_len ▸ stripZ_length_le _
  have hS_val : digitsVal S * 10 ^ (10 - S.length) = m.natAbs % tenPow10 := by
    have h1 := stripZ_val (List.replicate (10 - (natChars (m.natAbs % tenPow10)).length) '0' ++
      natChars (m.natAbs % tenPow10))
    rw [hpad_val, hpad_len] at h1
    exact h1.symm
  have hreadp : readPos (natChars (m.natAbs / tenPow10) ++ '.' :: S) =
      some ((digitsVal (natChars (m.natAbs / tenPow10)) : ℚ) +
        (digitsVal S : ℚ) / (pow10 S.length : ℚ)) :=
    readPos_dec (natChars_ne_nil _) hS_ne (natChars_all_digits _) hS_dig
  have hvalq : (digitsVal (natChars (m.natAbs / tenPow10)) : ℚ) +
      (digitsVal S : ℚ) / (pow10 S.length : ℚ) = (m.natAbs : ℚ) / 10 ^ 10 := by
    rw [digitsVal_natChars, pow10_eq]
    push_cast
    have h2 : (m.natAbs : ℕ) = (m.natAbs / tenPow10) * tenPow10 +
        digitsVal S * 10 ^ (10 - S.length) := by
      rw [hS_val]
      exact (Nat.div_add_mod' _ _).symm
    have ha2 : (m.natAbs : ℚ) = ((m.natAbs / tenPow10 : ℕ) : ℚ) * ((tenPow10 : ℕ) : ℚ) +
        (digitsVal S : ℚ) * 10 ^ (10 - S.length) := by exact_mod_cast h2
    rw [tenPow10_cast] at ha2
    rw [ha2]
    have hsplit : (10 : ℚ) ^ 10 = 10 ^ (10 - S.length) * 10 ^ S.length := by
      rw [← pow_add]
      congr 1
      omega
    have hfr : (digitsVal S : ℚ) / 10 ^ S.length =
        (digitsVal S : ℚ) * 10 ^ (10 - S.length) / 10 ^ 10 := by
      rw [hsplit,
        mul_comm ((digitsVal S : ℚ)) ((10 : ℚ) ^ (10 - S.length)),
        mul_div_mul_left _ _ (by positivity : ((10 : ℚ) ^ (10 - S.length)) ≠ 0)]
    rw [add_div, mul_div_assoc, div_self (by positivity : ((10 : ℚ) ^ 10) ≠ 0), mul_one, hfr]
  by_cases hmneg : m < 0
  · have hform : decChars m = '-' :: (natChars (m.natAbs / tenPow10) ++ '.' :: S) := by
      rw [decChars, if_pos hmneg]
      rfl
    refine ⟨?_, ?_, ?_⟩
    · rw [hform, readNumeral, if_pos (by simp)]
      rw [show ('-' :: (natChars (m.natAbs / tenPow10) ++ '.' :: S)).tail =
        (natChars (m.natAbs / tenPow10) ++ '.' :: S) from rfl]
      rw [hreadp, Option.map_some']
      congr 1
      rw [hvalq]
      rw [show ((m.natAbs : ℕ) : ℚ) = -(m : ℚ) from by
        rw [Int.cast_natAbs, abs_of_neg (by exact_mod_cast hmneg)]
        push_cast
        ring]
      ring
    · rw [hform]
      exact List.mem_cons_of_mem _ (List.mem_append_right _ (List.mem_cons_self _ _))
    · rw [hform, show ('-' :: (natChars (m.natAbs / tenPow10) ++ '.' :: S)) =
        (('-' :: natChars (m.natAbs / tenPow10)) ++ ('.' :: S)) from by simp,
        getLast?_append_right (by simp),
        show ('.' :: S) = (['.'] ++ S) from rfl, getLast?_append_right hS_ne]
      exact hS_last
  · have hform : decChars m = natChars (m.natAbs / tenPow10) ++ '.' :: S := by
      rw [decChars, if_neg hmneg]
      rfl
    refine ⟨?_, ?_, ?_⟩
    · have hh : (natChars (m.natAbs / tenPow10) ++ '.' :: S).head? ≠ some '-' := by
        rw [List.head?_append_of_ne_nil _ (natChars_ne_nil _)]
        cases hhd : (natChars (m.natAbs / tenPow10)).head? with
        | none => simp
        | some c =>
          have hc : c ∈ natChars (m.natAbs / tenPow10) :=
            List.mem_of_mem_head? (by rw [hhd]; rfl)
          have := digit_ne_minus (natChars_all_digits _ c hc)
          simp [this]
      rw [hform, readNumeral, if_neg hh, hreadp, hvalq]
      congr 1
      rw [show ((m.natAbs : ℕ) : ℚ) = (m : ℚ) from by
        rw [Int.cast_natAbs, abs_of_nonneg (by exact_mod_cast not_lt.mp hmneg)]]
    · rw [hform]
      exact List.mem_append_right _ (List.mem_cons_self _ _)
    · rw [hform, show ('.' :: S) = (['.'] ++ S) from rfl, ← List.append_assoc,
        getLast?_append_right hS_ne]
      exact hS_last

theorem calcStep_ok {e r : List Char} (h : calcStep e = (r, none)) :
    ∃ w, pyEval e = some (.ok w) ∧ r = strOf w := by
  cases hp : pyEval e with
  | none => rw [calcStep, hp] at h; simp at h
  | some x =>
    cases x with
    | error pe => rw [calcStep, hp] at h; cases pe <;> simp at h
    | ok w =>
      rw [calcStep, hp] at h
      injection h with h1 h2
      exact ⟨w, rfl, h1.symm⟩

theorem calcStep_ok_num {e r : List Char} (h : calcStep e = (r, none)) :
    (∃ v, pyEval e = some (.ok (.v v)) ∧ r = format v) ∨
      (pyEval e = some (.ok .ell) ∧ r = ellipsisChars) := by
  obtain ⟨w, hw, hr⟩ := calcStep_ok h
  cases w with
  | v v => exact Or.inl ⟨v, hw, hr⟩
  | ell => exact Or.inr ⟨hw, hr⟩

theorem calcStep_of_ok {e : List Char} {v : Value} (h : pyEval e = some (.ok (.v v))) :
    calcStep e = (format v, none) := by
  rw [calcStep, h]
  rfl

/-! ## Lexing formatted result strings (round-trip support) -/

theorem munch_digits : ∀ (ds : List Char) (acc : ℕ) (rest : List Char),
    (∀ c ∈ ds, c.isDigit = true) → (∀ c, rest.head? = some c → c.isDigit = false) →
    munch acc (ds ++ rest) =
      (List.foldl (fun a c => 10 * a + dval c) acc ds, ds.length, rest) := by
  intro ds
  induction ds with
  | nil =>
    intro acc rest _ hrest
    cases rest with
    | nil => rfl
    | cons c r =>
      rw [List.nil_append, munch, if_neg (by simp [hrest c rfl])]
      rfl
  | cons d t ih =>
    intro acc rest hdig hrest
    rw [List.cons_append, munch, if_pos (hdig d (List.mem_cons_self d t)),
      ih _ rest (fun c hc => hdig c (List.mem_cons_of_mem d hc)) hrest]
    simp [List.foldl_cons]

theorem munch_all (ds : List Char) (acc : ℕ) (h : ∀ c ∈ ds, c.isDigit = true) :
    munch acc ds = (List.foldl (fun a c => 10 * a + dval c) acc ds, ds.length, []) := by
  have := munch_digits ds acc [] h (fun c hc => by cases hc)
  simpa using this

theorem foldl_from_head (d : Char) (ds : List Char) :
    List.foldl (fun a c => 10 * a + dval c) (dval d) ds = digitsVal (d :: ds) := by
  rw [digitsVal, List.foldl_cons]
  norm_num

theorem lexF_nil (fu : ℕ) : lexF fu [] = some [] := by cases fu <;> rfl

theorem lex_natChars (a : ℕ) : tokenize (natChars a) = some [Tok.lit (.i (a : ℤ))] := by
  obtain ⟨d, ds, hnc⟩ : ∃ d ds, natChars a = d :: ds := by
    cases h : natChars a with
    | nil => exact absurd h (natChars_ne_nil a)
    | cons d ds => exact ⟨d, ds, rfl⟩
  have hd : d.isDigit = true := natChars_all_digits a d (hnc ▸ List.mem_cons_self d ds)
  have hds : ∀ c ∈ ds, c.isDigit = true := fun c hc =>
    natChars_all_digits a c (hnc ▸ List.mem_cons_of_mem d hc)
  have hm : munch (dval d) ds =
      (digitsVal (d :: ds), ds.length, []) := by
    rw [munch_all ds (dval d) hds, foldl_from_head]
  have hval : digitsVal (d :: ds) = a := by rw [← hnc, digitsVal_natChars]
  rw [tokenize, hnc]
  show lexF (ds.length + 1 + 1) (d :: ds) = _
  rw [lexF.eq_def]
  dsimp only
  rw [if_pos hd, hm]
  dsimp only
  rw [if_neg (by
    rintro ⟨rfl, hne⟩
    exact hne (by
      rw [hval]
      exact natChars_head_zero (by rw [hnc]; rfl)))]
  rw [lexF_nil, hval]
  rfl

theorem lex_dec (ip : ℕ) (S : List Char) (hS : S ≠ []) (hdig : ∀ c ∈ S, c.isDigit = true) :
    tokenize (natChars ip ++ '.' :: S) =
      some [Tok.lit (.f ⟨((ip * pow10 S.length + digitsVal S : ℕ) : ℤ), pow10 S.length⟩)] := by
  obtain ⟨d, ds, hnc⟩ : ∃ d ds, natChars ip = d :: ds := by
    cases h : natChars ip with
    | nil => exact absurd h (natChars_ne_nil ip)
    | cons d ds => exact ⟨d, ds, rfl⟩
  have hd : d.isDigit = true := natChars_all_digits ip d (hnc ▸ List.mem_cons_self d ds)
  have hds : ∀ c ∈ ds, c.isDigit = true := fun c hc =>
    natChars_all_digits ip c (hnc ▸ List.mem_cons_of_mem d hc)
  have hval : digitsVal (d :: ds) = ip := by rw [← hnc, digitsVal_natChars]
  have hm1 : munch (dval d) (ds ++ '.' :: S) =
      (ip, ds.length, '.' :: S) := by
    rw [munch_digits ds (dval d) ('.' :: S) hds (fun c hc => by
      injection hc with hc
      rw [← hc]
      decide), foldl_from_head, hval]
  have hm2 : munch 0 S = (digitsVal S, S.length, []) :=
    munch_all S 0 hdig
  rw [tokenize, hnc]
  show lexF ((d :: (ds ++ '.' :: S)).length + 1) (d :: (ds ++ '.' :: S)) = _
  rw [lexF.eq_def]
  dsimp only
  rw [if_pos hd, hm1]
  dsimp only
  split
  · next r2 heq =>
    injection heq with h1 h2
    subst h2
    rw [hm2]
    dsimp only
    rw [lexF_nil]
    rfl
  · next hne => exact absurd rfl (hne S)

theorem tokenize_minus (X : List Char) :
    tokenize ('-' :: X) = (tokenize X).map (Tok.sub :: ·) := by
  rw [tokenize]
  show lexF (X.length + 1 + 1) ('-' :: X) = _
  rw [lexF.eq_def]
  dsimp only
  rw [if_neg (by decide), if_neg (by decide), if_neg (by decide), if_pos rfl]
  rfl

theorem vadd_izero (w : Value) : vadd (.i 0) w = w := by
  cases w with
  | i n => show Value.i (0 + n) = Value.i n; rw [zero_add]
  | f y =>
    show Value.f (fadd ⟨0, 1⟩ y) = Value.f y
    congr 1
    cases y with
    | mk n d =>
      show Frac.mk (0 * (d : ℤ) + n * 1) (1 * d) = Frac.mk n d
      congr 1 <;> ring_nf <;> omega

theorem runFlat_single (sg : List Bool) (v : Value) :
    runFlat ((sg, PAtom.num v), []) = .ok (.v (applySigns sg v)) := rfl

theorem pyEval_shape {e : List Char} {ts : List Tok}
    (hrep : replaceSyms e = e) (htok : tokenize e = some ts) :
    pyEval e = (scan ts).map runFlat := by
  rw [pyEval, hrep, htok]

theorem replaceSyms_id {e : List Char}
    (h : ∀ c ∈ e, c = '-' ∨ c = '.' ∨ c.isDigit = true) : replaceSyms e = e := by
  rw [replaceSyms]
  conv_rhs => rw [← List.map_id e]
  apply List.map_congr_left
  intro c hc
  have hne : c ≠ '÷' ∧ c ≠ '×' ∧ c ≠ '−' := by
    rcases h c hc with rfl | rfl | hd
    · exact ⟨by decide, by decide, by decide⟩
    · exact ⟨by decide, by decide, by decide⟩
    · refine ⟨?_, ?_, ?_⟩ <;> rintro rfl <;> exact absurd hd (by decide)
  rw [if_neg hne.1, if_neg hne.2.1, if_neg hne.2.2]
  rfl

theorem rheQ_intCast (k : ℤ) : rheQ ((k : ℤ) : ℚ) = k := by
  rw [rheQ, Int.floor_intCast, if_pos (by norm_num)]

theorem mOf_int {y : Frac} (hd : 0 < y.d) {m : ℤ} (hv : fracVal y = (m : ℚ) / 10 ^ 10) :
    mOf y = m := by
  rw [mOf_eq hd, hv, div_mul_cancel₀ _ (by positivity : ((10 : ℚ) ^ 10) ≠ 0), rheQ_intCast]

theorem format_of_val {y : Frac} (hd : 0 < y.d) {m : ℤ}
    (hnd : ¬ (tenPow10 : ℤ) ∣ m) (hv : fracVal y = (m : ℚ) / 10 ^ 10) :
    format (.f y) = decChars m := by
  have hm : mOf y = m := mOf_int hd hv
  rw [show format (Value.f y) = (if mOf y % (tenPow10 : ℤ) = 0 then
    intChars (Int.fdiv (mOf y) (tenPow10 : ℤ)) else decChars (mOf y)) from rfl, hm,
    if_neg (fun h0 => hnd (Int.dvd_of_emod_eq_zero h0))]

theorem intChars_chars (n : ℤ) : ∀ c ∈ intChars n, c = '-' ∨ c = '.' ∨ c.isDigit = true := by
  intro c hc
  rw [intChars] at hc
  split at hc
  · rcases List.mem_cons.mp hc with rfl | hc
    · exact Or.inl rfl
    · exact Or.inr (Or.inr (natChars_all_digits _ c hc))
  · exact Or.inr (Or.inr (natChars_all_digits _ c hc))

theorem decChars_chars (m : ℤ) : ∀ c ∈ decChars m, c = '-' ∨ c = '.' ∨ c.isDigit = true := by
  intro c hc
  rw [decChars] at hc
  rcases List.mem_append.mp hc with hc | hc
  · rcases List.mem_append.mp hc with hc | hc
    · split at hc
      · rw [List.mem_singleton] at hc
        exact Or.inl hc
      · cases hc
    · exact Or.inr (Or.inr (natChars_all_digits _ c hc))
  · rcases List.mem_cons.mp hc with rfl | hc
    · exact Or.inr (Or.inl rfl)
    · refine Or.inr (Or.inr ?_)
      have hc2 := stripZ_sub _ c hc
      rcases List.mem_append.mp hc2 with hc2 | hc2
      · rw [List.eq_of_mem_replicate hc2]
        decide
      · exact natChars_all_digits _ c hc2

theorem pyEval_intChars (n : ℤ) : pyEval (intChars n) = some (.ok (.v (.i n))) := by
  by_cases hneg : n < 0
  · have hform : intChars n = '-' :: natChars n.natAbs := by rw [intChars, if_pos hneg]
    have htok : tokenize (intChars n) = some [Tok.sub, Tok.lit (.i (n.natAbs : ℤ))] := by
      rw [hform, tokenize_minus, lex_natChars]
      rfl
    rw [pyEval_shape (replaceSyms_id (intChars_chars n)) htok]
    rw [show scan [Tok.sub, Tok.lit (.i (n.natAbs : ℤ))] =
      some (([true], PAtom.num (Value.i (n.natAbs : ℤ))), []) from rfl]
    rw [Option.map_some', runFlat_single]
    rw [show applySigns [true] (Value.i (n.natAbs : ℤ)) = Value.i (-(n.natAbs : ℤ)) from rfl]
    rw [show (-(n.natAbs : ℤ)) = n from by omega]
  · have hform : intChars n = natChars n.natAbs := by rw [intChars, if_neg hneg]
    have htok : tokenize (intChars n) = some [Tok.lit (.i (n.natAbs : ℤ))] := by
      rw [hform, lex_natChars]
    rw [pyEval_shape (replaceSyms_id (intChars_chars n)) htok]
    rw [show scan [Tok.lit (.i (n.natAbs : ℤ))] =
      some (([], PAtom.num (Value.i (n.natAbs : ℤ))), []) from rfl]
    rw [Option.map_some', runFlat_single]
    rw [show applySigns [] (Value.i (n.natAbs : ℤ)) = Value.i ((n.natAbs : ℤ)) from rfl]
    rw [show ((n.natAbs : ℤ)) = n from by omega]

theorem ipSplit_val (a : ℕ) (S : List Char) (hs_len : S.length ≤ 10)
    (hS_val : digitsVal S * 10 ^ (10 - S.length) = a % tenPow10) :
    ((a / tenPow10 : ℕ) : ℚ) + (digitsVal S : ℚ) / ((pow10 S.length : ℕ) : ℚ) =
      (a : ℚ) / 10 ^ 10 := by
  rw [pow10_eq]
  push_cast
  have h2 : (a : ℕ) = (a / tenPow10) * tenPow10 + digitsVal S * 10 ^ (10 - S.length) := by
    rw [hS_val]
    exact (Nat.div_add_mod' _ _).symm
  have ha2 : (a : ℚ) = ((a / tenPow10 : ℕ) : ℚ) * ((tenPow10 : ℕ) : ℚ) +
      (digitsVal S : ℚ) * 10 ^ (10 - S.length) := by exact_mod_cast h2
  rw [tenPow10_cast] at ha2
  rw [ha2]
  have hsplit : (10 : ℚ) ^ 10 = 10 ^ (10 - S.length) * 10 ^ S.length := by
    rw [← pow_add]
    congr 1
    omega
  have hfr : (digitsVal S : ℚ) / 10 ^ S.length =
      (digitsVal S : ℚ) * 10 ^ (10 - S.length) / 10 ^ 10 := by
    rw [hsplit,
      mul_comm ((digitsVal S : ℚ)) ((10 : ℚ) ^ (10 - S.length)),
      mul_div_mul_left _ _ (by positivity : ((10 : ℚ) ^ (10 - S.length)) ≠ 0)]
  rw [add_div, mul_div_assoc, div_self (by positivity : ((10 : ℚ) ^ 10) ≠ 0), mul_one, hfr]

theorem decS_facts (m : ℤ) (hnd : ¬ (tenPow10 : ℤ) ∣ m) :
    (∀ c ∈ stripZ (List.replicate (10 - (natChars (m.natAbs % tenPow10)).length) '0' ++
      natChars (m.natAbs % tenPow10)), c.isDigit = true) ∧
    stripZ (List.replicate (10 - (natChars (m.natAbs % tenPow10)).length) '0' ++
      natChars (m.natAbs % tenPow10)) ≠ [] ∧
    (stripZ (List.replicate (10 - (natChars (m.natAbs % tenPow10)).length) '0' ++
      natChars (m.natAbs % tenPow10))).length ≤ 10 ∧
    digitsVal (stripZ (List.replicate (10 - (natChars (m.natAbs % tenPow10)).length) '0' ++
      natChars (m.natAbs % tenPow10))) * 10 ^ (10 -
      (stripZ (List.replicate (10 - (natChars (m.natAbs % tenPow10)).length) '0' ++
        natChars (m.natAbs % tenPow10))).length) = m.natAbs % tenPow10 := by
  have hT : 0 < tenPow10 := by norm_num [tenPow10]
  have hfne : m.natAbs % tenPow10 ≠ 0 := by
    intro h0
    apply hnd
    have hdvd : tenPow10 ∣ m.natAbs := Nat.dvd_of_mod_eq_zero h0
    have h2 : ((tenPow10 : ℕ) : ℤ) ∣ ((m.natAbs : ℕ) : ℤ) := Int.natCast_dvd_natCast.mpr hdvd
    exact Int.dvd_natAbs.mp h2
  have hflt : m.natAbs % tenPow10 < tenPow10 := Nat.mod_lt _ hT
  have hlen : (natChars (m.natAbs % tenPow10)).length ≤ 10 :=
    natChars_length_le _ 10 (by rw [← tenPow10_eq]; exact hflt) (by norm_num)
  have hpad_dig : ∀ c ∈ List.replicate (10 - (natChars (m.natAbs % tenPow10)).length) '0' ++
      natChars (m.natAbs % tenPow10), c.isDigit = true := by
    intro c hc
    rcases List.mem_append.mp hc with hc | hc
    · rw [List.eq_of_mem_replicate hc]; decide
    · exact natChars_all_digits _ c hc
  have hpad_len : (List.replicate (10 - (natChars (m.natAbs % tenPow10)).length) '0' ++
      natChars (m.natAbs % tenPow10)).length = 10 := by
    rw [List.length_append, List.length_replicate]
    omega
  have hpad_val : digitsVal (List.replicate (10 - (natChars (m.natAbs % tenPow10)).length) '0' ++
      natChars (m.natAbs % tenPow10)) = m.natAbs % tenPow10 := by
    rw [digitsVal_zeros_append, digitsVal_natChars]
  have hslen : (stripZ (List.replicate (10 - (natChars (m.natAbs % tenPow10)).length) '0' ++
      natChars (m.natAbs % tenPow10))).length ≤ 10 := by
    have h := stripZ_length_le (List.replicate (10 - (natChars (m.natAbs % tenPow10)).length) '0' ++
      natChars (m.natAbs % tenPow10))
    rwa [hpad_len] at h
  refine ⟨fun c hc => hpad_dig c (stripZ_sub _ c hc), ?_, hslen, ?_⟩
  · intro h0
    have hall := stripZ_nil_all h0
    have hrep := List.eq_replicate_of_mem hall
    apply hfne
    rw [← hpad_val]
    conv_lhs => rw [hrep]
    exact digitsVal_replicate _
  · have h1 := stripZ_val (List.replicate (10 - (natChars (m.natAbs % tenPow10)).length) '0' ++
      natChars (m.natAbs % tenPow10))
    rw [hpad_val, hpad_len] at h1
    exact h1.symm

theorem pyEval_decChars {m : ℤ} (hnd : ¬ (tenPow10 : ℤ) ∣ m) :
    ∃ y : Frac, pyEval (decChars m) = some (.ok (.v (.f y))) ∧ 0 < y.d ∧
      fracVal y = (m : ℚ) / 10 ^ 10 := by
  obtain ⟨hS_dig, hS_ne, hS_len, hS_val⟩ := decS_facts m hnd
  set S := stripZ (List.replicate (10 - (natChars (m.natAbs % tenPow10)).length) '0' ++
    natChars (m.natAbs % tenPow10)) with hSdef
  set y0 : Frac := ⟨((m.natAbs / tenPow10 * pow10 S.length + digitsVal S : ℕ) : ℤ),
    pow10 S.length⟩ with hy0
  have hy0d : 0 < y0.d := pow10_pos _
  have hy0v : fracVal y0 = (m.natAbs : ℚ) / 10 ^ 10 := by
    rw [hy0, fracVal]
    show (((m.natAbs / tenPow10 * pow10 S.length + digitsVal S : ℕ) : ℤ) : ℚ) /
      ((pow10 S.length : ℕ) : ℚ) = _
    rw [← ipSplit_val m.natAbs S hS_len hS_val]
    have hpne : ((pow10 S.length : ℕ) : ℚ) ≠ 0 := by
      exact_mod_cast Nat.pos_iff_ne_zero.mp (pow10_pos _)
    rw [show ((((m.natAbs / tenPow10 * pow10 S.length + digitsVal S : ℕ) : ℤ)) : ℚ) =
      ((m.natAbs / tenPow10 : ℕ) : ℚ) * ((pow10 S.length : ℕ) : ℚ) + ((digitsVal S : ℕ) : ℚ)
      from by simp only [Nat.cast_add, Nat.cast_mul, Int.cast_add, Int.cast_mul,
        Int.cast_natCast]]
    rw [add_div, mul_div_assoc, div_self hpne, mul_one]
  have hlex := lex_dec (m.natAbs / tenPow10) S hS_ne hS_dig
  by_cases hneg : m < 0
  · have hform : decChars m = '-' :: (natChars (m.natAbs / tenPow10) ++ '.' :: S) := by
      rw [decChars, if_pos hneg]
      rfl
    have htok : tokenize (decChars m) = some [Tok.sub, Tok.lit (.f y0)] := by
      rw [hform, tokenize_minus, hlex]
      rfl
    refine ⟨fneg y0, ?_, hy0d, ?_⟩
    · rw [pyEval_shape (replaceSyms_id (decChars_chars m)) htok]
      rw [show scan [Tok.sub, Tok.lit (.f y0)] =
        some (([true], PAtom.num (Value.f y0)), []) from rfl]
      rw [Option.map_some', runFlat_single]
      rw [show applySigns [true] (Value.f y0) = Value.f (fneg y0) from rfl]
    · rw [fracVal_fneg, hy0v]
      rw [show ((m.natAbs : ℕ) : ℚ) = -(m : ℚ) from by
        rw [Int.cast_natAbs, abs_of_neg (by exact_mod_cast hneg)]
        push_cast
        ring]
      ring
  · have hform : decChars m = natChars (m.natAbs / tenPow10) ++ '.' :: S := by
      rw [decChars, if_neg hneg]
      rfl
    have htok : tokenize (decChars m) = some [Tok.lit (.f y0)] := by
      rw [hform, hlex]
    refine ⟨y0, ?_, hy0d, ?_⟩
    · rw [pyEval_shape (replaceSyms_id (decChars_chars m)) htok]
      rw [show scan [Tok.lit (.f y0)] = some (([], PAtom.num (Value.f y0)), []) from rfl]
      rw [Option.map_some', runFlat_single]
      rw [show applySigns [] (Value.f y0) = Value.f y0 from rfl]
    · rw [hy0v]
      congr 1
      rw [Int.cast_natAbs, abs_of_nonneg (by exact_mod_cast not_lt.mp hneg)]

/-! ## Lexer structure lemmas for the grammar proof -/

theorem munch_len_le : ∀ (X : List Char) (acc : ℕ), (munch acc X).2.2.length ≤ X.length := by
  intro X
  induction X with
  | nil => intro acc; exact Nat.le_refl _
  | cons c r ih =>
    intro acc
    rw [munch]
    by_cases hc : c.isDigit
    · rw [if_pos hc]
      exact Nat.le_succ_of_le (ih _)
    · rw [if_neg hc]

theorem munch_append : ∀ (X Y : List Char) (acc : ℕ),
    (∀ c, Y.head? = some c → c.isDigit = false) →
    munch acc (X ++ Y) = ((munch acc X).1, (munch acc X).2.1,
      if (munch acc X).2.2 = [] then Y else (munch acc X).2.2 ++ Y) := by
  intro X
  induction X with
  | nil =>
    intro Y acc hY
    cases Y with
    | nil => rfl
    | cons c r =>
      have hc : c.isDigit = false := hY c rfl
      have h0 : munch acc ([] : List Char) = (acc, 0, ([] : List Char)) := rfl
      rw [List.nil_append, h0]
      dsimp only
      rw [if_pos rfl, munch, if_neg (by simp [hc])]
  | cons c r ih =>
    intro Y acc hY
    rw [List.cons_append, munch]
    by_cases hc : c.isDigit
    · rw [if_pos hc, ih Y _ hY]
      rw [munch, if_pos hc]
    · rw [if_neg hc]
      rw [munch, if_neg hc]
      simp

theorem imunch_len_le : ∀ (X : List Char), (imunch X).2.length ≤ X.length := by
  intro X
  induction X with
  | nil => exact Nat.le_refl _
  | cons c r ih =>
    rw [imunch]
    by_cases hc : isIdentChar c
    · rw [if_pos hc]
      dsimp only
      exact Nat.le_succ_of_le ih
    · rw [if_neg hc]

theorem imunch_append : ∀ (X Y : List Char),
    (∀ c, Y.head? = some c → isIdentChar c = false) →
    imunch (X ++ Y) = ((imunch X).1, if (imunch X).2 = [] then Y else (imunch X).2 ++ Y) := by
  intro X
  induction X with
  | nil =>
    intro Y hY
    cases Y with
    | nil => rfl
    | cons c r =>
      have hc : isIdentChar c = false := hY c rfl
      have h0 : imunch ([] : List Char) = (([] : List Char), ([] : List Char)) := rfl
      rw [List.nil_append, h0]
      dsimp only
      rw [if_pos rfl, imunch, if_neg (by simp [hc])]
  | cons c r ih =>
    intro Y hY
    rw [List.cons_append, imunch]
    by_cases hc : isIdentChar c
    · rw [if_pos hc, ih Y hY]
      rw [imunch, if_pos hc]
    · rw [if_neg hc]
      rw [imunch, if_neg hc]
      simp

theorem imunch_prefix : ∀ (X : List Char), ∃ p, X = p ++ (imunch X).2 := by
  intro X
  induction X with
  | nil => exact ⟨[], rfl⟩
  | cons c r ih =>
    rw [imunch]
    by_cases hc : isIdentChar c
    · rw [if_pos hc]
      dsimp only
      obtain ⟨p, hp⟩ := ih
      exact ⟨c :: p, by rw [List.cons_append, ← hp]⟩
    · rw [if_neg hc]
      exact ⟨[], rfl⟩

theorem lexF_digit (f : ℕ) (c : Char) (r : List Char) (hc : c.isDigit = true) :
    lexF (f + 1) (c :: r) =
      (match (munch (dval c) r).2.2 with
      | '.' :: r2 =>
        (lexF f (munch 0 r2).2.2).map
          (fun ts => Tok.lit (.f ⟨((munch (dval c) r).1 * pow10 (munch 0 r2).2.1 +
            (munch 0 r2).1 : ℕ), pow10 (munch 0 r2).2.1⟩) :: ts)
      | r1 =>
        if c = '0' ∧ (munch (dval c) r).1 ≠ 0 then none
        else (lexF f r1).map (fun ts => Tok.lit (.i ((munch (dval c) r).1 : ℕ)) :: ts)) := by
  rw [lexF.eq_def]
  dsimp only
  rw [if_pos hc]

theorem lexF_dot (f : ℕ) (cs : List Char) :
    lexF (f + 1) ('.' :: cs) =
      (match cs with
      | '.' :: '.' :: r2 => (lexF f r2).map (Tok.ell :: ·)
      | c2 :: r2 =>
        if c2.isDigit then
          (lexF f (munch (dval c2) r2).2.2).map
            (fun ts => Tok.lit (.f ⟨((munch (dval c2) r2).1 : ℕ),
              pow10 ((munch (dval c2) r2).2.1 + 1)⟩) :: ts)
        else none
      | [] => none) := by
  rw [lexF.eq_def]
  dsimp only
  rw [if_neg (by decide), if_pos rfl]

theorem lexF_ell (f : ℕ) (r2 : List Char) :
    lexF (f + 1) ('.' :: '.' :: '.' :: r2) = (lexF f r2).map (Tok.ell :: ·) := by
  rw [lexF_dot]
  rfl

theorem lexF_dot_nil (f : ℕ) : lexF (f + 1) ['.'] = none := by
  rw [lexF_dot]

theorem lexF_dot_digit (f : ℕ) (c2 : Char) (r2 : List Char) (h : c2.isDigit = true) :
    lexF (f + 1) ('.' :: c2 :: r2) =
      (lexF f (munch (dval c2) r2).2.2).map
        (fun ts => Tok.lit (.f ⟨((munch (dval c2) r2).1 : ℕ),
          pow10 ((munch (dval c2) r2).2.1 + 1)⟩) :: ts) := by
  rw [lexF_dot]
  split
  · next r' heq =>
    injection heq with ha hb
    rw [ha] at h
    exact absurd h (by decide)
  · next c2x r2x heq =>
    injection heq with ha hb
    subst ha
    subst hb
    rw [if_pos h]
  · next heq => exact List.noConfusion heq

theorem lexF_dot_stuck (f : ℕ) (c2 : Char) (r2 : List Char) (hd : c2.isDigit = false)
    (h : ∀ r', c2 :: r2 ≠ '.' :: '.' :: r') :
    lexF (f + 1) ('.' :: c2 :: r2) = none := by
  rw [lexF_dot]
  split
  · next r' heq => exact absurd heq (h r')
  · next c2x r2x heq =>
    injection heq with ha hb
    subst ha
    subst hb
    rw [if_neg (by rw [hd]; exact fun hc => Bool.noConfusion hc)]
  · next heq => exact List.noConfusion heq

theorem lexF_add (f : ℕ) (cs : List Char) :
    lexF (f + 1) ('+' :: cs) = (lexF f cs).map (Tok.add :: ·) := by
  rw [lexF.eq_def]
  dsimp only
  rw [if_neg (by decide), if_neg (by decide), if_pos rfl]

theorem lexF_sub (f : ℕ) (cs : List Char) :
    lexF (f + 1) ('-' :: cs) = (lexF f cs).map (Tok.sub :: ·) := by
  rw [lexF.eq_def]
  dsimp only
  rw [if_neg (by decide), if_neg (by decide), if_neg (by decide), if_pos rfl]

theorem lexF_mod (f : ℕ) (cs : List Char) :
    lexF (f + 1) ('%' :: cs) = (lexF f cs).map (Tok.mod :: ·) := by
  rw [lexF.eq_def]
  dsimp only
  rw [if_neg (by decide), if_neg (by decide), if_neg (by decide), if_neg (by decide),
    if_pos rfl]

theorem lexF_star (f : ℕ) (cs : List Char) :
    lexF (f + 1) ('*' :: cs) =
      (match cs with
      | '*' :: r2 => (lexF f r2).map (Tok.pow :: ·)
      | _ => (lexF f cs).map (Tok.mul :: ·)) := by
  rw [lexF.eq_def]
  dsimp only
  rw [if_neg (by decide), if_neg (by decide), if_neg (by decide), if_neg (by decide),
    if_neg (by decide), if_pos rfl]

theorem lexF_slash (f : ℕ) (cs : List Char) :
    lexF (f + 1) ('/' :: cs) =
      (match cs with
      | '/' :: r2 => (lexF f r2).map (Tok.ddiv :: ·)
      | _ => (lexF f cs).map (Tok.div :: ·)) := by
  rw [lexF.eq_def]
  dsimp only
  rw [if_neg (by decide), if_neg (by decide), if_neg (by decide), if_neg (by decide),
    if_neg (by decide), if_neg (by decide), if_pos rfl]

theorem lexF_star_cons (f : ℕ) (d : Char) (t : List Char) (hd : d ≠ '*') :
    lexF (f + 1) ('*' :: d :: t) = (lexF f (d :: t)).map (Tok.mul :: ·) := by
  rw [lexF_star]
  split
  · next r2 heq =>
    injection heq with h1 h2
    exact absurd h1 hd
  · rfl

theorem lexF_slash_cons (f : ℕ) (d : Char) (t : List Char) (hd : d ≠ '/') :
    lexF (f + 1) ('/' :: d :: t) = (lexF f (d :: t)).map (Tok.div :: ·) := by
  rw [lexF_slash]
  split
  · next r2 heq =>
    injection heq with h1 h2
    exact absurd h1 hd
  · rfl

theorem munch_prefix : ∀ (X : List Char) (acc : ℕ), ∃ p, X = p ++ (munch acc X).2.2 := by
  intro X
  induction X with
  | nil => exact fun acc => ⟨[], rfl⟩
  | cons c r ih =>
    intro acc
    rw [munch]
    by_cases hc : c.isDigit
    · rw [if_pos hc]
      dsimp only
      obtain ⟨p, hp⟩ := ih (10 * acc + dval c)
      exact ⟨c :: p, by rw [List.cons_append, ← hp]⟩
    · rw [if_neg hc]
      exact ⟨[], rfl⟩

theorem lexF_digit_dot (f : ℕ) (c : Char) (r r2 : List Char) (hc : c.isDigit = true)
    (hm : (munch (dval c) r).2.2 = '.' :: r2) :
    lexF (f + 1) (c :: r) =
      (lexF f (munch 0 r2).2.2).map
        (fun ts => Tok.lit (.f ⟨((munch (dval c) r).1 * pow10 (munch 0 r2).2.1 +
          (munch 0 r2).1 : ℕ), pow10 (munch 0 r2).2.1⟩) :: ts) := by
  rw [lexF_digit f c r hc, hm]
  rfl

theorem lexF_digit_int (f : ℕ) (c : Char) (r : List Char) (hc : c.isDigit = true)
    (hm : ((munch (dval c) r).2.2).head? ≠ some '.') :
    lexF (f + 1) (c :: r) =
      (if c = '0' ∧ (munch (dval c) r).1 ≠ 0 then none
      else (lexF f (munch (dval c) r).2.2).map
        (fun ts => Tok.lit (.i ((munch (dval c) r).1 : ℕ)) :: ts)) := by
  rw [lexF_digit f c r hc]
  cases hm2 : (munch (dval c) r).2.2 with
  | nil => rfl
  | cons e t =>
    split
    · next r2 heq =>
      injection heq with h1 h2
      exact absurd (by simp [hm2, h1] : ((munch (dval c) r).2.2).head? = some '.') hm
    · rfl

theorem lexF_star_star (f : ℕ) (r2 : List Char) :
    lexF (f + 1) ('*' :: '*' :: r2) = (lexF f r2).map (Tok.pow :: ·) := by
  rw [lexF_star]
  rfl

theorem lexF_star_nil (f : ℕ) :
    lexF (f + 1) ['*'] = (lexF f []).map (Tok.mul :: ·) := by
  rw [lexF_star]

theorem lexF_slash_slash (f : ℕ) (r2 : List Char) :
    lexF (f + 1) ('/' :: '/' :: r2) = (lexF f r2).map (Tok.ddiv :: ·) := by
  rw [lexF_slash]
  rfl

theorem lexF_slash_nil (f : ℕ) :
    lexF (f + 1) ['/'] = (lexF f []).map (Tok.div :: ·) := by
  rw [lexF_slash]

theorem lexF_ident (f : ℕ) (c : Char) (cs : List Char) (h1 : ¬c.isDigit = true)
    (h2 : ¬c = '.') (h3 : ¬c = '+') (h4 : ¬c = '-') (h5 : ¬c = '%') (h6 : ¬c = '*')
    (h7 : ¬c = '/') (h8 : isIdentStart c = true) :
    lexF (f + 1) (c :: cs) =
      (lexF f (imunch cs).2).map (Tok.name (c :: (imunch cs).1) :: ·) := by
  rw [lexF.eq_def]
  dsimp only
  rw [if_neg h1, if_neg h2, if_neg h3, if_neg h4, if_neg h5, if_neg h6, if_neg h7,
    if_pos h8]

theorem lexF_none (f : ℕ) (c : Char) (cs : List Char) (h1 : ¬c.isDigit = true)
    (h2 : ¬c = '.') (h3 : ¬c = '+') (h4 : ¬c = '-') (h5 : ¬c = '%') (h6 : ¬c = '*')
    (h7 : ¬c = '/') (h8 : ¬isIdentStart c = true) : lexF (f + 1) (c :: cs) = none := by
  rw [lexF.eq_def]
  dsimp only
  rw [if_neg h1, if_neg h2, if_neg h3, if_neg h4, if_neg h5, if_neg h6, if_neg h7,
    if_neg h8]

theorem lexF_mono : ∀ (n : ℕ) (cs : List Char), cs.length ≤ n →
    ∀ fu fu' : ℕ, cs.length < fu → cs.length < fu' → lexF fu cs = lexF fu' cs := by
  intro n
  induction n with
  | zero =>
    intro cs hcs fu fu' h1 h2
    have h : cs = [] := List.eq_nil_of_length_eq_zero (Nat.le_zero.mp hcs)
    subst h
    rw [lexF_nil, lexF_nil]
  | succ n ih =>
    intro cs hcs fu fu' h1 h2
    cases cs with
    | nil => rw [lexF_nil, lexF_nil]
    | cons c r =>
      obtain ⟨f, rfl⟩ : ∃ f, fu = f + 1 := ⟨fu - 1, by omega⟩
      obtain ⟨f', rfl⟩ : ∃ f2, fu' = f2 + 1 := ⟨fu' - 1, by omega⟩
      simp only [List.length_cons] at hcs h1 h2
      have hrn : r.length ≤ n := by omega
      have hrf : r.length < f := by omega
      have hrf' : r.length < f' := by omega
      by_cases hd : c.isDigit
      · by_cases hdot : ((munch (dval c) r).2.2).head? = some '.'
        · obtain ⟨r2, hm⟩ : ∃ r2, (munch (dval c) r).2.2 = '.' :: r2 := by
            cases hmm : (munch (dval c) r).2.2 with
            | nil => rw [hmm] at hdot; exact absurd hdot (by simp)
            | cons e t =>
              rw [hmm] at hdot
              have he : e = '.' := by simpa using hdot
              exact ⟨t, by rw [he]⟩
          rw [lexF_digit_dot f c r r2 hd hm, lexF_digit_dot f' c r r2 hd hm]
          have h1l : r2.length + 1 ≤ r.length := by
            have hle := munch_len_le r (dval c)
            rw [hm] at hle
            simpa using hle
          have h2l := munch_len_le r2 0
          rw [ih (munch 0 r2).2.2 (by omega) f f' (by omega) (by omega)]
        · rw [lexF_digit_int f c r hd hdot, lexF_digit_int f' c r hd hdot]
          have hXl := munch_len_le r (dval c)
          by_cases hz : c = '0' ∧ (munch (dval c) r).1 ≠ 0
          · rw [if_pos hz, if_pos hz]
          · rw [if_neg hz, if_neg hz,
              ih (munch (dval c) r).2.2 (by omega) f f' (by omega) (by omega)]
      · by_cases hdot : c = '.'
        · subst hdot
          cases r with
          | nil => rw [lexF_dot_nil, lexF_dot_nil]
          | cons c2 r2 =>
            by_cases hc2 : c2 = '.'
            · subst hc2
              cases r2 with
              | nil =>
                rw [lexF_dot_stuck f '.' [] (by decide)
                    (fun r' h => by injection h with ha hb; exact List.noConfusion hb),
                  lexF_dot_stuck f' '.' [] (by decide)
                    (fun r' h => by injection h with ha hb; exact List.noConfusion hb)]
              | cons c3 r3 =>
                by_cases hc3 : c3 = '.'
                · subst hc3
                  simp only [List.length_cons] at hrn hrf hrf'
                  rw [lexF_ell, lexF_ell, ih r3 (by omega) f f' (by omega) (by omega)]
                · rw [lexF_dot_stuck f '.' (c3 :: r3) (by decide)
                      (fun r' h => by
                        injection h with ha hb
                        injection hb with hb1 hb2
                        exact hc3 hb1),
                    lexF_dot_stuck f' '.' (c3 :: r3) (by decide)
                      (fun r' h => by
                        injection h with ha hb
                        injection hb with hb1 hb2
                        exact hc3 hb1)]
            · by_cases hc2d : c2.isDigit
              · simp only [List.length_cons] at hrn hrf hrf'
                have hl := munch_len_le r2 (dval c2)
                rw [lexF_dot_digit f c2 r2 hc2d, lexF_dot_digit f' c2 r2 hc2d,
                  ih (munch (dval c2) r2).2.2 (by omega) f f' (by omega) (by omega)]
              · rw [Bool.not_eq_true] at hc2d
                rw [lexF_dot_stuck f c2 r2 hc2d
                    (fun r' h => by injection h with ha hb; exact hc2 ha),
                  lexF_dot_stuck f' c2 r2 hc2d
                    (fun r' h => by injection h with ha hb; exact hc2 ha)]
        · by_cases hadd : c = '+'
          · subst hadd
            rw [lexF_add, lexF_add, ih r hrn f f' hrf hrf']
          · by_cases hsub : c = '-'
            · subst hsub
              rw [lexF_sub, lexF_sub, ih r hrn f f' hrf hrf']
            · by_cases hmod : c = '%'
              · subst hmod
                rw [lexF_mod, lexF_mod, ih r hrn f f' hrf hrf']
              · by_cases hstar : c = '*'
                · subst hstar
                  cases r with
                  | nil => rw [lexF_star_nil, lexF_star_nil, lexF_nil, lexF_nil]
                  | cons e t =>
                    by_cases he : e = '*'
                    · subst he
                      simp only [List.length_cons] at hrn hrf hrf'
                      rw [lexF_star_star, lexF_star_star,
                        ih t (by omega) f f' (by omega) (by omega)]
                    · rw [lexF_star_cons f e t he, lexF_star_cons f' e t he,
                        ih (e :: t) hrn f f' hrf hrf']
                · by_cases hslash : c = '/'
                  · subst hslash
                    cases r with
                    | nil => rw [lexF_slash_nil, lexF_slash_nil, lexF_nil, lexF_nil]
                    | cons e t =>
                      by_cases he : e = '/'
                      · subst he
                        simp only [List.length_cons] at hrn hrf hrf'
                        rw [lexF_slash_slash, lexF_slash_slash,
                          ih t (by omega) f f' (by omega) (by omega)]
                      · rw [lexF_slash_cons f e t he, lexF_slash_cons f' e t he,
                          ih (e :: t) hrn f f' hrf hrf']
                  · by_cases hident : isIdentStart c = true
                    · have hil := imunch_len_le r
                      rw [lexF_ident f c r hd hdot hadd hsub hmod hstar hslash hident,
                        lexF_ident f' c r hd hdot hadd hsub hmod hstar hslash hident,
                        ih (imunch r).2 (by omega) f f' (by omega) (by omega)]
                    · rw [lexF_none f c r hd hdot hadd hsub hmod hstar hslash hident,
                        lexF_none f' c r hd hdot hadd hsub hmod hstar hslash hident]

theorem opTok_cases (op : Char) (t : Tok) (h : opTokOf op = some t) :
    (op = '+' ∧ t = Tok.add) ∨ (op = '-' ∧ t = Tok.sub) ∨ (op = '*' ∧ t = Tok.mul) ∨
    (op = '/' ∧ t = Tok.div) ∨ (op = '%' ∧ t = Tok.mod) := by
  rw [opTokOf] at h
  split_ifs at h with h1 h2 h3 h4 h5
  · exact Or.inl ⟨h1, (Option.some.inj h).symm⟩
  · exact Or.inr (Or.inl ⟨h2, (Option.some.inj h).symm⟩)
  · exact Or.inr (Or.inr (Or.inl ⟨h3, (Option.some.inj h).symm⟩))
  · exact Or.inr (Or.inr (Or.inr (Or.inl ⟨h4, (Option.some.inj h).symm⟩)))
  · exact Or.inr (Or.inr (Or.inr (Or.inr ⟨h5, (Option.some.inj h).symm⟩)))

theorem opTok_not_digit {op : Char} {t : Tok} (h : opTokOf op = some t) :
    op.isDigit = false := by
  rcases opTok_cases op t h with ⟨rfl, _⟩ | ⟨rfl, _⟩ | ⟨rfl, _⟩ | ⟨rfl, _⟩ | ⟨rfl, _⟩ <;> decide

theorem opTok_ne_dot {op : Char} {t : Tok} (h : opTokOf op = some t) : op ≠ '.' := by
  rcases opTok_cases op t h with ⟨rfl, _⟩ | ⟨rfl, _⟩ | ⟨rfl, _⟩ | ⟨rfl, _⟩ | ⟨rfl, _⟩ <;> decide

theorem opTok_not_ident {op : Char} {t : Tok} (h : opTokOf op = some t) :
    isIdentChar op = false := by
  rcases opTok_cases op t h with ⟨rfl, _⟩ | ⟨rfl, _⟩ | ⟨rfl, _⟩ | ⟨rfl, _⟩ | ⟨rfl, _⟩ <;> decide

theorem lexF_op_cons (f : ℕ) (op : Char) (t : Tok) (d : Char) (bs : List Char)
    (hop : opTokOf op = some t) (hd : d.isDigit = true) :
    lexF (f + 1) (op :: d :: bs) = (lexF f (d :: bs)).map (t :: ·) := by
  rcases opTok_cases op t hop with ⟨rfl, rfl⟩ | ⟨rfl, rfl⟩ | ⟨rfl, rfl⟩ | ⟨rfl, rfl⟩ |
    ⟨rfl, rfl⟩
  · exact lexF_add f (d :: bs)
  · exact lexF_sub f (d :: bs)
  · exact lexF_star_cons f d bs (fun h => by rw [h] at hd; exact absurd hd (by decide))
  · exact lexF_slash_cons f d bs (fun h => by rw [h] at hd; exact absurd hd (by decide))
  · exact lexF_mod f (d :: bs)

theorem tokenize_fuel (cs : List Char) (f : ℕ) (h : cs.length < f) :
    lexF f cs = tokenize cs := by
  rw [tokenize]
  exact lexF_mono cs.length cs (le_refl _) f (cs.length + 1) h (Nat.lt_succ_self _)

theorem tok_op_cons {op : Char} {t : Tok} {d : Char} {bs : List Char} {us : List Tok}
    (hop : opTokOf op = some t) (hd : d.isDigit = true)
    (hus : tokenize (d :: bs) = some us) :
    tokenize (op :: d :: bs) = some (t :: us) := by
  rw [tokenize] at hus
  rw [tokenize]
  show lexF ((d :: bs).length + 1 + 1) (op :: d :: bs) = some (t :: us)
  rw [lexF_op_cons ((d :: bs).length + 1) op t d bs hop hd, hus]
  rfl

theorem getLast_suffix {A X : List Char} {d : Char} (h : ∃ p, A = p ++ X) (hX : X ≠ [])
    (hA : A.getLast? = some d) : X.getLast? = some d := by
  obtain ⟨p, rfl⟩ := h
  rw [getLast?_append_right hX] at hA
  exact hA

theorem tok_append : ∀ (n : ℕ) (A : List Char), A.length ≤ n →
    ∀ (B : List Char) (op : Char) (t : Tok) (ts us : List Tok),
    opTokOf op = some t →
    (∃ d bs, B = d :: bs ∧ d.isDigit = true) →
    (∃ d, A.getLast? = some d ∧ d.isDigit = true) →
    tokenize A = some ts → tokenize B = some us →
    tokenize (A ++ op :: B) = some (ts ++ t :: us) := by
  intro n
  induction n with
  | zero =>
    intro A hA B op t ts us hop hB hlast hTs hUs
    obtain ⟨d, hd, _⟩ := hlast
    rw [List.eq_nil_of_length_eq_zero (Nat.le_zero.mp hA)] at hd
    exact absurd hd (by simp)
  | succ n ih =>
    intro A hA B op t ts us hop hB hlast hTs hUs
    have hopnd := opTok_not_digit hop
    have hopdot := opTok_ne_dot hop
    obtain ⟨bd, bbs, hBeq, hbd⟩ := hB
    subst hBeq
    obtain ⟨dl, hdl, hdld⟩ := hlast
    have hOpB : tokenize (op :: bd :: bbs) = some (t :: us) := tok_op_cons hop hbd hUs
    have hnd : ∀ x : Char, (op :: bd :: bbs).head? = some x → x.isDigit = false :=
      fun x hx => (Option.some.inj hx) ▸ hopnd
    cases A with
    | nil => exact absurd hdl (by simp)
    | cons c A' =>
      simp only [List.length_cons] at hA
      rw [tokenize] at hTs
      simp only [List.length_cons] at hTs
      rw [tokenize]
      show lexF ((A' ++ op :: bd :: bbs).length + 1 + 1) (c :: (A' ++ op :: bd :: bbs)) =
        some (ts ++ t :: us)
      by_cases hd : c.isDigit = true
      · have hmd := munch_append A' (op :: bd :: bbs) (dval c) hnd
        cases hm : (munch (dval c) A').2.2 with
        | nil =>
          rw [hm, if_pos rfl] at hmd
          rw [lexF_digit_int (A'.length + 1) c A' hd (by rw [hm]; simp)] at hTs
          rw [hm, lexF_nil] at hTs
          by_cases hz : c = '0' ∧ (munch (dval c) A').1 ≠ 0
          · rw [if_pos hz] at hTs
            exact absurd hTs (by simp)
          · rw [if_neg hz] at hTs
            have hts := (Option.some.inj hTs).symm
            subst hts
            rw [lexF_digit_int ((A' ++ op :: bd :: bbs).length + 1) c (A' ++ op :: bd :: bbs)
              hd (by rw [hmd]; simpa using hopdot)]
            rw [hmd]
            dsimp only
            rw [if_neg hz]
            rw [tokenize_fuel (op :: bd :: bbs) ((A' ++ op :: bd :: bbs).length + 1)
              (by simp only [List.length_append, List.length_cons]; omega)]
            rw [hOpB]
            rfl
        | cons e es =>
          rw [hm, if_neg (by simp)] at hmd
          have hsuf : ∃ p, (c :: A') = p ++ (e :: es) := by
            obtain ⟨p, hp⟩ := munch_prefix A' (dval c)
            rw [hm] at hp
            exact ⟨c :: p, by rw [hp]; rfl⟩
          have hXlast : (e :: es).getLast? = some dl := getLast_suffix hsuf (by simp) hdl
          have hlen : es.length + 1 ≤ A'.length := by
            have h1 := munch_len_le A' (dval c)
            rw [hm] at h1
            simpa using h1
          by_cases he : e = '.'
          · subst he
            rw [lexF_digit_dot (A'.length + 1) c A' es hd hm] at hTs
            have hmd2 := munch_append es (op :: bd :: bbs) 0 hnd
            cases hX : (munch 0 es).2.2 with
            | nil =>
              rw [hX, if_pos rfl] at hmd2
              rw [hX, lexF_nil] at hTs
              have hts := (Option.some.inj hTs).symm
              subst hts
              rw [lexF_digit_dot ((A' ++ op :: bd :: bbs).length + 1) c
                (A' ++ op :: bd :: bbs) (es ++ op :: bd :: bbs) hd (by rw [hmd]; rfl)]
              rw [hmd, hmd2]
              dsimp only
              rw [tokenize_fuel (op :: bd :: bbs) ((A' ++ op :: bd :: bbs).length + 1)
                (by simp only [List.length_append, List.length_cons]; omega)]
              rw [hOpB]
              rfl
            | cons x xs =>
              rw [hX, if_neg (by simp)] at hmd2
              rw [hX] at hTs
              cases hts' : lexF (A'.length + 1) (x :: xs) with
              | none =>
                rw [hts'] at hTs
                exact absurd hTs (by simp)
              | some l =>
                rw [hts'] at hTs
                have hts := (Option.some.inj hTs).symm
                subst hts
                have hXlen : (x :: xs).length ≤ es.length := by
                  have h1 := munch_len_le es 0
                  rw [hX] at h1
                  exact h1
                rw [tokenize_fuel (x :: xs) (A'.length + 1)
                  (by simp only [List.length_cons] at *; omega)] at hts'
                have hsuf2 : ∃ p, (c :: A') = p ++ (x :: xs) := by
                  obtain ⟨p1, hp1⟩ := munch_prefix A' (dval c)
                  obtain ⟨p2, hp2⟩ := munch_prefix es 0
                  rw [hm] at hp1
                  rw [hX] at hp2
                  refine ⟨c :: p1 ++ '.' :: p2, ?_⟩
                  rw [hp1, hp2]
                  simp
                have hX2last : (x :: xs).getLast? = some dl :=
                  getLast_suffix hsuf2 (by simp) hdl
                have hIH := ih (x :: xs)
                  (by simp only [List.length_cons] at *; omega)
                  (bd :: bbs) op t l us hop ⟨bd, bbs, rfl, hbd⟩ ⟨dl, hX2last, hdld⟩ hts' hUs
                rw [lexF_digit_dot ((A' ++ op :: bd :: bbs).length + 1) c
                  (A' ++ op :: bd :: bbs) (es ++ op :: bd :: bbs) hd (by rw [hmd]; rfl)]
                rw [hmd, hmd2]
                dsimp only
                rw [tokenize_fuel ((x :: xs) ++ op :: bd :: bbs)
                  ((A' ++ op :: bd :: bbs).length + 1)
                  (by simp only [List.length_append, List.length_cons] at *; omega)]
                rw [hIH]
                rfl
          · rw [lexF_digit_int (A'.length + 1) c A' hd (by rw [hm]; simpa using he)] at hTs
            rw [hm] at hTs
            by_cases hz : c = '0' ∧ (munch (dval c) A').1 ≠ 0
            · rw [if_pos hz] at hTs
              exact absurd hTs (by simp)
            · rw [if_neg hz] at hTs
              cases hts' : lexF (A'.length + 1) (e :: es) with
              | none =>
                rw [hts'] at hTs
                exact absurd hTs (by simp)
              | some l =>
                rw [hts'] at hTs
                have hts := (Option.some.inj hTs).symm
                subst hts
                rw [tokenize_fuel (e :: es) (A'.length + 1)
                  (by simp only [List.length_cons]; omega)] at hts'
                have hIH := ih (e :: es)
                  (by simp only [List.length_cons] at *; omega)
                  (bd :: bbs) op t l us hop ⟨bd, bbs, rfl, hbd⟩ ⟨dl, hXlast, hdld⟩ hts' hUs
                have hne2 : ((munch (dval c) (A' ++ op :: bd :: bbs)).2.2).head? ≠
                    some '.' := by
                  rw [hmd]
                  simpa using he
                rw [lexF_digit_int ((A' ++ op :: bd :: bbs).length + 1) c
                  (A' ++ op :: bd :: bbs) hd hne2]
                rw [hmd]
                dsimp only
                rw [if_neg hz]
                rw [tokenize_fuel ((e :: es) ++ op :: bd :: bbs)
                  ((A' ++ op :: bd :: bbs).length + 1)
                  (by simp only [List.length_append, List.length_cons] at *; omega)]
                rw [hIH]
                rfl
      · by_cases hdot : c = '.'
        · subst hdot
          cases A' with
          | nil =>
            have h1 : dl = '.' := by
              have h2 : (['.'] : List Char).getLast? = some '.' := by decide
              rw [h2] at hdl
              exact (Option.some.inj hdl).symm
            rw [h1] at hdld
            exact absurd hdld (by decide)
          | cons c2 r2 =>
            by_cases hc2 : c2.isDigit = true
            · rw [lexF_dot_digit ((c2 :: r2).length + 1) c2 r2 hc2] at hTs
              have hmd2 := munch_append r2 (op :: bd :: bbs) (dval c2) hnd
              show lexF ((r2 ++ op :: bd :: bbs).length + 1 + 1 + 1)
                ('.' :: c2 :: (r2 ++ op :: bd :: bbs)) = some (ts ++ t :: us)
              rw [lexF_dot_digit ((r2 ++ op :: bd :: bbs).length + 1 + 1) c2
                (r2 ++ op :: bd :: bbs) hc2]
              cases hX : (munch (dval c2) r2).2.2 with
              | nil =>
                rw [hX, if_pos rfl] at hmd2
                rw [hX, lexF_nil] at hTs
                have hts := (Option.some.inj hTs).symm
                subst hts
                rw [hmd2]
                dsimp only
                rw [tokenize_fuel (op :: bd :: bbs) ((r2 ++ op :: bd :: bbs).length + 1 + 1)
                  (by simp only [List.length_append, List.length_cons]; omega)]
                rw [hOpB]
                rfl
              | cons x xs =>
                rw [hX, if_neg (by simp)] at hmd2
                rw [hX] at hTs
                cases hts' : lexF ((c2 :: r2).length + 1) (x :: xs) with
                | none =>
                  rw [hts'] at hTs
                  exact absurd hTs (by simp)
                | some l =>
                  rw [hts'] at hTs
                  have hts := (Option.some.inj hTs).symm
                  subst hts
                  have hXlen : (x :: xs).length ≤ r2.length := by
                    have h1 := munch_len_le r2 (dval c2)
                    rw [hX] at h1
                    exact h1
                  rw [tokenize_fuel (x :: xs) ((c2 :: r2).length + 1)
                    (by simp only [List.length_cons] at *; omega)] at hts'
                  have hsuf2 : ∃ p, ('.' :: c2 :: r2) = p ++ (x :: xs) := by
                    obtain ⟨p2, hp2⟩ := munch_prefix r2 (dval c2)
                    rw [hX] at hp2
                    refine ⟨'.' :: c2 :: p2, ?_⟩
                    rw [hp2]; rfl
                  have hX2last : (x :: xs).getLast? = some dl :=
                    getLast_suffix hsuf2 (by simp) hdl
                  have hIH := ih (x :: xs)
                    (by simp only [List.length_cons] at *; omega)
                    (bd :: bbs) op t l us hop ⟨bd, bbs, rfl, hbd⟩ ⟨dl, hX2last, hdld⟩
                    hts' hUs
                  rw [hmd2]
                  dsimp only
                  rw [tokenize_fuel ((x :: xs) ++ op :: bd :: bbs)
                    ((r2 ++ op :: bd :: bbs).length + 1 + 1)
                    (by simp only [List.length_append, List.length_cons] at *; omega)]
                  rw [hIH]
                  rfl
            · by_cases hc2dot : c2 = '.'
              · subst hc2dot
                cases r2 with
                | nil =>
                  rw [lexF_dot_stuck _ '.' [] (by decide)
                    (fun r' h => by injection h with ha hb; exact List.noConfusion hb)]
                    at hTs
                  exact absurd hTs (by simp)
                | cons c3 r3 =>
                  by_cases hc3 : c3 = '.'
                  · subst hc3
                    cases r3 with
                    | nil =>
                      have h1 : dl = '.' := by
                        have h2 : (['.', '.', '.'] : List Char).getLast? = some '.' := by
                          decide
                        rw [h2] at hdl
                        exact (Option.some.inj hdl).symm
                      rw [h1] at hdld
                      exact absurd hdld (by decide)
                    | cons a3 as3 =>
                      rw [lexF_ell] at hTs
                      cases hts' : lexF (('.' :: '.' :: a3 :: as3).length + 1)
                          (a3 :: as3) with
                      | none =>
                        rw [hts'] at hTs
                        exact absurd hTs (by simp)
                      | some l =>
                        rw [hts'] at hTs
                        have hts := (Option.some.inj hTs).symm
                        subst hts
                        rw [tokenize_fuel (a3 :: as3) (('.' :: '.' :: a3 :: as3).length + 1)
                          (by simp only [List.length_cons]; omega)] at hts'
                        rw [List.getLast?_cons_cons, List.getLast?_cons_cons,
                          List.getLast?_cons_cons] at hdl
                        have hIH := ih (a3 :: as3)
                          (by simp only [List.length_cons] at *; omega)
                          (bd :: bbs) op t l us hop ⟨bd, bbs, rfl, hbd⟩ ⟨dl, hdl, hdld⟩
                          hts' hUs
                        show lexF (((a3 :: as3) ++ op :: bd :: bbs).length + 1 + 1 + 1 + 1)
                          ('.' :: '.' :: '.' :: ((a3 :: as3) ++ op :: bd :: bbs)) =
                          some ((Tok.ell :: l) ++ t :: us)
                        rw [lexF_ell]
                        rw [tokenize_fuel ((a3 :: as3) ++ op :: bd :: bbs)
                          (((a3 :: as3) ++ op :: bd :: bbs).length + 1 + 1 + 1) (by omega)]
                        rw [hIH]
                        rfl
                  · rw [lexF_dot_stuck _ '.' (c3 :: r3) (by decide)
                      (fun r' h => by
                        injection h with ha hb
                        injection hb with hb1 hb2
                        exact hc3 hb1)] at hTs
                    exact absurd hTs (by simp)
              · rw [Bool.not_eq_true] at hc2
                rw [lexF_dot_stuck _ c2 r2 hc2
                  (fun r' h => by injection h with ha hb; exact hc2dot ha)] at hTs
                exact absurd hTs (by simp)
        · by_cases hadd : c = '+'
          · subst hadd
            cases A' with
            | nil =>
              have h1 : dl = '+' := by
                have h2 : (['+'] : List Char).getLast? = some '+' := by decide
                rw [h2] at hdl
                exact (Option.some.inj hdl).symm
              rw [h1] at hdld
              exact absurd hdld (by decide)
            | cons a as =>
              rw [lexF_add] at hTs
              cases hts' : lexF ((a :: as).length + 1) (a :: as) with
              | none =>
                rw [hts'] at hTs
                exact absurd hTs (by simp)
              | some l =>
                rw [hts'] at hTs
                have hts := (Option.some.inj hTs).symm
                subst hts
                rw [tokenize_fuel (a :: as) ((a :: as).length + 1) (by omega)] at hts'
                rw [List.getLast?_cons_cons] at hdl
                have hIH := ih (a :: as) (by simp only [List.length_cons] at *; omega)
                  (bd :: bbs) op t l us hop ⟨bd, bbs, rfl, hbd⟩ ⟨dl, hdl, hdld⟩ hts' hUs
                rw [lexF_add]
                rw [tokenize_fuel ((a :: as) ++ op :: bd :: bbs)
                  ((a :: as) ++ op :: bd :: bbs).length.succ (by omega)]
                rw [hIH]
                rfl
          · by_cases hsub : c = '-'
            · subst hsub
              cases A' with
              | nil =>
                have h1 : dl = '-' := by
                  have h2 : (['-'] : List Char).getLast? = some '-' := by decide
                  rw [h2] at hdl
                  exact (Option.some.inj hdl).symm
                rw [h1] at hdld
                exact absurd hdld (by decide)
              | cons a as =>
                rw [lexF_sub] at hTs
                cases hts' : lexF ((a :: as).length + 1) (a :: as) with
                | none =>
                  rw [hts'] at hTs
                  exact absurd hTs (by simp)
                | some l =>
                  rw [hts'] at hTs
                  have hts := (Option.some.inj hTs).symm
                  subst hts
                  rw [tokenize_fuel (a :: as) ((a :: as).length + 1) (by omega)] at hts'
                  rw [List.getLast?_cons_cons] at hdl
                  have hIH := ih (a :: as) (by simp only [List.length_cons] at *; omega)
                    (bd :: bbs) op t l us hop ⟨bd, bbs, rfl, hbd⟩ ⟨dl, hdl, hdld⟩ hts' hUs
                  rw [lexF_sub]
                  rw [tokenize_fuel ((a :: as) ++ op :: bd :: bbs)
                    ((a :: as) ++ op :: bd :: bbs).length.succ (by omega)]
                  rw [hIH]
                  rfl
            · by_cases hmodc : c = '%'
              · subst hmodc
                cases A' with
                | nil =>
                  have h1 : dl = '%' := by
                    have h2 : (['%'] : List Char).getLast? = some '%' := by decide
                    rw [h2] at hdl
                    exact (Option.some.inj hdl).symm
                  rw [h1] at hdld
                  exact absurd hdld (by decide)
                | cons a as =>
                  rw [lexF_mod] at hTs
                  cases hts' : lexF ((a :: as).length + 1) (a :: as) with
                  | none =>
                    rw [hts'] at hTs
                    exact absurd hTs (by simp)
                  | some l =>
                    rw [hts'] at hTs
                    have hts := (Option.some.inj hTs).symm
                    subst hts
                    rw [tokenize_fuel (a :: as) ((a :: as).length + 1) (by omega)] at hts'
                    rw [List.getLast?_cons_cons] at hdl
                    have hIH := ih (a :: as) (by simp only [List.length_cons] at *; omega)
                      (bd :: bbs) op t l us hop ⟨bd, bbs, rfl, hbd⟩ ⟨dl, hdl, hdld⟩ hts' hUs
                    rw [lexF_mod]
                    rw [tokenize_fuel ((a :: as) ++ op :: bd :: bbs)
                      ((a :: as) ++ op :: bd :: bbs).length.succ (by omega)]
                    rw [hIH]
                    rfl
              · by_cases hstar : c = '*'
                · subst hstar
                  cases A' with
                  | nil =>
                    have h1 : dl = '*' := by
                      have h2 : (['*'] : List Char).getLast? = some '*' := by decide
                      rw [h2] at hdl
                      exact (Option.some.inj hdl).symm
                    rw [h1] at hdld
                    exact absurd hdld (by decide)
                  | cons e as =>
                    by_cases he : e = '*'
                    · subst he
                      cases as with
                      | nil =>
                        have h1 : dl = '*' := by
                          have h2 : (['*', '*'] : List Char).getLast? = some '*' := by
                            decide
                          rw [h2] at hdl
                          exact (Option.some.inj hdl).symm
                        rw [h1] at hdld
                        exact absurd hdld (by decide)
                      | cons a2 as2 =>
                        rw [lexF_star_star] at hTs
                        cases hts' : lexF (('*' :: a2 :: as2).length + 1) (a2 :: as2) with
                        | none =>
                          rw [hts'] at hTs
                          exact absurd hTs (by simp)
                        | some l =>
                          rw [hts'] at hTs
                          have hts := (Option.some.inj hTs).symm
                          subst hts
                          rw [tokenize_fuel (a2 :: as2) (('*' :: a2 :: as2).length + 1)
                            (by simp only [List.length_cons]; omega)] at hts'
                          rw [List.getLast?_cons_cons, List.getLast?_cons_cons] at hdl
                          have hIH := ih (a2 :: as2)
                            (by simp only [List.length_cons] at *; omega)
                            (bd :: bbs) op t l us hop ⟨bd, bbs, rfl, hbd⟩ ⟨dl, hdl, hdld⟩
                            hts' hUs
                          have hIH' : tokenize (a2 :: (as2 ++ op :: bd :: bbs)) =
                              some (l ++ t :: us) := hIH
                          show lexF (((a2 :: as2) ++ op :: bd :: bbs).length + 1 + 1 + 1)
                            ('*' :: '*' :: a2 :: (as2 ++ op :: bd :: bbs)) =
                            some ((Tok.pow :: l) ++ t :: us)
                          rw [lexF_star_star]
                          rw [tokenize_fuel (a2 :: (as2 ++ op :: bd :: bbs))
                            (((a2 :: as2) ++ op :: bd :: bbs).length + 1 + 1)
                            (by simp only [List.length_append, List.length_cons]; omega)]
                          rw [hIH']
                          rfl
                    · rw [lexF_star_cons ((e :: as).length + 1) e as he] at hTs
                      cases hts' : lexF ((e :: as).length + 1) (e :: as) with
                      | none =>
                        rw [hts'] at hTs
                        exact absurd hTs (by simp)
                      | some l =>
                        rw [hts'] at hTs
                        have hts := (Option.some.inj hTs).symm
                        subst hts
                        rw [tokenize_fuel (e :: as) ((e :: as).length + 1) (by omega)]
                          at hts'
                        rw [List.getLast?_cons_cons] at hdl
                        have hIH := ih (e :: as)
                          (by simp only [List.length_cons] at *; omega)
                          (bd :: bbs) op t l us hop ⟨bd, bbs, rfl, hbd⟩ ⟨dl, hdl, hdld⟩
                          hts' hUs
                        have hIH' : tokenize (e :: (as ++ op :: bd :: bbs)) =
                            some (l ++ t :: us) := hIH
                        show lexF (((e :: as) ++ op :: bd :: bbs).length + 1 + 1)
                          ('*' :: e :: (as ++ op :: bd :: bbs)) =
                          some ((Tok.mul :: l) ++ t :: us)
                        rw [lexF_star_cons (((e :: as) ++ op :: bd :: bbs).length + 1)
                          e (as ++ op :: bd :: bbs) he]
                        rw [tokenize_fuel (e :: (as ++ op :: bd :: bbs))
                          (((e :: as) ++ op :: bd :: bbs).length + 1)
                          (by simp only [List.length_append, List.length_cons]; omega)]
                        rw [hIH']
                        rfl
                · by_cases hslash : c = '/'
                  · subst hslash
                    cases A' with
                    | nil =>
                      have h1 : dl = '/' := by
                        have h2 : (['/'] : List Char).getLast? = some '/' := by decide
                        rw [h2] at hdl
                        exact (Option.some.inj hdl).symm
                      rw [h1] at hdld
                      exact absurd hdld (by decide)
                    | cons e as =>
                      by_cases he : e = '/'
                      · subst he
                        cases as with
                        | nil =>
                          have h1 : dl = '/' := by
                            have h2 : (['/', '/'] : List Char).getLast? = some '/' := by
                              decide
                            rw [h2] at hdl
                            exact (Option.some.inj hdl).symm
                          rw [h1] at hdld
                          exact absurd hdld (by decide)
                        | cons a2 as2 =>
                          rw [lexF_slash_slash] at hTs
                          cases hts' : lexF (('/' :: a2 :: as2).length + 1) (a2 :: as2) with
                          | none =>
                            rw [hts'] at hTs
                            exact absurd hTs (by simp)
                          | some l =>
                            rw [hts'] at hTs
                            have hts := (Option.some.inj hTs).symm
                            subst hts
                            rw [tokenize_fuel (a2 :: as2) (('/' :: a2 :: as2).length + 1)
                              (by simp only [List.length_cons]; omega)] at hts'
                            rw [List.getLast?_cons_cons, List.getLast?_cons_cons] at hdl
                            have hIH := ih (a2 :: as2)
                              (by simp only [List.length_cons] at *; omega)
                              (bd :: bbs) op t l us hop ⟨bd, bbs, rfl, hbd⟩
                              ⟨dl, hdl, hdld⟩ hts' hUs
                            have hIH' : tokenize (a2 :: (as2 ++ op :: bd :: bbs)) =
                                some (l ++ t :: us) := hIH
                            show lexF
                              (((a2 :: as2) ++ op :: bd :: bbs).length + 1 + 1 + 1)
                              ('/' :: '/' :: a2 :: (as2 ++ op :: bd :: bbs)) =
                              some ((Tok.ddiv :: l) ++ t :: us)
                            rw [lexF_slash_slash]
                            rw [tokenize_fuel (a2 :: (as2 ++ op :: bd :: bbs))
                              (((a2 :: as2) ++ op :: bd :: bbs).length + 1 + 1)
                              (by simp only [List.length_append, List.length_cons]; omega)]
                            rw [hIH']
                            rfl
                      · rw [lexF_slash_cons ((e :: as).length + 1) e as he] at hTs
                        cases hts' : lexF ((e :: as).length + 1) (e :: as) with
                        | none =>
                          rw [hts'] at hTs
                          exact absurd hTs (by simp)
                        | some l =>
                          rw [hts'] at hTs
                          have hts := (Option.some.inj hTs).symm
                          subst hts
                          rw [tokenize_fuel (e :: as) ((e :: as).length + 1) (by omega)]
                            at hts'
                          rw [List.getLast?_cons_cons] at hdl
                          have hIH := ih (e :: as)
                            (by simp only [List.length_cons] at *; omega)
                            (bd :: bbs) op t l us hop ⟨bd, bbs, rfl, hbd⟩ ⟨dl, hdl, hdld⟩
                            hts' hUs
                          have hIH' : tokenize (e :: (as ++ op :: bd :: bbs)) =
                              some (l ++ t :: us) := hIH
                          show lexF (((e :: as) ++ op :: bd :: bbs).length + 1 + 1)
                            ('/' :: e :: (as ++ op :: bd :: bbs)) =
                            some ((Tok.div :: l) ++ t :: us)
                          rw [lexF_slash_cons (((e :: as) ++ op :: bd :: bbs).length + 1)
                            e (as ++ op :: bd :: bbs) he]
                          rw [tokenize_fuel (e :: (as ++ op :: bd :: bbs))
                            (((e :: as) ++ op :: bd :: bbs).length + 1)
                            (by simp only [List.length_append, List.length_cons]; omega)]
                          rw [hIH']
                          rfl
                  · by_cases hident : isIdentStart c = true
                    · rw [lexF_ident (A'.length + 1) c A' hd hdot hadd hsub hmodc hstar
                        hslash hident] at hTs
                      have hni : ∀ x : Char, (op :: bd :: bbs).head? = some x →
                          isIdentChar x = false :=
                        fun x hx => (Option.some.inj hx) ▸ opTok_not_ident hop
                      cases hres : (imunch A').2 with
                      | nil =>
                        rw [hres, lexF_nil] at hTs
                        have hts := (Option.some.inj hTs).symm
                        subst hts
                        rw [lexF_ident ((A' ++ op :: bd :: bbs).length + 1) c
                          (A' ++ op :: bd :: bbs) hd hdot hadd hsub hmodc hstar hslash
                          hident]
                        rw [imunch_append A' (op :: bd :: bbs) hni]
                        dsimp only
                        rw [hres]
                        rw [if_pos rfl]
                        rw [tokenize_fuel (op :: bd :: bbs)
                          ((A' ++ op :: bd :: bbs).length + 1)
                          (by simp only [List.length_append, List.length_cons]; omega)]
                        rw [hOpB]
                        rfl
                      | cons a as =>
                        rw [hres] at hTs
                        cases hts' : lexF (A'.length + 1) (a :: as) with
                        | none =>
                          rw [hts'] at hTs
                          exact absurd hTs (by simp)
                        | some l =>
                          rw [hts'] at hTs
                          have hts := (Option.some.inj hTs).symm
                          subst hts
                          have hlen : (a :: as).length ≤ A'.length := by
                            have hl0 := imunch_len_le A'
                            rw [hres] at hl0
                            exact hl0
                          rw [tokenize_fuel (a :: as) (A'.length + 1)
                            (Nat.lt_succ_of_le hlen)] at hts'
                          have hsuf : ∃ p, c :: A' = p ++ (a :: as) := by
                            obtain ⟨p, hp⟩ := imunch_prefix A'
                            rw [hres] at hp
                            exact ⟨c :: p, by rw [hp]; rfl⟩
                          have hgl : (a :: as).getLast? = some dl :=
                            getLast_suffix hsuf (List.cons_ne_nil a as) hdl
                          have hIH := ih (a :: as) (by omega)
                            (bd :: bbs) op t l us hop ⟨bd, bbs, rfl, hbd⟩ ⟨dl, hgl, hdld⟩
                            hts' hUs
                          rw [lexF_ident ((A' ++ op :: bd :: bbs).length + 1) c
                            (A' ++ op :: bd :: bbs) hd hdot hadd hsub hmodc hstar hslash
                            hident]
                          rw [imunch_append A' (op :: bd :: bbs) hni]
                          dsimp only
                          rw [hres]
                          rw [if_neg (List.cons_ne_nil a as)]
                          rw [tokenize_fuel ((a :: as) ++ op :: bd :: bbs)
                            ((A' ++ op :: bd :: bbs).length + 1)
                            (by simp only [List.length_append, List.length_cons] at hlen ⊢
                                omega)]
                          rw [hIH]
                          rfl
                    · rw [lexF_none (A'.length + 1) c A' hd hdot hadd hsub hmodc hstar
                        hslash hident] at hTs
                      exact absurd hTs (by simp)

theorem lex_digits (d : Char) (ds : List Char) (hdig : ∀ c ∈ d :: ds, c.isDigit = true)
    (hlz : d = '0' → digitsVal (d :: ds) = 0) :
    tokenize (d :: ds) = some [Tok.lit (.i (digitsVal (d :: ds) : ℤ))] := by
  have hd : d.isDigit = true := hdig d (List.mem_cons_self d ds)
  have hds : ∀ c ∈ ds, c.isDigit = true := fun c hc => hdig c (List.mem_cons_of_mem d hc)
  have hm : munch (dval d) ds = (digitsVal (d :: ds), ds.length, []) := by
    rw [munch_all ds (dval d) hds, foldl_from_head]
  rw [tokenize]
  show lexF (ds.length + 1 + 1) (d :: ds) = _
  rw [lexF_digit_int (ds.length + 1) d ds hd (by rw [hm]; simp)]
  rw [hm]
  dsimp only
  rw [if_neg (by rintro ⟨rfl, hne⟩; exact hne (hlz rfl))]
  rw [lexF_nil]
  rfl

theorem lex_decG (d : Char) (ds fs : List Char) (hdig : ∀ c ∈ d :: ds, c.isDigit = true)
    (hfne : fs ≠ []) (hfd : ∀ c ∈ fs, c.isDigit = true) :
    tokenize ((d :: ds) ++ '.' :: fs) =
      some [Tok.lit (.f ⟨((digitsVal (d :: ds) * pow10 fs.length + digitsVal fs : ℕ) : ℤ),
        pow10 fs.length⟩)] := by
  have hd : d.isDigit = true := hdig d (List.mem_cons_self d ds)
  have hds : ∀ c ∈ ds, c.isDigit = true := fun c hc => hdig c (List.mem_cons_of_mem d hc)
  have hm1 : munch (dval d) (ds ++ '.' :: fs) =
      (digitsVal (d :: ds), ds.length, '.' :: fs) := by
    rw [munch_digits ds (dval d) ('.' :: fs) hds (fun c hc => by
      injection hc with hc
      rw [← hc]
      decide), foldl_from_head]
  have hm2 : munch 0 fs = (digitsVal fs, fs.length, []) := munch_all fs 0 hfd
  rw [tokenize]
  show lexF ((ds ++ '.' :: fs).length + 1 + 1) (d :: (ds ++ '.' :: fs)) = _
  rw [lexF_digit_dot ((ds ++ '.' :: fs).length + 1) d (ds ++ '.' :: fs) fs hd
    (by rw [hm1])]
  rw [hm1, hm2]
  dsimp only
  rw [lexF_nil]
  rfl

theorem last_digit_of_all {l : List Char} (hne : l ≠ []) (hall : ∀ c ∈ l, c.isDigit = true) :
    ∃ d, l.getLast? = some d ∧ d.isDigit = true := by
  cases hgl : l.getLast? with
  | none => exact absurd (List.getLast?_eq_none_iff.mp hgl) hne
  | some x =>
    obtain ⟨hne', hx⟩ := List.mem_getLast?_eq_getLast (Option.mem_def.mpr hgl)
    exact ⟨x, rfl, hall x (by rw [hx]; exact List.getLast_mem hne')⟩

theorem SNumOK_nonneg {lz : Bool} {cs : List Char} {q : ℚ} (h : SNumOK lz cs q) : 0 ≤ q := by
  rcases h with ⟨ds, _, _, _, _, rfl⟩ | ⟨ds, fs, _, _, _, _, _, rfl⟩
  · positivity
  · positivity

theorem SNum_lex {cs : List Char} {q : ℚ} (h : SNumOK false cs q) :
    ∃ v, tokenize cs = some [Tok.lit v] ∧ VPos v ∧ ratOfV v = q ∧
      (∃ d, cs.head? = some d ∧ d.isDigit = true) ∧
      (∃ d, cs.getLast? = some d ∧ d.isDigit = true) := by
  rcases h with ⟨ds, rfl, hne, hall, hlzc, rfl⟩ |
    ⟨ds, fs, rfl, hdne, hfne, hall, hfall, rfl⟩
  · obtain ⟨d, ds', rfl⟩ : ∃ d ds', cs = d :: ds' := by
      cases cs with
      | nil => exact absurd rfl hne
      | cons d t => exact ⟨d, t, rfl⟩
    have hdig : ∀ c ∈ d :: ds', c.isDigit = true :=
      fun c hc => List.all_eq_true.mp hall c hc
    have hlz : d = '0' → digitsVal (d :: ds') = 0 := by
      intro hd0
      rcases hlzc with hlzc | hlzc
      · exact absurd hlzc (by decide)
      · exact hlzc (by rw [hd0]; rfl)
    exact ⟨.i (digitsVal (d :: ds') : ℤ), lex_digits d ds' hdig hlz, VPos_i _,
      by simp [ratOfV], ⟨d, rfl, hdig d (List.mem_cons_self d ds')⟩,
      last_digit_of_all (by simp) hdig⟩
  · obtain ⟨d, ds', rfl⟩ : ∃ d ds', ds = d :: ds' := by
      cases ds with
      | nil => exact absurd rfl hdne
      | cons d t => exact ⟨d, t, rfl⟩
    have hdig : ∀ c ∈ d :: ds', c.isDigit = true :=
      fun c hc => List.all_eq_true.mp hall c hc
    have hfd : ∀ c ∈ fs, c.isDigit = true := fun c hc => List.all_eq_true.mp hfall c hc
    refine ⟨.f ⟨((digitsVal (d :: ds') * pow10 fs.length + digitsVal fs : ℕ) : ℤ),
      pow10 fs.length⟩, lex_decG d ds' fs hdig hfne hfd, pow10_pos fs.length, ?_,
      ⟨d, rfl, hdig d (List.mem_cons_self d ds')⟩, ?_⟩
    · show fracVal _ = _
      rw [fracVal]
      have hp : ((pow10 fs.length : ℕ) : ℚ) ≠ 0 := dcast_ne (pow10_pos fs.length)
      field_simp
    · obtain ⟨x, hx, hxd⟩ := last_digit_of_all hfne hfd
      refine ⟨x, ?_, hxd⟩
      rw [getLast?_append_right (by simp : ('.' :: fs : List Char) ≠ [])]
      rw [show ('.' :: fs : List Char).getLast? = fs.getLast? from ?_, hx]
      cases fs with
      | nil => exact absurd rfl hfne
      | cons f1 fr => exact List.getLast?_cons_cons

theorem replaceSyms_append (a b : List Char) :
    replaceSyms (a ++ b) = replaceSyms a ++ replaceSyms b := List.map_append _ a b

theorem replaceSyms_mulc (l : List Char) : replaceSyms ('×' :: l) = '*' :: replaceSyms l :=
  rfl

theorem replaceSyms_divc (l : List Char) : replaceSyms ('÷' :: l) = '/' :: replaceSyms l :=
  rfl

theorem replaceSyms_modc (l : List Char) : replaceSyms ('%' :: l) = '%' :: replaceSyms l :=
  rfl

theorem replaceSyms_addc (l : List Char) : replaceSyms ('+' :: l) = '+' :: replaceSyms l :=
  rfl

theorem replaceSyms_subc (l : List Char) : replaceSyms ('−' :: l) = '-' :: replaceSyms l :=
  rfl

theorem head?_append_left {X Y : List Char} {d : Char} (h : X.head? = some d) :
    (X ++ Y).head? = some d := by
  cases X with
  | nil => cases h
  | cons a t => exact h

theorem SNum_replace {lz : Bool} {cs : List Char} {q : ℚ} (h : SNumOK lz cs q) :
    replaceSyms cs = cs := by
  apply replaceSyms_id
  intro c hc
  rcases h with ⟨ds, rfl, _, hall, _, _⟩ | ⟨ds, fs, rfl, _, _, hall, hfall, _⟩
  · exact Or.inr (Or.inr (List.all_eq_true.mp hall c hc))
  · rcases List.mem_append.mp hc with hc | hc
    · exact Or.inr (Or.inr (List.all_eq_true.mp hall c hc))
    · rcases List.mem_cons.mp hc with rfl | hc
      · exact Or.inr (Or.inl rfl)
      · exact Or.inr (Or.inr (List.all_eq_true.mp hfall c hc))

theorem cons_of_head {X : List Char} {d : Char} (h : X.head? = some d) :
    ∃ t, X = d :: t := by
  cases X with
  | nil => cases h
  | cons a t => exact ⟨t, by rw [Option.some.inj h]⟩

theorem STerm_lex {cs : List Char} {q : ℚ} (h : STerm false cs q) :
    ∃ ts v, tokenize (replaceSyms cs) = some ts ∧ TT ts v ∧ VPos v ∧ ratOfV v = q ∧
      (∃ d, (replaceSyms cs).head? = some d ∧ d.isDigit = true) ∧
      (∃ d, (replaceSyms cs).getLast? = some d ∧ d.isDigit = true) := by
  induction h with
  | num hnum =>
    obtain ⟨v, htok, hv, hq, hhead, hlast⟩ := SNum_lex hnum
    rw [SNum_replace hnum]
    exact ⟨[Tok.lit v], v, htok, TT.num v, hv, hq, hhead, hlast⟩
  | mul hterm hnum ih =>
    next A qa B qb =>
    obtain ⟨ts, va, htok, htt, hva, hqa, hheadA, hlastA⟩ := ih
    obtain ⟨vb, htokB, hvb, hqb, hheadB, hlastB⟩ := SNum_lex hnum
    obtain ⟨bd, hbdh, hbdd⟩ := hheadB
    obtain ⟨bt, rfl⟩ := cons_of_head hbdh
    have hrep : replaceSyms (A ++ '×' :: bd :: bt) =
        replaceSyms A ++ '*' :: bd :: bt := by
      rw [replaceSyms_append, replaceSyms_mulc, SNum_replace hnum]
    have happ := tok_append (replaceSyms A).length (replaceSyms A) (le_refl _)
      (bd :: bt) '*' Tok.mul ts [Tok.lit vb] (by decide) ⟨bd, bt, rfl, hbdd⟩ hlastA
      htok htokB
    refine ⟨ts ++ [Tok.mul, Tok.lit vb], vmul va vb, ?_, TT.mul vb htt,
      VPos_vmul hva hvb, ?_, ?_, ?_⟩
    · rw [hrep]
      exact happ
    · rw [ratOfV_vmul, hqa, hqb]
    · rw [hrep]
      obtain ⟨d, hd, hdd⟩ := hheadA
      exact ⟨d, head?_append_left hd, hdd⟩
    · rw [hrep]
      obtain ⟨d, hd, hdd⟩ := hlastB
      refine ⟨d, ?_, hdd⟩
      rw [getLast?_append_right (by simp), List.getLast?_cons_cons]
      exact hd
  | div hterm hnum hr ih =>
    next A qa B qb =>
    obtain ⟨ts, va, htok, htt, hva, hqa, hheadA, hlastA⟩ := ih
    obtain ⟨vb, htokB, hvb, hqb, hheadB, hlastB⟩ := SNum_lex hnum
    obtain ⟨bd, hbdh, hbdd⟩ := hheadB
    obtain ⟨bt, rfl⟩ := cons_of_head hbdh
    obtain ⟨c, hok, hcv, hcval⟩ := vdiv_ok hva hvb (by rw [hqb]; exact hr)
    have hrep : replaceSyms (A ++ '÷' :: bd :: bt) =
        replaceSyms A ++ '/' :: bd :: bt := by
      rw [replaceSyms_append, replaceSyms_divc, SNum_replace hnum]
    have happ := tok_append (replaceSyms A).length (replaceSyms A) (le_refl _)
      (bd :: bt) '/' Tok.div ts [Tok.lit vb] (by decide) ⟨bd, bt, rfl, hbdd⟩ hlastA
      htok htokB
    refine ⟨ts ++ [Tok.div, Tok.lit vb], c, ?_, TT.div htt hok, hcv, ?_, ?_, ?_⟩
    · rw [hrep]
      exact happ
    · rw [hcval, hqa, hqb]
    · rw [hrep]
      obtain ⟨d, hd, hdd⟩ := hheadA
      exact ⟨d, head?_append_left hd, hdd⟩
    · rw [hrep]
      obtain ⟨d, hd, hdd⟩ := hlastB
      refine ⟨d, ?_, hdd⟩
      rw [getLast?_append_right (by simp), List.getLast?_cons_cons]
      exact hd
  | mod hterm hnum hr ih =>
    next A qa B qb =>
    obtain ⟨ts, va, htok, htt, hva, hqa, hheadA, hlastA⟩ := ih
    obtain ⟨vb, htokB, hvb, hqb, hheadB, hlastB⟩ := SNum_lex hnum
    obtain ⟨bd, hbdh, hbdd⟩ := hheadB
    obtain ⟨bt, rfl⟩ := cons_of_head hbdh
    obtain ⟨c, hok, hcv, hcval⟩ := vmod_ok hva hvb
      (by rw [hqb]; exact lt_of_le_of_ne (SNumOK_nonneg hnum) (Ne.symm hr))
    have hrep : replaceSyms (A ++ '%' :: bd :: bt) =
        replaceSyms A ++ '%' :: bd :: bt := by
      rw [replaceSyms_append, replaceSyms_modc, SNum_replace hnum]
    have happ := tok_append (replaceSyms A).length (replaceSyms A) (le_refl _)
      (bd :: bt) '%' Tok.mod ts [Tok.lit vb] (by decide) ⟨bd, bt, rfl, hbdd⟩ hlastA
      htok htokB
    refine ⟨ts ++ [Tok.mod, Tok.lit vb], c, ?_, TT.mod htt hok, hcv, ?_, ?_, ?_⟩
    · rw [hrep]
      exact happ
    · rw [hcval, hqa, hqb]
    · rw [hrep]
      obtain ⟨d, hd, hdd⟩ := hheadA
      exact ⟨d, head?_append_left hd, hdd⟩
    · rw [hrep]
      obtain ⟨d, hd, hdd⟩ := hlastB
      refine ⟨d, ?_, hdd⟩
      rw [getLast?_append_right (by simp), List.getLast?_cons_cons]
      exact hd

theorem SExpr_lex {cs : List Char} {q : ℚ} (h : SExpr false cs q) :
    ∃ ts v, tokenize (replaceSyms cs) = some ts ∧ TE ts v ∧ VPos v ∧ ratOfV v = q ∧
      (∃ d, (replaceSyms cs).head? = some d ∧ d.isDigit = true) ∧
      (∃ d, (replaceSyms cs).getLast? = some d ∧ d.isDigit = true) := by
  induction h with
  | term hterm =>
    obtain ⟨ts, v, htok, htt, hv, hq, hhead, hlast⟩ := STerm_lex hterm
    exact ⟨ts, v, htok, TE.base htt, hv, hq, hhead, hlast⟩
  | add hexpr hterm ih =>
    next A qa B qb =>
    obtain ⟨ts, va, htok, hte, hva, hqa, hheadA, hlastA⟩ := ih
    obtain ⟨us, vb, htokB, httB, hvb, hqb, hheadB, hlastB⟩ := STerm_lex hterm
    obtain ⟨bd, hbdh, hbdd⟩ := hheadB
    obtain ⟨bt, hbt⟩ := cons_of_head hbdh
    have hrep : replaceSyms (A ++ '+' :: B) =
        replaceSyms A ++ '+' :: replaceSyms B := by
      rw [replaceSyms_append, replaceSyms_addc]
    have happ := tok_append (replaceSyms A).length (replaceSyms A) (le_refl _)
      (replaceSyms B) '+' Tok.add ts us (by decide) ⟨bd, bt, hbt, hbdd⟩ hlastA
      htok htokB
    refine ⟨ts ++ Tok.add :: us, vadd va vb, ?_, TE.add hte httB,
      VPos_vadd hva hvb, ?_, ?_, ?_⟩
    · rw [hrep]
      exact happ
    · rw [ratOfV_vadd hva hvb, hqa, hqb]
    · rw [hrep]
      obtain ⟨d, hd, hdd⟩ := hheadA
      exact ⟨d, head?_append_left hd, hdd⟩
    · rw [hrep]
      obtain ⟨d, hd, hdd⟩ := hlastB
      refine ⟨d, ?_, hdd⟩
      rw [getLast?_append_right (by simp)]
      rw [hbt, List.getLast?_cons_cons, ← hbt]
      exact hd
  | sub hexpr hterm ih =>
    next A qa B qb =>
    obtain ⟨ts, va, htok, hte, hva, hqa, hheadA, hlastA⟩ := ih
    obtain ⟨us, vb, htokB, httB, hvb, hqb, hheadB, hlastB⟩ := STerm_lex hterm
    obtain ⟨bd, hbdh, hbdd⟩ := hheadB
    obtain ⟨bt, hbt⟩ := cons_of_head hbdh
    have hrep : replaceSyms (A ++ '−' :: B) =
        replaceSyms A ++ '-' :: replaceSyms B := by
      rw [replaceSyms_append, replaceSyms_subc]
    have happ := tok_append (replaceSyms A).length (replaceSyms A) (le_refl _)
      (replaceSyms B) '-' Tok.sub ts us (by decide) ⟨bd, bt, hbt, hbdd⟩ hlastA
      htok htokB
    refine ⟨ts ++ Tok.sub :: us, vsub va vb, ?_, TE.sub hte httB,
      VPos_vsub hva hvb, ?_, ?_, ?_⟩
    · rw [hrep]
      exact happ
    · rw [ratOfV_vsub hva hvb, hqa, hqb]
    · rw [hrep]
      obtain ⟨d, hd, hdd⟩ := hheadA
      exact ⟨d, head?_append_left hd, hdd⟩
    · rw [hrep]
      obtain ⟨d, hd, hdd⟩ := hlastB
      refine ⟨d, ?_, hdd⟩
      rw [getLast?_append_right (by simp)]
      rw [hbt, List.getLast?_cons_cons, ← hbt]
      exact hd

theorem pairToks_append (l1 l2 : List (BOp × Value)) :
    pairToks (l1 ++ l2) = pairToks l1 ++ pairToks l2 := by
  induction l1 with
  | nil => rfl
  | cons p rest ih =>
    obtain ⟨b, v⟩ := p
    show tokOf b :: Tok.lit v :: pairToks (rest ++ l2) = _
    rw [ih]
    rfl

theorem binOf_tokOf (b : BOp) : binOf (tokOf b) = some b := by cases b <;> rfl

theorem takeSigns_lit (v : Value) (ts : List Tok) :
    takeSigns (Tok.lit v :: ts) = ([], Tok.lit v :: ts) := rfl

theorem scanF_pairs : ∀ (l : List (BOp × Value)) (fu : ℕ), (pairToks l).length < fu →
    scanF fu (pairToks l) =
      some (l.map (fun p => (p.1, (([] : List Bool), PAtom.num p.2)))) := by
  intro l
  induction l with
  | nil =>
    intro fu _
    show scanF fu [] = some []
    cases fu <;> rfl
  | cons p rest ih =>
    intro fu hfu
    obtain ⟨b, v⟩ := p
    obtain ⟨f, rfl⟩ : ∃ f, fu = f + 1 := ⟨fu - 1, by omega⟩
    show scanF (f + 1) (tokOf b :: Tok.lit v :: pairToks rest) = _
    rw [scanF.eq_def]
    dsimp only
    rw [binOf_tokOf]
    dsimp only
    rw [takeSigns_lit]
    dsimp only
    have hlen : (pairToks ((b, v) :: rest)).length = (pairToks rest).length + 2 := by
      show (tokOf b :: Tok.lit v :: pairToks rest).length = _
      simp
    rw [ih f (by rw [hlen] at hfu; omega)]
    rfl

theorem scan_flat (v : Value) (l : List (BOp × Value)) :
    scan (Tok.lit v :: pairToks l) =
      some (((([] : List Bool), PAtom.num v),
        l.map (fun p => (p.1, (([] : List Bool), PAtom.num p.2))))) := by
  rw [scan]
  rw [takeSigns_lit]
  dsimp only
  rw [scanF_pairs l ((pairToks l).length + 1) (Nat.lt_succ_self _)]
  rfl

theorem collapsePow_cons_add (it j : Item) (rest : List (BOp × Item)) :
    collapsePow it ((BOp.add, j) :: rest) =
      (uval it, (op2Of BOp.add, (collapsePow j rest).1) :: (collapsePow j rest).2) := rfl

theorem collapsePow_cons_sub (it j : Item) (rest : List (BOp × Item)) :
    collapsePow it ((BOp.sub, j) :: rest) =
      (uval it, (op2Of BOp.sub, (collapsePow j rest).1) :: (collapsePow j rest).2) := rfl

theorem collapsePow_cons_mul (it j : Item) (rest : List (BOp × Item)) :
    collapsePow it ((BOp.mul, j) :: rest) =
      (uval it, (op2Of BOp.mul, (collapsePow j rest).1) :: (collapsePow j rest).2) := rfl

theorem collapsePow_cons_div (it j : Item) (rest : List (BOp × Item)) :
    collapsePow it ((BOp.div, j) :: rest) =
      (uval it, (op2Of BOp.div, (collapsePow j rest).1) :: (collapsePow j rest).2) := rfl

theorem collapsePow_cons_ddiv (it j : Item) (rest : List (BOp × Item)) :
    collapsePow it ((BOp.ddiv, j) :: rest) =
      (uval it, (op2Of BOp.ddiv, (collapsePow j rest).1) :: (collapsePow j rest).2) := rfl

theorem collapsePow_cons_mod (it j : Item) (rest : List (BOp × Item)) :
    collapsePow it ((BOp.mod, j) :: rest) =
      (uval it, (op2Of BOp.mod, (collapsePow j rest).1) :: (collapsePow j rest).2) := rfl

theorem collapsePow_flat : ∀ (l : List (BOp × Value)) (it : Item),
    (∀ p ∈ l, p.1 ≠ BOp.pow) →
    collapsePow it (l.map (fun p => (p.1, (([] : List Bool), PAtom.num p.2)))) =
      (uval it, l.map (fun p => (op2Of p.1, uval (([] : List Bool), PAtom.num p.2)))) := by
  intro l
  induction l with
  | nil => intro it _; rfl
  | cons p rest ih =>
    intro it h
    obtain ⟨b, v⟩ := p
    have hb : b ≠ BOp.pow := h (b, v) (List.mem_cons_self _ _)
    have hr := ih ((([] : List Bool), PAtom.num v))
      (fun p hp => h p (List.mem_cons_of_mem _ hp))
    cases b
    case pow => exact absurd rfl hb
    case add =>
      rw [List.map_cons, collapsePow_cons_add, hr]
      rfl
    case sub =>
      rw [List.map_cons, collapsePow_cons_sub, hr]
      rfl
    case mul =>
      rw [List.map_cons, collapsePow_cons_mul, hr]
      rfl
    case div =>
      rw [List.map_cons, collapsePow_cons_div, hr]
      rfl
    case ddiv =>
      rw [List.map_cons, collapsePow_cons_ddiv, hr]
      rfl
    case mod =>
      rw [List.map_cons, collapsePow_cons_mod, hr]
      rfl

theorem runFlat_flat (v : Value) (l : List (BOp × Value))
    (h : ∀ p ∈ l, p.1 ≠ BOp.pow) :
    runFlat (((([] : List Bool), PAtom.num v),
        l.map (fun p => (p.1, (([] : List Bool), PAtom.num p.2))))) =
      finish ((l.map (fun p => (op2Of p.1, uval (([] : List Bool), PAtom.num p.2)))).foldl
        step ⟨none, false, .ok (.v v)⟩) := by
  rw [runFlat]
  dsimp only
  rw [collapsePow_flat l (([], PAtom.num v)) h]
  rfl

theorem TT_flat {ts : List Tok} {w : Value} (h : TT ts w) :
    ∃ v l, ts = Tok.lit v :: pairToks l ∧ (∀ p ∈ l, p.1 ≠ BOp.pow) ∧
      ∀ (s : Option EVP) (i : Bool),
        ((l.map (fun p => (op2Of p.1, uval (([] : List Bool), PAtom.num p.2)))).foldl step
          ⟨s, i, .ok (.v v)⟩) = ⟨s, i, .ok (.v w)⟩ := by
  induction h with
  | num v => exact ⟨v, [], rfl, by simp, fun s i => rfl⟩
  | mul b hts ih =>
    obtain ⟨v, l, rfl, hnp, hfold⟩ := ih
    refine ⟨v, l ++ [(BOp.mul, b)], ?_, ?_, ?_⟩
    · rw [pairToks_append]
      rfl
    · intro p hp
      rcases List.mem_append.mp hp with hp | hp
      · exact hnp p hp
      · rw [List.mem_singleton.mp hp]
        intro hcon
        exact BOp.noConfusion hcon
    · intro s i
      rw [List.map_append, List.foldl_append, hfold s i]
      rfl
  | div hts hok ih =>
    next a b c =>
    obtain ⟨v, l, rfl, hnp, hfold⟩ := ih
    refine ⟨v, l ++ [(BOp.div, b)], ?_, ?_, ?_⟩
    · rw [pairToks_append]
      rfl
    · intro p hp
      rcases List.mem_append.mp hp with hp | hp
      · exact hnp p hp
      · rw [List.mem_singleton.mp hp]
        intro hcon
        exact BOp.noConfusion hcon
    · intro s i
      rw [List.map_append, List.foldl_append, hfold s i]
      show (⟨s, i, vdivP (.ok (.v a)) (uval (([] : List Bool), PAtom.num b))⟩ : EvSt) = _
      rw [show vdivP (.ok (.v a)) (uval (([] : List Bool), PAtom.num b)) =
        (vdiv a b).map PV.v from rfl, hok]
      rfl
  | mod hts hok ih =>
    next a b c =>
    obtain ⟨v, l, rfl, hnp, hfold⟩ := ih
    refine ⟨v, l ++ [(BOp.mod, b)], ?_, ?_, ?_⟩
    · rw [pairToks_append]
      rfl
    · intro p hp
      rcases List.mem_append.mp hp with hp | hp
      · exact hnp p hp
      · rw [List.mem_singleton.mp hp]
        intro hcon
        exact BOp.noConfusion hcon
    · intro s i
      rw [List.map_append, List.foldl_append, hfold s i]
      show (⟨s, i, vmodP (.ok (.v a)) (uval (([] : List Bool), PAtom.num b))⟩ : EvSt) = _
      rw [show vmodP (.ok (.v a)) (uval (([] : List Bool), PAtom.num b)) =
        (vmod a b).map PV.v from rfl, hok]
      rfl

theorem TE_flat {ts : List Tok} {w : Value} (h : TE ts w) :
    ∃ v l, ts = Tok.lit v :: pairToks l ∧ (∀ p ∈ l, p.1 ≠ BOp.pow) ∧
      finish ((l.map (fun p => (op2Of p.1, uval (([] : List Bool), PAtom.num p.2)))).foldl
        step ⟨none, false, .ok (.v v)⟩) = .ok (.v w) := by
  induction h with
  | base htt =>
    obtain ⟨v, l, rfl, hnp, hfold⟩ := TT_flat htt
    refine ⟨v, l, rfl, hnp, ?_⟩
    rw [hfold none false]
    rfl
  | add hte htt ih =>
    next a b =>
    obtain ⟨v1, l1, rfl, hnp1, hfin1⟩ := ih
    obtain ⟨v2, l2, rfl, hnp2, hfold2⟩ := TT_flat htt
    refine ⟨v1, l1 ++ (BOp.add, v2) :: l2, ?_, ?_, ?_⟩
    · rw [pairToks_append]
      rfl
    · intro p hp
      rcases List.mem_append.mp hp with hp | hp
      · exact hnp1 p hp
      · rcases List.mem_cons.mp hp with rfl | hp
        · intro hcon
          exact BOp.noConfusion hcon
        · exact hnp2 p hp
    · rw [List.map_append, List.foldl_append, List.map_cons, List.foldl_cons]
      have hstep : ∀ (st : EvSt),
          step st (op2Of BOp.add, uval (([] : List Bool), PAtom.num v2)) =
            ⟨some (finish st), false, .ok (.v v2)⟩ := fun st => rfl
      rw [hstep, hfin1, hfold2 (some (.ok (.v a))) false]
      rfl
  | sub hte htt ih =>
    next a b =>
    obtain ⟨v1, l1, rfl, hnp1, hfin1⟩ := ih
    obtain ⟨v2, l2, rfl, hnp2, hfold2⟩ := TT_flat htt
    refine ⟨v1, l1 ++ (BOp.sub, v2) :: l2, ?_, ?_, ?_⟩
    · rw [pairToks_append]
      rfl
    · intro p hp
      rcases List.mem_append.mp hp with hp | hp
      · exact hnp1 p hp
      · rcases List.mem_cons.mp hp with rfl | hp
        · intro hcon
          exact BOp.noConfusion hcon
        · exact hnp2 p hp
    · rw [List.map_append, List.foldl_append, List.map_cons, List.foldl_cons]
      have hstep : ∀ (st : EvSt),
          step st (op2Of BOp.sub, uval (([] : List Bool), PAtom.num v2)) =
            ⟨some (finish st), true, .ok (.v v2)⟩ := fun st => rfl
      rw [hstep, hfin1, hfold2 (some (.ok (.v a))) true]
      rfl

theorem TE_run {ts : List Tok} {w : Value} (h : TE ts w) :
    ∃ fl, scan ts = some fl ∧ runFlat fl = .ok (.v w) := by
  obtain ⟨v, l, rfl, hnp, hfin⟩ := TE_flat h
  exact ⟨((([] : List Bool), PAtom.num v),
      l.map (fun p => (p.1, (([] : List Bool), PAtom.num p.2)))),
    scan_flat v l, by rw [runFlat_flat v l hnp]; exact hfin⟩

-- == more lemmas are inserted above this line ==

/-! ## The claims -/

/-- Claim C1 (counterexample): under the spec's plain reading of a
numeral as a digit sequence, `05` is a well-formed expression with
value `5`, but the code rejects it (`eval` raises `SyntaxError` on a
leading-zero integer literal), returning `invalidExpression` and
resetting the expression instead of computing 5. -/
theorem claim_C1_counterexample :
    SExpr true ['0', '5'] ((5 : ℚ)) ∧
    calcStep ['0', '5'] = ([], some CalcErr.invalidExpression) := by
  constructor
  · refine SExpr.term (STerm.num (Or.inl ⟨['0', '5'], rfl, by decide, by decide,
      Or.inl rfl, ?_⟩))
    rw [show digitsVal ['0', '5'] = 5 from by decide]
    norm_num
  · decide

/-- Claim C1 (amended): for every well-formed expression of the five-key
grammar whose integer numerals carry no leading zeros, `eval` succeeds
and returns exactly the mathematically correct value under standard
operator precedence (`×`, `÷`, `%` before `+`, `−`, left-to-right within
a level, `%` read as floored modulo); in particular `2+3×4` evaluates to
`14` and displays `14`. -/
theorem claim_C1 :
    (∀ (cs : List Char) (q : ℚ), SExpr false cs q →
      ∃ v : Value, pyEval cs = some (.ok (.v v)) ∧ ratOfV v = q) ∧
    calcStep ['2', '+', '3', '×', '4'] = (['1', '4'], none) := by
  refine ⟨?_, by decide⟩
  intro cs q h
  obtain ⟨ts, v, htok, hte, hv, hq, _, _⟩ := SExpr_lex h
  obtain ⟨fl, hscan, hrun⟩ := TE_run hte
  refine ⟨v, ?_, hq⟩
  rw [pyEval.eq_def, htok]
  dsimp only
  rw [hscan]
  show some (runFlat fl) = some (.ok (.v v))
  rw [hrun]

/-- Claim C1 (witness): the amended claim applied to the derivation of
`2+3×4`, whose computed value is `2 + 3·4 = 14`. -/
theorem claim_C1_witness :
    ∃ v : Value, pyEval ['2', '+', '3', '×', '4'] = some (.ok (.v v)) ∧
      ratOfV v = 2 + 3 * 4 := by
  have h2 : SNumOK false ['2'] 2 := Or.inl ⟨['2'], rfl, by decide, by decide,
    Or.inr (fun h => absurd h (by decide)),
    by rw [show digitsVal ['2'] = 2 from by decide]; norm_num⟩
  have h3 : SNumOK false ['3'] 3 := Or.inl ⟨['3'], rfl, by decide, by decide,
    Or.inr (fun h => absurd h (by decide)),
    by rw [show digitsVal ['3'] = 3 from by decide]; norm_num⟩
  have h4 : SNumOK false ['4'] 4 := Or.inl ⟨['4'], rfl, by decide, by decide,
    Or.inr (fun h => absurd h (by decide)),
    by rw [show digitsVal ['4'] = 4 from by decide]; norm_num⟩
  have hder : SExpr false ['2', '+', '3', '×', '4'] (2 + 3 * 4 : ℚ) :=
    SExpr.add (SExpr.term (STerm.num h2)) (STerm.mul (STerm.num h3) h4)
  exact claim_C1.1 ['2', '+', '3', '×', '4'] (2 + 3 * 4) hder

/-- Claim C2 (counterexample): the on-screen `%` does not compute a
percentage.  `5%3` evaluates successfully to `2`, which is neither five
percent of three, three percent of five, nor five or three hundredths. -/
theorem claim_C2_counterexample :
    pyEval ['5', '%', '3'] = some (.ok (.v (.i 2))) ∧
    calcStep ['5', '%', '3'] = (['2'], none) ∧
    ratOfV (.i 2) ≠ specPercent 5 3 ∧ ratOfV (.i 2) ≠ specPercent 3 5 ∧
    ratOfV (.i 2) ≠ (5 : ℚ) / 100 ∧ ratOfV (.i 2) ≠ (3 : ℚ) / 100 := by
  refine ⟨by decide, by decide, ?_, ?_, ?_, ?_⟩ <;> norm_num [specPercent, ratOfV]

/-- Claim C2 (amended): the `%` key is Python's floored modulo, not a
percentage: `5%3` evaluates to `2`; on integers it is `Int.fmod`, and on
any values with a positive divisor it computes `a - b⌊a/b⌋`. -/
theorem claim_C2 :
    calcStep ['5', '%', '3'] = (['2'], none) ∧
    (∀ m n : ℤ, n ≠ 0 → vmod (.i m) (.i n) = .ok (.i (Int.fmod m n))) ∧
    (∀ a b : Value, VPos a → VPos b → 0 < ratOfV b →
      ∃ c, vmod a b = .ok c ∧ ratOfV c = ratOfV a - ratOfV b * (⌊ratOfV a / ratOfV b⌋ : ℚ)) := by
  refine ⟨by decide, ?_, ?_⟩
  · intro m n hn
    have hz : ¬(toF (Value.i n)).n = 0 := by simpa [toF] using hn
    simp [vmod, hz]
  · intro a b ha hb h
    obtain ⟨c, h1, _, h3⟩ := vmod_ok ha hb h
    exact ⟨c, h1, h3⟩

/-- Claim C2 (witness): the amended claim applied at `7 % 3` and at
`5.5 % 2`. -/
theorem claim_C2_witness :
    vmod (.i 7) (.i 3) = .ok (.i (Int.fmod 7 3)) ∧
    ∃ c, vmod (.f ⟨11, 2⟩) (.i 2) = .ok c ∧
      ratOfV c = ratOfV (.f ⟨11, 2⟩) - ratOfV (.i 2) * (⌊ratOfV (.f ⟨11, 2⟩) / ratOfV (.i 2)⌋ : ℚ) :=
  ⟨claim_C2.2.1 7 3 (by norm_num),
    claim_C2.2.2 (.f ⟨11, 2⟩) (.i 2) (by norm_num [VPos]) (VPos_i 2) (by norm_num [ratOfV])⟩

/-- Claim C3 (counterexample): the reachable expression `...` (three
presses of the decimal-point key) makes `eval` return the `Ellipsis`
object; `calculate` succeeds with no error and stores the non-numeric
string `Ellipsis`, which reads back as no number at all — refuting the
claim that every successful evaluation displays the rounded numeric
result. -/
theorem claim_C3_counterexample :
    calcStep ['.', '.', '.'] = (ellipsisChars, none) ∧
    pyEval ['.', '.', '.'] = some (.ok .ell) ∧
    readNumeral ellipsisChars = none := by
  refine ⟨by decide, by decide, by decide⟩

/-- Claim C3 (amended): a successful evaluation stores exactly
`str(result)`.  When the result is a number the stored string is the
formatted result: it reads back as exactly the 10-decimal-place rounding
of the computed value; when that rounded value is mathematically an
integer the string has no decimal point, otherwise it has one and no
trailing zero.  The one non-numeric result reachable from the keypad is
the `Ellipsis` object (from `...`), stored as the string `Ellipsis`.
Concretely `1÷4` displays `0.25` and `4÷2` displays `2`. -/
theorem claim_C3 :
    (∀ e r, calcStep e = (r, none) →
      (∃ v, pyEval e = some (.ok (.v v)) ∧ r = format v ∧
        readNumeral r = some (displayVal v) ∧
        ((displayVal v).den = 1 → '.' ∉ r) ∧
        ((displayVal v).den ≠ 1 → '.' ∈ r ∧ r.getLast? ≠ some '0')) ∨
      (pyEval e = some (.ok .ell) ∧ r = ellipsisChars)) ∧
    calcStep ['1', '÷', '4'] = (['0', '.', '2', '5'], none) ∧
    calcStep ['4', '÷', '2'] = (['2'], none) := by
  refine ⟨?_, by decide, by decide⟩
  intro e r h
  rcases calcStep_ok_num h with ⟨v, hp, hr⟩ | ⟨hp, hr⟩
  · left
    have hV := pyEval_VPos hp
    subst hr
    refine ⟨v, hp, rfl, ?_⟩
    cases v with
    | i n =>
      have hden : (displayVal (Value.i n)).den = 1 := by
        rw [displayVal]
        exact Rat.den_intCast n
      refine ⟨?_, fun _ => dot_not_mem_intChars n, fun hd => absurd hden hd⟩
      rw [show format (Value.i n) = intChars n from rfl, readNumeral_intChars, displayVal]
    | f x =>
      have hd : 0 < x.d := hV
      rw [show format (Value.f x) = (if mOf x % (tenPow10 : ℤ) = 0 then
        intChars (Int.fdiv (mOf x) (tenPow10 : ℤ)) else decChars (mOf x)) from rfl]
      by_cases hm : mOf x % (tenPow10 : ℤ) = 0
      · rw [if_pos hm]
        have hdvd : (tenPow10 : ℤ) ∣ mOf x := Int.dvd_of_emod_eq_zero hm
        have hval : displayVal (.f x) = ((Int.fdiv (mOf x) (tenPow10 : ℤ) : ℤ) : ℚ) := by
          rw [displayVal_f hd, fdiv_exact hdvd]
        refine ⟨?_, fun _ => dot_not_mem_intChars _, ?_⟩
        · rw [readNumeral_intChars, hval]
        · intro hden
          exfalso
          apply hden
          rw [hval]
          exact Rat.den_intCast _
      · rw [if_neg hm]
        have hnd : ¬ (tenPow10 : ℤ) ∣ mOf x := fun hdvd => hm (Int.emod_eq_zero_of_dvd hdvd)
        obtain ⟨hread, hdot, hlast⟩ := decChars_spec hnd
        have hval : displayVal (.f x) = ((mOf x : ℤ) : ℚ) / 10 ^ 10 := displayVal_f hd
        refine ⟨?_, ?_, fun _ => ⟨hdot, hlast⟩⟩
        · rw [hread, hval]
        · intro hden
          exfalso
          rw [hval] at hden
          exact hnd (den_one_iff.mp hden)
  · right
    exact ⟨hp, hr⟩

/-- Claim C3 (witness): the amended universal applied at `1÷4`. -/
theorem claim_C3_witness :
    (∃ v, pyEval ['1', '÷', '4'] = some (.ok (.v v)) ∧ ['0', '.', '2', '5'] = format v ∧
      readNumeral ['0', '.', '2', '5'] = some (displayVal v) ∧
      ((displayVal v).den = 1 → '.' ∉ ['0', '.', '2', '5']) ∧
      ((displayVal v).den ≠ 1 → '.' ∈ ['0', '.', '2', '5'] ∧
        ['0', '.', '2', '5'].getLast? ≠ some '0')) ∨
    (pyEval ['1', '÷', '4'] = some (.ok .ell) ∧ ['0', '.', '2', '5'] = ellipsisChars) :=
  claim_C3.1 ['1', '÷', '4'] ['0', '.', '2', '5'] (by decide)

/-- Claim C4: a zero-divisor evaluation error is classified
`divisionByZero` and resets the expression; `vdiv` errors on every
mathematically-zero divisor; and `5÷0` concretely produces the error
with an empty new expression. -/
theorem claim_C4 :
    (∀ e, pyEval e = some (.error .zeroDiv) → calcStep e = ([], some .divisionByZero)) ∧
    (∀ a b : Value, VPos b → ratOfV b = 0 → vdiv a b = .error .zeroDiv) ∧
    calcStep ['5', '÷', '0'] = ([], some .divisionByZero) := by
  refine ⟨?_, fun a b hb h => vdiv_zero a hb h, by decide⟩
  intro e h
  simp [calcStep, h]

/-- Claim C4 (witness): applied at the expression `5÷0` and at the
division `5 / 0`. -/
theorem claim_C4_witness :
    calcStep ['5', '÷', '0'] = ([], some .divisionByZero) ∧
    vdiv (.i 5) (.i 0) = .error .zeroDiv :=
  ⟨claim_C4.1 ['5', '÷', '0'] (by decide),
    claim_C4.2.1 (.i 5) (.i 0) (VPos_i 0) (by norm_num [ratOfV])⟩

/-- Claim C5 (counterexample): `5−−3` is not a well-formed expression of
the spec grammar (two adjacent operator keys), yet the code evaluates it
successfully to `8` (Python reads the second `−` as a unary minus)
instead of failing with `invalidExpression`. -/
theorem claim_C5_counterexample :
    (¬ ∃ q, SExpr true ['5', '−', '−', '3'] q) ∧
    calcStep ['5', '−', '−', '3'] = (['8'], none) := by
  refine ⟨?_, by decide⟩
  rintro ⟨q, h⟩
  have hc := (sexpr_chainFacts h).2.1
  rw [AdjOk, List.chain'_cons, List.chain'_cons] at hc
  exact hc.2.1 ⟨by decide, by decide⟩

/-- Claim C5 (amended): every expression the evaluator's own grammar
rejects — in particular a trailing operator (`5+`) and the empty
expression — yields `invalidExpression` and resets the expression to
empty.  (The evaluator's grammar is wider than the five-key grammar: it
also accepts unary sign chains, `÷÷` as floor division, `××` as power
and the `...` Ellipsis literal, so not every operator-adjacent string is
rejected; moreover `...` strings that survive parsing can fail at
runtime instead — `5+...` is a `TypeError`, classified
`evaluationError`, not `invalidExpression`.) -/
theorem claim_C5 :
    (∀ e, pyEval e = none → calcStep e = ([], some .invalidExpression)) ∧
    calcStep ['5', '+'] = ([], some .invalidExpression) ∧
    calcStep [] = ([], some .invalidExpression) ∧
    calcStep ['5', '+', '.', '.', '.'] = ([], some .evaluationError) := by
  refine ⟨?_, by decide, by decide, by decide⟩
  intro e h
  simp [calcStep, h]

/-- Claim C5 (witness): the amended claim applied at `5+`. -/
theorem claim_C5_witness :
    calcStep ['5', '+'] = ([], some .invalidExpression) :=
  claim_C5.1 ['5', '+'] (by decide)

/-- Claim C6: whenever `calculate` fails, with any error classification,
the new expression is empty. -/
theorem claim_C6 :
    ∀ e err, (calcStep e).2 = some err → (calcStep e).1 = [] := by
  intro e err h
  cases hp : pyEval e with
  | none => simp [calcStep, hp]
  | some r =>
    cases r with
    | error pe => cases pe <;> simp [calcStep, hp]
    | ok v => simp [calcStep, hp] at h

/-- Claim C6 (witness): applied to the failing expressions `+` (syntax
error) and `1÷0` (division by zero). -/
theorem claim_C6_witness :
    (calcStep ['+']).1 = [] ∧ (calcStep ['1', '÷', '0']).1 = [] :=
  ⟨claim_C6 ['+'] .invalidExpression (by decide),
    claim_C6 ['1', '÷', '0'] .divisionByZero (by decide)⟩

/-- Claim C7: chaining — evaluating `2+2` makes the expression `4`;
appending `+1` to it gives `4+1`, which evaluates to `5`; in general a
successful `calculate` stores exactly the formatted result as the new
expression and `append_to_expression` extends the stored string. -/
theorem claim_C7 :
    calcStep ['2', '+', '2'] = (['4'], none) ∧
    append_to_expression ['4'] ['+', '1'] = ['4', '+', '1'] ∧
    calcStep ['4', '+', '1'] = (['5'], none) ∧
    (∀ e r, calcStep e = (r, none) → ∃ w, pyEval e = some (.ok w) ∧ r = strOf w) ∧
    (∀ r cs, append_to_expression r cs = r ++ cs) := by
  refine ⟨by decide, rfl, by decide, ?_, fun _ _ => rfl⟩
  intro e r h
  exact calcStep_ok h

/-- Claim C7 (witness): the general chaining conjunct applied at `2+2`. -/
theorem claim_C7_witness :
    ∃ w, pyEval ['2', '+', '2'] = some (.ok w) ∧ ['4'] = strOf w :=
  claim_C7.2.2.2.1 ['2', '+', '2'] ['4'] (by decide)

/-- Claim C8: backspace removes exactly the last character of a
non-empty expression and is a no-op on the empty expression. -/
theorem claim_C8 :
    (∀ e c, backspace (e ++ [c]) = e) ∧ backspace [] = [] :=
  ⟨fun e c => List.dropLast_concat, rfl⟩

/-- Claim C9: `5%0` fails with the `divisionByZero` classification and
resets the expression, although no `÷` occurs; in general `%` errors
with `zeroDiv` on every mathematically-zero right operand. -/
theorem claim_C9 :
    calcStep ['5', '%', '0'] = ([], some .divisionByZero) ∧
    (∀ a b : Value, VPos b → ratOfV b = 0 → vmod a b = .error .zeroDiv) := by
  exact ⟨by decide, fun a b hb h => vmod_zero a hb h⟩

/-- Claim C9 (witness): the modulo-by-zero conjunct applied at `5 % 0`. -/
theorem claim_C9_witness : vmod (.i 5) (.i 0) = .error .zeroDiv :=
  claim_C9.2 (.i 5) (.i 0) (VPos_i 0) (by norm_num [ratOfV])

/-- Claim C10: successful evaluation is idempotent on its output —
whenever `calculate` succeeds and stores the formatted result `r`,
running `calculate` again on `r` succeeds and leaves `r` unchanged. -/
theorem claim_C10 : ∀ e r, calcStep e = (r, none) → calcStep r = (r, none) := by
  intro e r h
  rcases calcStep_ok_num h with ⟨v, hp, hr⟩ | ⟨hp, hr⟩
  case inr =>
    subst hr
    decide
  have hV := pyEval_VPos hp
  subst hr
  cases v with
  | i n => exact calcStep_of_ok (pyEval_intChars n)
  | f x =>
    have hd : 0 < x.d := hV
    rw [show format (Value.f x) = (if mOf x % (tenPow10 : ℤ) = 0 then
      intChars (Int.fdiv (mOf x) (tenPow10 : ℤ)) else decChars (mOf x)) from rfl]
    by_cases hm : mOf x % (tenPow10 : ℤ) = 0
    · rw [if_pos hm]
      exact calcStep_of_ok (pyEval_intChars _)
    · rw [if_neg hm]
      have hnd : ¬ (tenPow10 : ℤ) ∣ mOf x := fun hdvd => hm (Int.emod_eq_zero_of_dvd hdvd)
      obtain ⟨y, hpy, hyd, hyv⟩ := pyEval_decChars hnd
      rw [calcStep_of_ok hpy, format_of_val hyd hnd hyv]

/-- Claim C10 (witness): applied at `1÷4`, whose result `0.25`
re-evaluates to itself. -/
theorem claim_C10_witness :
    calcStep ['0', '.', '2', '5'] = (['0', '.', '2', '5'], none) :=
  claim_C10 ['1', '÷', '4'] ['0', '.', '2', '5'] (by decide)
